import Mathlib

/-!
Verification development for the `electrum2descriptors` library: a shallow
embedding of the version-sentinel codec, the descriptor formatter and the
wallet-container model, together with theorems settling the specification
claims about them.

Strings are modelled as `List Char` (`Str`), byte sequences as `List Nat`
with an explicit `< 256` bound where it matters.  The external
base58-with-checksum codec (the `bitcoin::base58` collaborator, excluded
from the core by the specification) is abstracted as a structure
`Base58Check` carrying its documented contract; an executable model codec
is constructed later in the file and used for all concrete witnesses.
Rust panics (out-of-bounds indexing, `unwrap`) are modelled by a dedicated
error value `Err.panicked`, so that panic-freedom is a provable statement.
-/

namespace E2D

/-- Strings of the embedded program, modelled as lists of characters. -/
abbrev Str := List Char

/-- Error values of the embedded program.  The Rust code uses a mixture of
`Electrum2DescriptorError` variants and ad-hoc `String` messages; each
distinct error site is mapped to one constructor here.  `panicked` models a
Rust panic (out-of-bounds slice, failing `unwrap`). -/
inductive Err where
  | base58Error
  | invalidLength (n : Nat)
  | invalidExtendedKeyVersion
  | invalidPublicKey
  | invalidPrivateKey
  | unknownType
  | unknownDescriptorFormat
  | unknownMultisigDescriptorFormat
  | unknownMultisigKind
  | multisigFewSigners
  | wrongNumberOfKeyStores (got expected : Nat)
  | numberSignaturesKeyStores (x expected : Nat)
  | tooManyKeyStores (n : Nat)
  | unknownWalletType
  | serdeTypeMismatch
  | panicked
  deriving DecidableEq

/-- Bitcoin networks appearing in the sentinel tables (`bitcoin::Network`,
restricted to the two constructors the tables use). -/
inductive Network where
  | bitcoin
  | testnet
  deriving DecidableEq

/-- `bitcoin::NetworkKind`: the network class stored inside an `Xpub`. -/
inductive NetworkKind where
  | main
  | test
  deriving DecidableEq

/-- `NetworkKind::from(network)`. -/
def Network.toKind : Network → NetworkKind
  | .bitcoin => .main
  | .testnet => .test

/-- Big-endian 4-byte rendering of a 32-bit number
(`u32::to_be_bytes`). -/
def be4 (n : Nat) : List Nat :=
  [n / 16777216 % 256, n / 65536 % 256, n / 256 % 256, n % 256]

/-- `u32::from_be_bytes` on four bytes. -/
def fromBe4 (a b c d : Nat) : Nat :=
  ((a * 256 + b) * 256 + c) * 256 + d

/-- The external base58-with-4-byte-checksum codec
(`bitcoin::base58::encode_check` / `decode_check`), abstracted at its
documented interface: a lossless codec from byte sequences to strings whose
output alphabet is alphanumeric, with decoding as a partial inverse.  All
codec-level theorems are proved for every codec satisfying this contract;
a concrete executable model (`modelB58`) instantiates it for witnesses. -/
structure Base58Check where
  enc : List Nat → Str
  dec : Str → Option (List Nat)
  dec_enc : ∀ b, (∀ x ∈ b, x < 256) → dec (enc b) = some b
  enc_dec : ∀ s b, dec s = some b → enc b = s
  dec_bytes : ∀ s b, dec s = some b → ∀ x ∈ b, x < 256
  enc_alnum : ∀ b c, c ∈ enc b → c.isAlphanum = true

/-- `data[9..13].try_into().unwrap()` followed by `u32::from_be_bytes`:
succeeds exactly on four-byte slices (the `unwrap` panic is the other
branch). -/
def parseBe4 : List Nat → Except Err Nat
  | [a, b, c, d] => pure (fromBe4 a b c d)
  | _ => throw Err.panicked

/-- Propagation of the base58 collaborator's failure
(`base58::decode_check(s)?`). -/
def ofB58 : Option (List Nat) → Except Err (List Nat)
  | some d => pure d
  | none => throw Err.base58Error

/-- Rust range slicing `data[a..b]` on a byte vector: panics (models as
`Err.panicked`) when the range is out of bounds. -/
def sliceE (d : List Nat) (a b : Nat) : Except Err (List Nat) :=
  if a ≤ b ∧ b ≤ d.length then .ok ((d.drop a).take (b - a)) else .error .panicked

/-- Rust indexing `data[i]`: panics when out of bounds. -/
def getE (d : List Nat) (i : Nat) : Except Err Nat :=
  match d.get? i with
  | some v => .ok v
  | none => .error .panicked

/-- A compressed secp256k1 public key, modelled by its 33-byte SEC1
serialization (`secp256k1::PublicKey`; curve membership is delegated to the
elliptic-curve collaborator, the compressed-tag shape is checked). -/
structure PublicKey where
  bytes : List Nat
  deriving DecidableEq

/-- The group order of secp256k1, bounding valid secret scalars. -/
def secpOrder : Nat :=
  0xFFFFFFFFFFFFFFFFFFFFFFFFFFFFFFFEBAAEDCE6AF48A03BBFD25E8CD0364141

/-- Big-endian value of a byte string. -/
def beVal (l : List Nat) : Nat := l.foldl (fun a b => a * 256 + b) 0

/-- A secp256k1 secret key, modelled by its 32 big-endian bytes. -/
structure SecretKey where
  bytes : List Nat
  deriving DecidableEq

/-- `secp256k1::PublicKey::from_slice`: accepts exactly 33 bytes with a
compressed-point tag byte 2 or 3 (point validity delegated). -/
def publicKeyFromSlice (l : List Nat) : Except Err PublicKey :=
  if l.length = 33 ∧ (l.head? = some 2 ∨ l.head? = some 3) then .ok ⟨l⟩
  else .error .invalidPublicKey

/-- `secp256k1::SecretKey::from_slice`: accepts exactly 32 bytes encoding a
nonzero scalar below the group order. -/
def secretKeyFromSlice (l : List Nat) : Except Err SecretKey :=
  if l.length = 32 ∧ 0 < beVal l ∧ beVal l < secpOrder then .ok ⟨l⟩
  else .error .invalidPrivateKey

/-- `bitcoin::bip32::Xpub`: a public BIP32 node. -/
structure Xpub where
  network : NetworkKind
  depth : Nat
  parent_fingerprint : List Nat
  child_number : Nat
  chain_code : List Nat
  public_key : PublicKey
  deriving DecidableEq

/-- `bitcoin::bip32::ExtendedPrivKey`: a private BIP32 node (the embedded
`PrivateKey` wrapper adds no data beyond the secret key, since `compressed`
is always true and `network` duplicates the node's network). -/
structure Xpriv where
  network : Network
  depth : Nat
  parent_fingerprint : List Nat
  child_number : Nat
  chain_code : List Nat
  private_key : SecretKey
  deriving DecidableEq

/-- `ElectrumExtendedPubKey`: an `Xpub` together with the script-kind tag
recovered from the vendor version bytes. -/
structure ElectrumExtendedPubKey where
  xpub : Xpub
  kind : Str
  deriving DecidableEq

/-- `ElectrumExtendedPrivKey`: an `Xpriv` together with the script-kind tag. -/
structure ElectrumExtendedPrivKey where
  xprv : Xpriv
  kind : Str
  deriving DecidableEq

/-- The sentinel table for the public key family
(`initialize_sentinels` in `electrum_extended_pub_key.rs`):
version bytes, network, script-kind. -/
def sentinelsPub : List (List Nat × Network × Str) :=
  [([0x04, 0x35, 0x87, 0xcf], .testnet, "pkh".data),
   ([0x04, 0x4a, 0x52, 0x62], .testnet, "sh(wpkh".data),
   ([0x02, 0x42, 0x89, 0xef], .testnet, "sh(wsh".data),
   ([0x04, 0x5f, 0x1c, 0xf6], .testnet, "wpkh".data),
   ([0x02, 0x57, 0x54, 0x83], .testnet, "wsh".data),
   ([0x04, 0x88, 0xB2, 0x1E], .bitcoin, "pkh".data),
   ([0x04, 0x9d, 0x7c, 0xb2], .bitcoin, "sh(wpkh".data),
   ([0x02, 0x95, 0xb4, 0x3f], .bitcoin, "sh(wsh".data),
   ([0x04, 0xb2, 0x47, 0x46], .bitcoin, "wpkh".data),
   ([0x02, 0xaa, 0x7e, 0xd3], .bitcoin, "wsh".data)]

/-- The sentinel table for the private key family
(`initialize_sentinels` in `electrum_extended_priv_key.rs`). -/
def sentinelsPriv : List (List Nat × Network × Str) :=
  [([0x04, 0x35, 0x83, 0x94], .testnet, "pkh".data),
   ([0x04, 0x4a, 0x4e, 0x28], .testnet, "sh(wpkh".data),
   ([0x02, 0x42, 0x85, 0xb5], .testnet, "sh(wsh".data),
   ([0x04, 0x5f, 0x18, 0xbc], .testnet, "wpkh".data),
   ([0x02, 0x57, 0x50, 0x48], .testnet, "wsh".data),
   ([0x04, 0x88, 0xad, 0xE4], .bitcoin, "pkh".data),
   ([0x04, 0x9d, 0x78, 0x78], .bitcoin, "sh(wpkh".data),
   ([0x02, 0x95, 0xb0, 0x05], .bitcoin, "sh(wsh".data),
   ([0x04, 0xb2, 0x43, 0x0c], .bitcoin, "wpkh".data),
   ([0x02, 0xaa, 0x7a, 0x99], .bitcoin, "wsh".data)]

/-- `match_electrum_xpub`: resolve version bytes through the public
sentinel table. -/
def matchElectrumXpub (version : List Nat) : Except Err (Network × Str) :=
  match sentinelsPub.find? (fun sent => sent.1 == version) with
  | some sent => .ok (sent.2.1, sent.2.2)
  | none => .error .invalidExtendedKeyVersion

/-- `match_electrum_xprv`: resolve version bytes through the private
sentinel table. -/
def matchElectrumXprv (version : List Nat) : Except Err (Network × Str) :=
  match sentinelsPriv.find? (fun sent => sent.1 == version) with
  | some sent => .ok (sent.2.1, sent.2.2)
  | none => .error .invalidExtendedKeyVersion

/-- The body of `ElectrumExtendedPubKey::from_str` after base58-check
decoding: length guard, then fixed-offset field extraction. -/
def decodePubPayload (data : List Nat) : Except Err ElectrumExtendedPubKey := do
  if data.length ≠ 78 then throw (Err.invalidLength data.length) else
  let cnB ← sliceE data 9 13
  let cn ← parseBe4 cnB
  let vb ← sliceE data 0 4
  let nk ← matchElectrumXpub vb
  let depth ← getE data 4
  let fp ← sliceE data 5 9
  let cc ← sliceE data 13 45
  let pkB ← sliceE data 45 78
  let pk ← publicKeyFromSlice pkB
  pure ⟨⟨nk.1.toKind, depth, fp, cn, cc, pk⟩, nk.2⟩

/-- `ElectrumExtendedPubKey::from_str`: base58-check decode (delegated to
the codec collaborator `B`), then payload decoding. -/
def ElectrumExtendedPubKey.fromStr (B : Base58Check) (s : Str) :
    Except Err ElectrumExtendedPubKey := do
  let data ← ofB58 (B.dec s)
  decodePubPayload data

/-- The body of `ElectrumExtendedPrivKey::from_str` after base58-check
decoding.  Note: byte 45 (the pad byte before the secret scalar) is read
by neither branch — the secret key is taken from bytes 46..78 directly. -/
def decodePrivPayload (data : List Nat) : Except Err ElectrumExtendedPrivKey := do
  if data.length ≠ 78 then throw (Err.invalidLength data.length) else
  let cnB ← sliceE data 9 13
  let cn ← parseBe4 cnB
  let vb ← sliceE data 0 4
  let nk ← matchElectrumXprv vb
  let skB ← sliceE data 46 78
  let sk ← secretKeyFromSlice skB
  let depth ← getE data 4
  let fp ← sliceE data 5 9
  let cc ← sliceE data 13 45
  pure ⟨⟨nk.1, depth, fp, cn, cc, sk⟩, nk.2⟩

/-- `ElectrumExtendedPrivKey::from_str`. -/
def ElectrumExtendedPrivKey.fromStr (B : Base58Check) (s : Str) :
    Except Err ElectrumExtendedPrivKey := do
  let data ← ofB58 (B.dec s)
  decodePrivPayload data

/-- The 78-byte vendor payload assembled by `electrum_xpub` for a given
sentinel's version bytes. -/
def pubPayload (version : List Nat) (x : Xpub) : List Nat :=
  version ++ [x.depth] ++ x.parent_fingerprint ++ be4 x.child_number ++
    x.chain_code ++ x.public_key.bytes

/-- `ElectrumExtendedPubKey::electrum_xpub`: resolve the sentinel by
(network, kind), assemble the payload, guard its length, base58-check
encode. -/
def ElectrumExtendedPubKey.electrumXpub (B : Base58Check)
    (k : ElectrumExtendedPubKey) : Except Err Str :=
  match sentinelsPub.find?
      (fun sent => sent.2.1.toKind == k.xpub.network && sent.2.2 == k.kind) with
  | none => .error .unknownType
  | some sent =>
    let data := pubPayload sent.1 k.xpub
    if data.length ≠ 78 then .error (.invalidLength data.length)
    else .ok (B.enc data)

/-- The 78-byte vendor payload assembled by `electrum_xprv`: a zero pad
byte is written at offset 45 before the 32-byte scalar. -/
def privPayload (version : List Nat) (x : Xpriv) : List Nat :=
  version ++ [x.depth] ++ x.parent_fingerprint ++ be4 x.child_number ++
    x.chain_code ++ 0 :: x.private_key.bytes

/-- `ElectrumExtendedPrivKey::electrum_xprv`. -/
def ElectrumExtendedPrivKey.electrumXprv (B : Base58Check)
    (k : ElectrumExtendedPrivKey) : Except Err Str :=
  match sentinelsPriv.find?
      (fun sent => sent.2.1 == k.xprv.network && sent.2.2 == k.kind) with
  | none => .error .unknownType
  | some sent =>
    let data := privPayload sent.1 k.xprv
    if data.length ≠ 78 then .error (.invalidLength data.length)
    else .ok (B.enc data)

/-- Standard BIP32 public version bytes (`xpub` / `tpub`), as used by the
rust-bitcoin collaborator's `Xpub` serialization. -/
def stdPubVersion : NetworkKind → List Nat
  | .main => [0x04, 0x88, 0xB2, 0x1E]
  | .test => [0x04, 0x35, 0x87, 0xCF]

/-- Standard BIP32 private version bytes (`xprv` / `tprv`). -/
def stdPrivVersion : Network → List Nat
  | .bitcoin => [0x04, 0x88, 0xAD, 0xE4]
  | .testnet => [0x04, 0x35, 0x83, 0x94]

/-- The rust-bitcoin collaborator: `Xpub::to_string` (standard BIP32
serialization of a public node followed by base58-check encoding). -/
def Xpub.toStr (B : Base58Check) (x : Xpub) : Str :=
  B.enc (pubPayload (stdPubVersion x.network) x)

/-- The rust-bitcoin collaborator: `Xpub::from_str` (base58-check decode
plus standard BIP32 payload decoding; the version bytes determine the
network). -/
def Xpub.fromStr (B : Base58Check) (s : Str) : Except Err Xpub := do
  let data ← ofB58 (B.dec s)
  if data.length ≠ 78 then throw (Err.invalidLength data.length) else
  let vb ← sliceE data 0 4
  let nk ← if vb = stdPubVersion .main then pure NetworkKind.main
    else if vb = stdPubVersion .test then pure NetworkKind.test
    else throw Err.invalidExtendedKeyVersion
  let cnB ← sliceE data 9 13
  let cn ← parseBe4 cnB
  let depth ← getE data 4
  let fp ← sliceE data 5 9
  let cc ← sliceE data 13 45
  let pkB ← sliceE data 45 78
  let pk ← publicKeyFromSlice pkB
  pure ⟨nk, depth, fp, cn, cc, pk⟩

/-- The rust-bitcoin collaborator: `ExtendedPrivKey::to_string`. -/
def Xpriv.toStr (B : Base58Check) (x : Xpriv) : Str :=
  B.enc (privPayload (stdPrivVersion x.network) x)

/-- The rust-bitcoin collaborator: `ExtendedPrivKey::from_str`. -/
def Xpriv.fromStr (B : Base58Check) (s : Str) : Except Err Xpriv := do
  let data ← ofB58 (B.dec s)
  if data.length ≠ 78 then throw (Err.invalidLength data.length) else
  let vb ← sliceE data 0 4
  let nw ← if vb = stdPrivVersion .bitcoin then pure Network.bitcoin
    else if vb = stdPrivVersion .testnet then pure Network.testnet
    else throw Err.invalidExtendedKeyVersion
  let cnB ← sliceE data 9 13
  let cn ← parseBe4 cnB
  let depth ← getE data 4
  let fp ← sliceE data 5 9
  let cc ← sliceE data 13 45
  let skB ← sliceE data 46 78
  let sk ← secretKeyFromSlice skB
  pure ⟨nw, depth, fp, cn, cc, sk⟩

/-- The elliptic-curve derivation capability, delegated to the secp256k1
collaborator: `ExtendedPubKey::from_priv` copies every structural field and
replaces the key material by the derived public point (computed by the
supplied derivation function `σ`). -/
def xpubFromPriv (σ : List Nat → List Nat) (x : Xpriv) : Xpub :=
  ⟨x.network.toKind, x.depth, x.parent_fingerprint, x.child_number,
    x.chain_code, ⟨σ x.private_key.bytes⟩⟩

/-- The descriptor pair (`Descriptors` in `lib.rs`). -/
structure Descriptors where
  external : Str
  change : Str
  deriving DecidableEq

/-- Character-level `str::contains('(')`. -/
def containsParen (s : Str) : Bool := s.any (fun c => c == '(')

/-- `ElectrumExtendedPubKey::to_descriptors`: assemble the descriptor pair
from the kind tag and the standard-format key string, appending one closing
parenthesis exactly when the kind tag contains `'('`. -/
def ElectrumExtendedPubKey.toDescriptors (B : Base58Check)
    (k : ElectrumExtendedPubKey) : Descriptors :=
  let xpub := k.xpub.toStr B
  let closing : Str := if containsParen k.kind then ")".data else []
  ⟨k.kind ++ "(".data ++ xpub ++ "/0/*)".data ++ closing,
   k.kind ++ "(".data ++ xpub ++ "/1/*)".data ++ closing⟩

/-- `ElectrumExtendedPrivKey::to_descriptors` (this revision returns the
two descriptors as a vector, external first). -/
def ElectrumExtendedPrivKey.toDescriptors (B : Base58Check)
    (k : ElectrumExtendedPrivKey) : List Str :=
  let xprv := k.xprv.toStr B
  let closing : Str := if containsParen k.kind then ")".data else []
  [k.kind ++ "(".data ++ xprv ++ "/0/*)".data ++ closing,
   k.kind ++ "(".data ++ xprv ++ "/1/*)".data ++ closing]

/-- `str::replace("/0/*", "/1/*")` specialized to the pattern the code
uses: left-to-right, non-overlapping replacement of every occurrence (a
window shorter than the pattern can never match and passes through). -/
def replace01 : Str → Str
  | [] => []
  | [a] => [a]
  | [a, b] => [a, b]
  | [a, b, c] => [a, b, c]
  | a :: b :: c :: d :: rest =>
    if a = '/' ∧ b = '0' ∧ c = '/' ∧ d = '*' then
      '/' :: '1' :: '/' :: '*' :: replace01 rest
    else a :: replace01 (b :: c :: d :: rest)

/-- Decimal digit characters, used by the number formatter. -/
def digitChars : Str := "0123456789".data

/-- Accumulator loop of the decimal formatter, driven by a structural
fuel so that concrete inputs evaluate by kernel reduction (the dividend
shrinks every round, so `n + 1` fuel always suffices). -/
def decReprF : Nat → Nat → Str → Str
  | 0, _, acc => acc
  | fuel + 1, n, acc =>
    if n < 10 then digitChars.getD (n % 10) '0' :: acc
    else decReprF fuel (n / 10) (digitChars.getD (n % 10) '0' :: acc)

/-- The fuel is irrelevant once it exceeds the dividend. -/
theorem decReprF_mono : ∀ (f1 f2 n : Nat) (acc : Str),
    n < f1 → n < f2 → decReprF f1 n acc = decReprF f2 n acc
  | 0, _, _, _, h1, _ => absurd h1 (by omega)
  | _ + 1, 0, _, _, _, h2 => absurd h2 (by omega)
  | f1 + 1, f2 + 1, n, acc, h1, h2 => by
    simp only [decReprF]
    by_cases hn : n < 10
    · rw [if_pos hn, if_pos hn]
    · rw [if_neg hn, if_neg hn]
      have hd : n / 10 < n := Nat.div_lt_self (by omega) (by omega)
      exact decReprF_mono f1 f2 (n / 10) _ (by omega) (by omega)

/-- Accumulator loop of the decimal formatter. -/
def decReprAux (n : Nat) (acc : Str) : Str := decReprF (n + 1) n acc

/-- `decReprAux` satisfies the source recurrence: emit the low digit,
recurse on the rest of the dividend. -/
theorem decReprAux_rec (n : Nat) (acc : Str) : decReprAux n acc =
    if n < 10 then digitChars.getD (n % 10) '0' :: acc
    else decReprAux (n / 10) (digitChars.getD (n % 10) '0' :: acc) := by
  show decReprF (n + 1) n acc = _
  simp only [decReprF]
  by_cases hn : n < 10
  · rw [if_pos hn, if_pos hn]
  · rw [if_neg hn, if_neg hn]
    have hd : n / 10 < n := Nat.div_lt_self (by omega) (by omega)
    exact decReprF_mono n (n / 10 + 1) (n / 10) _ (by omega) (by omega)

/-- Decimal rendering of a number (`format!` of an integer). -/
def decRepr (n : Nat) : Str := decReprAux n []

/-- Consume a literal: returns the remaining input when `lit` heads `s`. -/
def stripLit : Str → Str → Option Str
  | [], s => some s
  | _ :: _, [] => none
  | c :: p, d :: s => if d = c then stripLit p s else none

/-- Boolean test that `lit` heads `s`. -/
def startsWithLit : Str → Str → Bool
  | [], _ => true
  | _ :: _, [] => false
  | c :: p, d :: s => d == c && startsWithLit p s

/-- The literal `"(sortedmulti("` used both by the dispatcher and the
multisig grammar. -/
def litSortedmulti : Str := "(sortedmulti(".data

/-- `desc.contains("(sortedmulti(")`: substring search. -/
def containsSM : Str → Bool
  | [] => false
  | s@(_ :: t) => startsWithLit litSortedmulti s || containsSM t

/-- The literal `"/0/*"`. -/
def lit0 : Str := "/0/*".data

/-- One-character literal `"("`. -/
def litLP : Str := "(".data

/-- The regex fragment `[tx]p(ub|rv)[0-9A-Za-z]+` (a standard-format
extended-key token as both descriptor grammars write it): returns the
token and the rest of the input.  The trailing class is matched greedily;
since `/` is not alphanumeric no backtracking can arise in the enclosing
grammars. -/
def matchKeyCore (s : Str) : Option (Str × Str) :=
  match s with
  | c1 :: 'p' :: c3 :: c4 :: r2 =>
    if (c1 == 't' || c1 == 'x') &&
        ((c3 == 'u' && c4 == 'b') || (c3 == 'r' && c4 == 'v')) then
      if (r2.takeWhile Char.isAlphanum).isEmpty then none
      else some (c1 :: 'p' :: c3 :: c4 :: r2.takeWhile Char.isAlphanum,
        r2.drop (r2.takeWhile Char.isAlphanum).length)
    else none
  | _ => none

/-- A successful `matchKeyCore` consumes at least the four head
characters. -/
theorem matchKeyCore_length {s : Str} {tok r : Str}
    (h : matchKeyCore s = some (tok, r)) : r.length < s.length := by
  unfold matchKeyCore at h
  split at h
  · split at h
    · split at h
      · exact absurd h (by simp)
      · rename_i c1 c3 c4 r2 hcls hne
        simp only [Option.some.injEq, Prod.mk.injEq] at h
        have hr : r = r2.drop (r2.takeWhile Char.isAlphanum).length := h.2.symm
        subst hr
        simp only [List.length_drop, List.length_cons]
        omega
    · exact absurd h (by simp)
  · exact absurd h (by simp)

/-- A successful `stripLit` does not lengthen the input. -/
theorem stripLit_length : ∀ {p s r : Str}, stripLit p s = some r →
    r.length ≤ s.length
  | [], s, r, h => by
    simp only [stripLit, Option.some.injEq] at h
    subst h
    exact Nat.le_refl _
  | _ :: _, [], _, h => by simp [stripLit] at h
  | c :: p, d :: s, r, h => by
    simp only [stripLit] at h
    split at h
    · have := @stripLit_length p s _ h
      simp only [List.length_cons]; omega
    · exact absurd h (by simp)

/-- One repetition of the multisig unit `key/0/\*,?`: a key token, the
literal `/0/*`, then a greedily consumed optional comma. -/
def parseUnit (s : Str) : Option Str := do
  let tr ← matchKeyCore s
  let r2 ← stripLit lit0 tr.2
  match r2 with
  | ',' :: t => some t
  | _ => some r2

/-- One unit consumes at least one character. -/
theorem parseUnit_length {s r : Str} (h : parseUnit s = some r) :
    r.length < s.length := by
  unfold parseUnit at h
  cases hm : matchKeyCore s with
  | none => simp [hm] at h
  | some tr =>
    simp only [hm, Option.bind_eq_bind, Option.some_bind] at h
    cases hs : stripLit lit0 tr.2 with
    | none => simp [hs] at h
    | some r2 =>
      simp only [hs, Option.some_bind] at h
      have h1 : r2.length ≤ tr.2.length := stripLit_length hs
      have h2 : tr.2.length < s.length := @matchKeyCore_length s tr.1 tr.2 (by simpa using hm)
      split at h
      · rename_i t
        cases h; simp_all; omega
      · cases h; omega

/-- The repetition `(key/0/\*,?)+`, driven by a structural fuel so that
concrete inputs evaluate by kernel reduction (each unit strictly shortens
the input, so `length + 1` fuel always suffices). -/
def parseUnitsF : Nat → Str → Option Str
  | 0, _ => none
  | fuel + 1, s =>
    match parseUnit s with
    | none => none
    | some r =>
      match parseUnitsF fuel r with
      | some r2 => some r2
      | none => some r

/-- The fuel is irrelevant once it exceeds the input length. -/
theorem parseUnitsF_mono : ∀ (f1 f2 : Nat) (s : Str),
    s.length < f1 → s.length < f2 → parseUnitsF f1 s = parseUnitsF f2 s
  | 0, _, _, h1, _ => absurd h1 (by omega)
  | _ + 1, 0, _, _, h2 => absurd h2 (by omega)
  | f1 + 1, f2 + 1, s, h1, h2 => by
    simp only [parseUnitsF]
    cases hu : parseUnit s with
    | none => rfl
    | some r =>
      have hr := parseUnit_length hu
      exact congrArg (fun x => match x with
        | some r2 => some r2
        | none => some r) (parseUnitsF_mono f1 f2 r (by omega) (by omega))

/-- The repetition `(key/0/\*,?)+`: at least one unit, greedily as many as
possible; returns the rest of the input after the last unit. -/
def parseUnits (s : Str) : Option Str := parseUnitsF (s.length + 1) s

/-- `parseUnits` satisfies the source recurrence: one unit, then greedily
the rest. -/
theorem parseUnits_rec (s : Str) : parseUnits s =
    match parseUnit s with
    | none => none
    | some r =>
      match parseUnits r with
      | some r2 => some r2
      | none => some r := by
  show parseUnitsF (s.length + 1) s = _
  simp only [parseUnitsF]
  cases hu : parseUnit s with
  | none => rfl
  | some r =>
    have hr := parseUnit_length hu
    exact congrArg (fun x => match x with
      | some r2 => some r2
      | none => some r)
      (parseUnitsF_mono s.length (r.length + 1) r (by omega) (by omega))

/-- The multisig pattern with a fixed leading alternative `k`: the literal
`k`, then `\(sortedmulti\(`, a captured digit, a comma, the units, and at
least one closing parenthesis. -/
def tryMultisigKind (k : Str) (s : Str) : Option (Str × Char) := do
  let r1 ← stripLit k s
  let r2 ← stripLit litSortedmulti r1
  match r2 with
  | c :: r3 =>
    if c.isDigit then do
      match r3 with
      | ',' :: r4 =>
        let r5 ← parseUnits r4
        match r5 with
        | ')' :: _ => some (k, c)
        | _ => none
      | _ => none
    else none
  | [] => none

/-- Literal `"sh"`. -/
def litSh : Str := "sh".data

/-- Literal `"sh(wsh"`. -/
def litShWsh : Str := "sh(wsh".data

/-- Literal `"wsh"`. -/
def litWsh : Str := "wsh".data

/-- The multisig pattern `(sh|sh\(wsh|wsh)\(sortedmulti\(...` tried at one
position: alternatives in the regex's order, each with the full
continuation (regex alternation backtracks into the continuation, which is
how `sh(wsh(sortedmulti(` is distinguished from the `sh` alternative). -/
def matchMultisigAt (s : Str) : Option (Str × Char) :=
  match tryMultisigKind litSh s with
  | some r => some r
  | none =>
    match tryMultisigKind litShWsh s with
    | some r => some r
    | none => tryMultisigKind litWsh s

/-- Leftmost-match search for the multisig pattern (`Regex::captures`). -/
def findMultisig : Str → Option (Str × Char)
  | [] => none
  | s@(_ :: t) =>
    match matchMultisigAt s with
    | some r => some r
    | none => findMultisig t

/-- The single-sig pattern with a fixed kind alternative: the kind
literal, `\(`, a key token, `/0/\*`, and at least one `\)`. -/
def trySinglesigKind (k : Str) (s : Str) : Option (Str × Str) := do
  let r1 ← stripLit k s
  let r2 ← stripLit litLP r1
  let tr ← matchKeyCore r2
  let r4 ← stripLit lit0 tr.2
  match r4 with
  | ')' :: _ => some (k, tr.1)
  | _ => none

/-- Literal `"pkh"`. -/
def litPkh : Str := "pkh".data

/-- Literal `"sh(wpkh"`. -/
def litShWpkh : Str := "sh(wpkh".data

/-- Literal `"wpkh"`. -/
def litWpkh : Str := "wpkh".data

/-- The single-sig pattern
`(pkh|sh\(wpkh|sh\(wsh|wpkh|wsh)\((key/0/\*)\)+` tried at one position,
alternatives in the regex's order. -/
def matchSinglesigAt (s : Str) : Option (Str × Str) :=
  match trySinglesigKind litPkh s with
  | some r => some r
  | none =>
  match trySinglesigKind litShWpkh s with
  | some r => some r
  | none =>
  match trySinglesigKind litShWsh s with
  | some r => some r
  | none =>
  match trySinglesigKind litWpkh s with
  | some r => some r
  | none => trySinglesigKind litWsh s

/-- Leftmost-match search for the single-sig pattern. -/
def findSinglesig : Str → Option (Str × Str)
  | [] => none
  | s@(_ :: t) =>
    match matchSinglesigAt s with
    | some r => some r
    | none => findSinglesig t

/-- The key-token scanner regex `[tx]p[ur][bv][0-9A-Za-z]+` (note the
wider middle classes compared to `matchKeyCore`). -/
def scanToken (s : Str) : Option (Str × Str) :=
  match s with
  | c1 :: 'p' :: c3 :: c4 :: r2 =>
    if (c1 == 't' || c1 == 'x') && (c3 == 'u' || c3 == 'r') &&
        (c4 == 'b' || c4 == 'v') then
      if (r2.takeWhile Char.isAlphanum).isEmpty then none
      else some (c1 :: 'p' :: c3 :: c4 :: r2.takeWhile Char.isAlphanum,
        r2.drop (r2.takeWhile Char.isAlphanum).length)
    else none
  | _ => none

/-- A successful `scanToken` consumes at least the four head characters. -/
theorem scanToken_length {s : Str} {tok r : Str}
    (h : scanToken s = some (tok, r)) : r.length < s.length := by
  unfold scanToken at h
  split at h
  · split at h
    · split at h
      · exact absurd h (by simp)
      · rename_i c1 c3 c4 r2 hcls hne
        simp only [Option.some.injEq, Prod.mk.injEq] at h
        have hr : r = r2.drop (r2.takeWhile Char.isAlphanum).length := h.2.symm
        subst hr
        simp only [List.length_drop, List.length_cons]
        omega
    · exact absurd h (by simp)
  · exact absurd h (by simp)

/-- The scanner loop, driven by a structural fuel so that concrete inputs
evaluate by kernel reduction (every step strictly shortens the input, so
`length + 1` fuel always suffices). -/
def scanKeysF : Nat → Str → List Str
  | 0, _ => []
  | fuel + 1, s =>
    match s with
    | [] => []
    | c :: t =>
      match scanToken (c :: t) with
      | some tr => tr.1 :: scanKeysF fuel tr.2
      | none => scanKeysF fuel t

/-- The fuel is irrelevant once it exceeds the input length. -/
theorem scanKeysF_mono : ∀ (f1 f2 : Nat) (s : Str),
    s.length < f1 → s.length < f2 → scanKeysF f1 s = scanKeysF f2 s
  | 0, _, _, h1, _ => absurd h1 (by omega)
  | _ + 1, 0, _, _, h2 => absurd h2 (by omega)
  | f1 + 1, f2 + 1, s, h1, h2 => by
    cases s with
    | nil => rfl
    | cons c t =>
      simp only [scanKeysF]
      simp only [List.length_cons] at h1 h2
      cases hs : scanToken (c :: t) with
      | some tr =>
        have hr := @scanToken_length (c :: t) tr.1 tr.2 (by simpa using hs)
        simp only [List.length_cons] at hr
        exact congrArg (fun x => tr.1 :: x)
          (scanKeysF_mono f1 f2 tr.2 (by omega) (by omega))
      | none =>
        exact scanKeysF_mono f1 f2 t (by omega) (by omega)

/-- `Regex::captures_iter` for the key-token scanner: all non-overlapping
matches, found left to right. -/
def scanKeys (s : Str) : List Str := scanKeysF (s.length + 1) s

/-- `scanKeys` satisfies the source recurrence: try the token pattern at
each position, skipping matched tokens whole. -/
theorem scanKeys_rec (s : Str) : scanKeys s =
    match s with
    | [] => []
    | c :: t =>
      match scanToken (c :: t) with
      | some tr => tr.1 :: scanKeys tr.2
      | none => scanKeys t := by
  show scanKeysF (s.length + 1) s = _
  cases s with
  | nil => rfl
  | cons c t =>
    simp only [scanKeysF, List.length_cons]
    cases hs : scanToken (c :: t) with
    | some tr =>
      have hr := @scanToken_length (c :: t) tr.1 tr.2 (by simpa using hs)
      simp only [List.length_cons] at hr
      exact congrArg (fun x => tr.1 :: x)
        (scanKeysF_mono (t.length + 1) (tr.2.length + 1) tr.2 (by omega)
          (by omega))
    | none => rfl

/-- Value of a decimal digit character. -/
def digitVal (c : Char) : Nat := c.toNat - 48

/-- `str::parse::<u8>` on a digit string: nonempty, all digits, value at
most 255. -/
def parseU8 (s : Str) : Option Nat :=
  if s.isEmpty then none
  else if s.all Char.isDigit then
    if s.foldl (fun a c => a * 10 + digitVal c) 0 ≤ 255 then
      some (s.foldl (fun a c => a * 10 + digitVal c) 0)
    else none
  else none

/-- A keystore section of the wallet file: type tag, optional vendor
private key string, vendor public key string. -/
structure Keystore where
  ksType : Str
  xprv : Option Str
  xpub : Str
  deriving DecidableEq

/-- `Keystore::default_type`. -/
def Keystore.defaultType : Str := "bip32".data

/-- `Keystore::new`: try the key token as a standard private key first; on
success store the vendor private key and the vendor public key of the
derived node, otherwise parse as a standard public key and store only the
vendor public key.  `σ` is the delegated private-to-public derivation. -/
def Keystore.new (B : Base58Check) (σ : List Nat → List Nat)
    (kind xkey : Str) : Except Err Keystore :=
  match Xpriv.fromStr B xkey with
  | .ok xprv => do
    let exprv ← ElectrumExtendedPrivKey.electrumXprv B ⟨xprv, kind⟩
    let expub ← ElectrumExtendedPubKey.electrumXpub B ⟨xpubFromPriv σ xprv, kind⟩
    pure ⟨Keystore.defaultType, some exprv, expub⟩
  | .error _ => do
    let xpub ← Xpub.fromStr B xkey
    let expub ← ElectrumExtendedPubKey.electrumXpub B ⟨xpub, kind⟩
    pure ⟨Keystore.defaultType, none, expub⟩

/-- The dynamic extended key returned by `Keystore::get_xkey`
(`Box<dyn ElectrumExtendedKey>`, a closed two-variant union). -/
inductive XKey where
  | priv (k : ElectrumExtendedPrivKey)
  | pub (k : ElectrumExtendedPubKey)
  deriving DecidableEq

/-- `ElectrumExtendedKey::kind` through the union. -/
def XKey.kind : XKey → Str
  | .priv k => k.kind
  | .pub k => k.kind

/-- `ElectrumExtendedKey::xkey_str` through the union: the standard-format
string of the underlying node. -/
def XKey.xkeyStr (B : Base58Check) : XKey → Str
  | .priv k => k.xprv.toStr B
  | .pub k => k.xpub.toStr B

/-- `Keystore::get_xkey`: prefer the private key when present (its parse
failure propagates, with no fallback to the public key). -/
def Keystore.getXkey (B : Base58Check) (ks : Keystore) : Except Err XKey :=
  match ks.xprv with
  | some xp => (ElectrumExtendedPrivKey.fromStr B xp).map .priv
  | none => (ElectrumExtendedPubKey.fromStr B ks.xpub).map .pub

/-- `WalletType`. -/
inductive WalletType where
  | standard
  | multisig (x y : Nat)
  deriving DecidableEq

/-- The addresses section. -/
structure Addresses where
  change : List Str
  receiving : List Str
  deriving DecidableEq

/-- `Addresses::new`. -/
def Addresses.new : Addresses := ⟨[], []⟩

/-- The wallet container. -/
structure ElectrumWalletFile where
  addresses : Addresses
  wallet_type : WalletType
  keystores : List Keystore
  deriving DecidableEq

/-- `ElectrumWalletFile::validate`: the keystore count must match the
count implied by the wallet type, and a multisig threshold must not exceed
it.  (No lower bound on the threshold is checked.) -/
def ElectrumWalletFile.validate (w : ElectrumWalletFile) : Except Err Unit :=
  let expected : Nat := match w.wallet_type with
    | .standard => 1
    | .multisig _ y => y
  if w.keystores.length ≠ expected then
    .error (.wrongNumberOfKeyStores w.keystores.length expected)
  else match w.wallet_type with
    | .multisig x _ =>
      if x > expected then .error (.numberSignaturesKeyStores x expected)
      else .ok ()
    | .standard => .ok ()

/-- `ElectrumWalletFile::new`: one keystore gives a standard wallet, 255
or more is an error, otherwise a multisig wallet over all keystores; the
result is validated.  (The keystore count in the multisig type fits `u8`
because of the guard, so no truncation occurs here.) -/
def ElectrumWalletFile.new (keystores : List Keystore) (min_signatures : Nat) :
    Except Err ElectrumWalletFile := do
  let wallet ←
    (if keystores.length = 1 then
      pure ⟨Addresses.new, .standard, keystores⟩
    else if keystores.length ≥ 255 then
      throw (Err.tooManyKeyStores keystores.length)
    else
      pure ⟨Addresses.new, .multisig min_signatures keystores.length, keystores⟩ :
      Except Err ElectrumWalletFile)
  match wallet.validate with
  | .ok _ => pure wallet
  | .error e => throw e

/-- `ElectrumWalletFile::from_descriptor_singlesig`: run the single-sig
regex, build one keystore from the captured kind and key token. -/
def ElectrumWalletFile.fromDescriptorSinglesig (B : Base58Check)
    (σ : List Nat → List Nat) (desc : Str) : Except Err ElectrumWalletFile :=
  match findSinglesig desc with
  | some kk => do
    let ks ← Keystore.new B σ kk.1 kk.2
    pure ⟨Addresses.new, .standard, [ks]⟩
  | none => throw Err.unknownDescriptorFormat

/-- `ElectrumWalletFile::from_descriptor_multisig`: run the multisig
regex, map the captured outer kind back (`sh → pkh`, others unchanged),
extract every key token with the scanner, build one keystore per token,
reject fewer than two signers, and parse the single threshold digit
(`parse::<u8>().unwrap()`).  The keystore count is narrowed `as u8`. -/
def ElectrumWalletFile.fromDescriptorMultisig (B : Base58Check)
    (σ : List Nat → List Nat) (desc : Str) : Except Err ElectrumWalletFile :=
  match findMultisig desc with
  | none => throw Err.unknownMultisigDescriptorFormat
  | some kc => do
    let kind ←
      if kc.1 = litWsh then pure litWsh
      else if kc.1 = litSh then pure litPkh
      else if kc.1 = litShWsh then pure litShWsh
      else throw Err.unknownMultisigKind
    let keystores ← (scanKeys desc).mapM (fun tok => Keystore.new B σ kind tok)
    if keystores.length < 2 then throw Err.multisigFewSigners else
    let x ← match parseU8 [kc.2] with
      | some v => pure v
      | none => throw Err.panicked
    pure ⟨Addresses.new, .multisig x (keystores.length % 256), keystores⟩

/-- `ElectrumWalletFile::from_descriptor`: dispatch on the presence of the
`"(sortedmulti("` literal, then validate. -/
def ElectrumWalletFile.fromDescriptor (B : Base58Check)
    (σ : List Nat → List Nat) (desc : Str) : Except Err ElectrumWalletFile := do
  let wallet : ElectrumWalletFile ←
    if containsSM desc then ElectrumWalletFile.fromDescriptorMultisig B σ desc
    else ElectrumWalletFile.fromDescriptorSinglesig B σ desc
  match wallet.validate with
  | .ok _ => pure wallet
  | .error e => throw e

/-- `ElectrumWalletFile::to_descriptors`.  The `Standard` branch assembles
`kind + "(" + key + "/0/*)"` with no closing-parenthesis compensation; the
`Multisig` branch assembles the `sortedmulti` body, appends `"))"`, then
appends one further `")"` when the opening parentheses outnumber the
closing ones, and obtains the change descriptor by textual replacement. -/
def ElectrumWalletFile.toDescriptors (B : Base58Check)
    (w : ElectrumWalletFile) : Except Err (List Str) :=
  match w.wallet_type with
  | .standard => do
    let ks0 ← match w.keystores.head? with
      | some k => pure k
      | none => throw Err.panicked
    let exkey ← ks0.getXkey B
    pure [exkey.kind ++ "(".data ++ exkey.xkeyStr B ++ "/0/*)".data,
      exkey.kind ++ "(".data ++ exkey.xkeyStr B ++ "/1/*)".data]
  | .multisig x _y => do
    let xkeys ← w.keystores.mapM (fun ks => ks.getXkey B)
    let k0 ← match xkeys.head? with
      | some k => pure k
      | none => throw Err.panicked
    let pfx := (if k0.kind = litPkh then litSh else k0.kind) ++
      litSortedmulti ++ decRepr x
    let body := xkeys.foldl
      (fun acc xk => acc ++ ",".data ++ xk.xkeyStr B ++ lit0) pfx
    let body := body ++ "))".data
    let desc := if body.count '(' > body.count ')' then body ++ ")".data else body
    pure [desc, replace01 desc]

/-- Literal `"standard"`. -/
def litStandard : Str := "standard".data

/-- Literal `"of"`. -/
def litOf : Str := "of".data

/-- One position's attempt of the wallet-type regex
`(standard)|(\d+)(of)(\d+)`: the `standard` alternative first, then
digits-`of`-digits with greedy digit runs. -/
inductive WtMatch where
  | standard
  | ofPair (x y : Str)
  deriving DecidableEq

/-- Attempt the wallet-type pattern at one position. -/
def tryWalletTypeAt (s : Str) : Option WtMatch :=
  match stripLit litStandard s with
  | some _ => some .standard
  | none =>
    if (s.takeWhile Char.isDigit).isEmpty then none
    else
      match stripLit litOf (s.drop (s.takeWhile Char.isDigit).length) with
      | some r2 =>
        if (r2.takeWhile Char.isDigit).isEmpty then none
        else some (.ofPair (s.takeWhile Char.isDigit) (r2.takeWhile Char.isDigit))
      | none => none

/-- Leftmost-match search for the wallet-type pattern. -/
def findWalletType : Str → Option WtMatch
  | [] => none
  | s@(_ :: t) =>
    match tryWalletTypeAt s with
    | some r => some r
    | none => findWalletType t

/-- `WalletType::from_str`: match the pattern anywhere in the string; the
two captured digit runs go through `parse::<u8>().unwrap()`, whose failure
(a value above 255) is a panic. -/
def WalletType.fromStr (s : Str) : Except Err WalletType :=
  match findWalletType s with
  | some .standard => .ok .standard
  | some (.ofPair xs ys) =>
    match parseU8 xs, parseU8 ys with
    | some x, some y => .ok (.multisig x y)
    | _, _ => .error .panicked
  | none => .error .unknownWalletType

/-- A JSON value sitting under one top-level field of a stored wallet
document, already taken through the delegated field-level serde step: a
keystore object, a string, an addresses object, or anything else. -/
inductive Entry where
  | obj (k : Keystore)
  | strVal (s : Str)
  | addrObj (a : Addresses)
  | other
  deriving DecidableEq

/-- The classification a top-level field name receives in the
deserializer's `FieldVisitor`. -/
inductive FieldKind where
  | addrs
  | keyst
  | walTyp
  | ignore
  deriving DecidableEq

/-- The capture sets of the field regex `(x)(\d+)(/)|([a-z_\-0-9]+)`. -/
inductive FieldCap where
  | xNum
  | word (w : Str)
  deriving DecidableEq

/-- The character class `[a-z_\-0-9]`. -/
def isWordChar (c : Char) : Bool :=
  c.isLower || c == '_' || c == '-' || c.isDigit

/-- The second alternative of the field regex at one position. -/
def tryFieldWordAt (s : Str) : Option FieldCap :=
  if (s.takeWhile isWordChar).isEmpty then none
  else some (.word (s.takeWhile isWordChar))

/-- The field regex tried at one position: `x`-digits-`/` first, else a
word of `[a-z_\-0-9]+`. -/
def tryFieldAt (s : Str) : Option FieldCap :=
  match s with
  | 'x' :: r =>
    if (r.takeWhile Char.isDigit).isEmpty then tryFieldWordAt s
    else
      match r.drop (r.takeWhile Char.isDigit).length with
      | '/' :: _ => some .xNum
      | _ => tryFieldWordAt s
  | _ => tryFieldWordAt s

/-- Leftmost-match search for the field regex. -/
def findField : Str → Option FieldCap
  | [] => none
  | s@(_ :: t) =>
    match tryFieldAt s with
    | some r => some r
    | none => findField t

/-- `FieldVisitor::visit_str`: classify a top-level field name.  A
positional keystore field `xN/` and the literal `keystore` both map to the
keystore class; unknown names are ignored. -/
def classifyField (s : Str) : FieldKind :=
  match findField s with
  | some .xNum => .keyst
  | some (.word w) =>
    if w = "keystore".data then .keyst
    else if w = "addresses".data then .addrs
    else if w = "wallet_type".data then .walTyp
    else .ignore
  | none => .ignore

/-- One step of the deserializer's `visit_map` fold: dispatch the entry on
its field classification; a value of the wrong shape for its field is a
serde type error. -/
def visitMapStep (st : Addresses × List Keystore × WalletType)
    (e : Str × Entry) : Except Err (Addresses × List Keystore × WalletType) :=
  match classifyField e.1 with
  | .addrs =>
    match e.2 with
    | .addrObj a => .ok (a, st.2.1, st.2.2)
    | _ => .error .serdeTypeMismatch
  | .keyst =>
    match e.2 with
    | .obj k => .ok (st.1, st.2.1 ++ [k], st.2.2)
    | _ => .error .serdeTypeMismatch
  | .walTyp =>
    match e.2 with
    | .strVal s =>
      match WalletType.fromStr s with
      | .ok w => .ok (st.1, st.2.1, w)
      | .error e => .error e
    | _ => .error .serdeTypeMismatch
  | .ignore => .ok st

/-- The deserializer's `visit_map`: fold the document's top-level fields
in order (addresses default to empty, wallet type defaults to standard,
keystores append), then validate the assembled wallet. -/
def visitMap (entries : List (Str × Entry)) : Except Err ElectrumWalletFile := do
  let st ← entries.foldlM visitMapStep (Addresses.new, [], WalletType.standard)
  let wallet : ElectrumWalletFile := ⟨st.1, st.2.2, st.2.1⟩
  match wallet.validate with
  | .ok _ => pure wallet
  | .error e => throw e

/-!
## A concrete model of the base58-check collaborator

An executable codec satisfying the `Base58Check` contract, used to
instantiate the codec-parameterized theorems in witnesses and
counterexamples.  A byte sequence is rendered as a human-readable tag
determined by its four version bytes (mirroring the vanity heads real
base58 strings have, which the descriptor grammars rely on) followed by
two uppercase letters per byte. -/

/-- Characters a toNat-identification helper: two characters with equal
code points are equal. -/
theorem char_eq_of_toNat {c d : Char} (h : c.toNat = d.toNat) : c = d :=
  Char.eq_of_val_eq (UInt32.ext h)

/-- The sixteen body letters of the model codec. -/
def bodyChars : Str := "ABCDEFGHIJKLMNOP".data

/-- The body letter of a nibble. -/
def bodyChar (n : Nat) : Char := bodyChars.getD n 'A'

/-- Body-character test: code point between 65 and 80. -/
def isBody (c : Char) : Bool := 65 ≤ c.toNat && c.toNat ≤ 80

/-- Nibble value of a body character. -/
def charVal (c : Char) : Nat := c.toNat - 65

/-- Two body letters per byte. -/
def byteChars (b : Nat) : List Char := [bodyChar (b / 16), bodyChar (b % 16)]

/-- Render a byte sequence as body letters. -/
def encBytes : List Nat → Str
  | [] => []
  | x :: r => byteChars x ++ encBytes r

/-- Read pairs of body letters back into bytes. -/
def decPairs : List Char → Option (List Nat)
  | [] => some []
  | [_] => none
  | c1 :: c2 :: r =>
    if isBody c1 && isBody c2 then
      (decPairs r).map (fun l => (16 * charVal c1 + charVal c2) :: l)
    else none

/-- Human-readable tags for the version bytes the descriptor grammars
care about (standard BIP32 heads). -/
def tagTable : List (List Nat × Str) :=
  [([0x04, 0x88, 0xAD, 0xE4], "xprv".data),
   ([0x04, 0x88, 0xB2, 0x1E], "xpub".data),
   ([0x04, 0x35, 0x83, 0x94], "tprv".data),
   ([0x04, 0x35, 0x87, 0xCF], "tpub".data)]

/-- The tag of a payload: determined by its first four bytes. -/
def tagOf (b : List Nat) : Str :=
  match tagTable.find? (fun e => e.1 == b.take 4) with
  | some e => e.2
  | none => []

/-- Model encoder. -/
def modelEnc (b : List Nat) : Str := tagOf b ++ encBytes b

/-- Model decoder: split off the non-body head, read the body pairs, and
check the head is exactly the tag of the decoded bytes. -/
def modelDec (s : Str) : Option (List Nat) :=
  match decPairs (s.dropWhile (fun c => !(isBody c))) with
  | some bytes =>
    if s.takeWhile (fun c => !(isBody c)) = tagOf bytes then some bytes
    else none
  | none => none

/-- A nibble's body letter has the expected code point. -/
theorem bodyChar_toNat {n : Nat} (h : n < 16) : (bodyChar n).toNat = 65 + n := by
  interval_cases n <;> decide

/-- Body letters are body characters. -/
theorem isBody_bodyChar {n : Nat} (h : n < 16) : isBody (bodyChar n) = true := by
  interval_cases n <;> decide

/-- Reading a body letter back yields the nibble. -/
theorem charVal_bodyChar {n : Nat} (h : n < 16) : charVal (bodyChar n) = n := by
  interval_cases n <;> decide

/-- A body character is its nibble's letter. -/
theorem bodyChar_charVal {c : Char} (h : isBody c = true) :
    bodyChar (charVal c) = c := by
  have hb : 65 ≤ c.toNat ∧ c.toNat ≤ 80 := by
    simpa [isBody, Bool.and_eq_true, decide_eq_true_eq] using h
  apply char_eq_of_toNat
  rw [bodyChar_toNat (by unfold charVal; omega)]
  unfold charVal
  omega

/-- A body character's nibble is below 16. -/
theorem charVal_lt {c : Char} (h : isBody c = true) : charVal c < 16 := by
  have hb : 65 ≤ c.toNat ∧ c.toNat ≤ 80 := by
    simpa [isBody, Bool.and_eq_true, decide_eq_true_eq] using h
  unfold charVal
  omega

/-- Every nibble argument, in range or not, yields a body character. -/
theorem isBody_bodyChar_any (n : Nat) : isBody (bodyChar n) = true := by
  by_cases h : n < 16
  · exact isBody_bodyChar h
  · unfold bodyChar
    rw [List.getD_eq_default]
    · decide
    · simp only [bodyChars]
      norm_num
      omega

/-- Every character of `encBytes` is a body character. -/
theorem encBytes_isBody : ∀ (b : List Nat), ∀ c ∈ encBytes b, isBody c = true
  | [], c, h => by simp [encBytes] at h
  | x :: r, c, h => by
    simp only [encBytes, byteChars, List.cons_append, List.nil_append,
      List.mem_cons] at h
    rcases h with h | h | h
    · subst h; exact isBody_bodyChar_any _
    · subst h; exact isBody_bodyChar_any _
    · exact encBytes_isBody r c h

/-- Reading back what `encBytes` wrote recovers the bytes. -/
theorem decPairs_encBytes : ∀ (b : List Nat), (∀ x ∈ b, x < 256) →
    decPairs (encBytes b) = some b
  | [], _ => by simp [encBytes, decPairs]
  | x :: r, h => by
    have hx : x < 256 := h x (by simp)
    have hr := decPairs_encBytes r (fun y hy => h y (by simp [hy]))
    have hdiv : x / 16 < 16 := by omega
    have hmod : x % 16 < 16 := Nat.mod_lt _ (by omega)
    have hb1 := isBody_bodyChar hdiv
    have hb2 := isBody_bodyChar hmod
    have hv1 := charVal_bodyChar hdiv
    have hv2 := charVal_bodyChar hmod
    have hsplit : 16 * (x / 16) + x % 16 = x := by omega
    show decPairs (bodyChar (x / 16) :: bodyChar (x % 16) :: encBytes r) =
      some (x :: r)
    simp only [decPairs, hb1, hb2, Bool.and_self, if_true, hr,
      Option.map_some', hv1, hv2, hsplit]

/-- `decPairs` only succeeds on what `encBytes` writes. -/
theorem encBytes_decPairs : ∀ (d : List Char) (b : List Nat),
    decPairs d = some b → encBytes b = d
  | [], b, h => by
    simp only [decPairs, Option.some.injEq] at h
    subst h; rfl
  | [_], b, h => by simp [decPairs] at h
  | c1 :: c2 :: r, b, h => by
    simp only [decPairs] at h
    split at h
    · rename_i hbody
      have h1 : isBody c1 = true := by
        rcases Bool.and_eq_true_iff.mp hbody with ⟨h1, _⟩; exact h1
      have h2 : isBody c2 = true := by
        rcases Bool.and_eq_true_iff.mp hbody with ⟨_, h2⟩; exact h2
      cases hr : decPairs r with
      | none => rw [hr] at h; simp at h
      | some b' =>
        rw [hr] at h
        simp only [Option.map_some', Option.some.injEq] at h
        subst h
        have hv1 := charVal_lt h1
        have hv2 := charVal_lt h2
        simp only [encBytes, byteChars]
        have e1 : (16 * charVal c1 + charVal c2) / 16 = charVal c1 := by omega
        have e2 : (16 * charVal c1 + charVal c2) % 16 = charVal c2 := by omega
        rw [e1, e2, bodyChar_charVal h1, bodyChar_charVal h2,
          encBytes_decPairs r b' hr]
        rfl
    · simp at h

/-- Bytes read back by `decPairs` are bytes. -/
theorem decPairs_lt : ∀ (d : List Char) (b : List Nat),
    decPairs d = some b → ∀ x ∈ b, x < 256
  | [], b, h => by
    simp only [decPairs, Option.some.injEq] at h
    subst h; simp
  | [_], b, h => by simp [decPairs] at h
  | c1 :: c2 :: r, b, h => by
    simp only [decPairs] at h
    split at h
    · rename_i hbody
      have h1 : isBody c1 = true := (Bool.and_eq_true_iff.mp hbody).1
      have h2 : isBody c2 = true := (Bool.and_eq_true_iff.mp hbody).2
      cases hr : decPairs r with
      | none => rw [hr] at h; simp at h
      | some b' =>
        rw [hr] at h
        simp only [Option.map_some', Option.some.injEq] at h
        subst h
        intro x hx
        rcases List.mem_cons.mp hx with hx | hx
        · have := charVal_lt h1
          have := charVal_lt h2
          omega
        · exact decPairs_lt r b' hr x hx
    · simp at h

/-- Tag characters are never body characters. -/
theorem tagOf_nonBody (b : List Nat) : ∀ c ∈ tagOf b, isBody c = false := by
  unfold tagOf
  cases hf : tagTable.find? (fun e => e.1 == b.take 4) with
  | none => simp
  | some e =>
    simp only
    have he : e ∈ tagTable := List.mem_of_find?_eq_some hf
    fin_cases he <;> decide

/-- Splitting a tag-plus-body string with `takeWhile` recovers the parts:
the head scan over a list of non-body characters followed by anything. -/
theorem takeWhile_nonbody_append : ∀ (t s : Str), (∀ c ∈ t, isBody c = false) →
    List.takeWhile (fun c => !(isBody c)) (t ++ s) =
      t ++ List.takeWhile (fun c => !(isBody c)) s
  | [], s, _ => by simp
  | c :: t, s, h => by
    have hc : isBody c = false := h c (by simp)
    have ih := takeWhile_nonbody_append t s (fun d hd => h d (by simp [hd]))
    simp [List.takeWhile_cons, hc, ih]

/-- The companion `dropWhile` split. -/
theorem dropWhile_nonbody_append : ∀ (t s : Str), (∀ c ∈ t, isBody c = false) →
    List.dropWhile (fun c => !(isBody c)) (t ++ s) =
      List.dropWhile (fun c => !(isBody c)) s
  | [], s, _ => by simp
  | c :: t, s, h => by
    have hc : isBody c = false := h c (by simp)
    have ih := dropWhile_nonbody_append t s (fun d hd => h d (by simp [hd]))
    simp [List.dropWhile_cons, hc, ih]

/-- `takeWhile` of an all-body string for the non-body predicate is empty. -/
theorem takeWhile_nonbody_body (s : Str) (h : ∀ c ∈ s, isBody c = true) :
    List.takeWhile (fun c => !(isBody c)) s = [] := by
  cases s with
  | nil => rfl
  | cons c t =>
    have hc : isBody c = true := h c (by simp)
    simp [List.takeWhile_cons, hc]

/-- `dropWhile` of an all-body string for the non-body predicate is the
string itself. -/
theorem dropWhile_nonbody_body (s : Str) (h : ∀ c ∈ s, isBody c = true) :
    List.dropWhile (fun c => !(isBody c)) s = s := by
  cases s with
  | nil => rfl
  | cons c t =>
    have hc : isBody c = true := h c (by simp)
    simp [List.dropWhile_cons, hc]

/-- Model decode inverts model encode on byte sequences. -/
theorem modelDec_modelEnc (b : List Nat) (hb : ∀ x ∈ b, x < 256) :
    modelDec (modelEnc b) = some b := by
  unfold modelDec modelEnc
  rw [dropWhile_nonbody_append _ _ (tagOf_nonBody b),
    dropWhile_nonbody_body _ (encBytes_isBody b),
    decPairs_encBytes b hb,
    takeWhile_nonbody_append _ _ (tagOf_nonBody b),
    takeWhile_nonbody_body _ (encBytes_isBody b)]
  simp

/-- Model encode inverts model decode on its successful inputs. -/
theorem modelEnc_modelDec (s : Str) (b : List Nat) (h : modelDec s = some b) :
    modelEnc b = s := by
  unfold modelDec at h
  split at h
  · rename_i bytes hd
    split at h
    · rename_i htag
      have hb : bytes = b := by simpa using h
      subst hb
      unfold modelEnc
      rw [← htag, encBytes_decPairs _ _ hd]
      exact List.takeWhile_append_dropWhile _ _
    · simp at h
  · simp at h

/-- Model decode produces bytes. -/
theorem modelDec_bytes (s : Str) (b : List Nat) (h : modelDec s = some b) :
    ∀ x ∈ b, x < 256 := by
  unfold modelDec at h
  split at h
  · rename_i bytes hd
    split at h
    · have hb : bytes = b := by simpa using h
      subst hb
      exact decPairs_lt _ _ hd
    · simp at h
  · simp at h

/-- Tag characters are alphanumeric. -/
theorem tagOf_alnum (b : List Nat) : ∀ c ∈ tagOf b, c.isAlphanum = true := by
  unfold tagOf
  cases hf : tagTable.find? (fun e => e.1 == b.take 4) with
  | none => simp
  | some e =>
    simp only
    have he : e ∈ tagTable := List.mem_of_find?_eq_some hf
    fin_cases he <;> decide

/-- Body characters are alphanumeric. -/
theorem isBody_alnum {c : Char} (h : isBody c = true) : c.isAlphanum = true := by
  rw [← bodyChar_charVal h]
  have hk := charVal_lt h
  revert hk
  generalize charVal c = k
  intro hk
  interval_cases k <;> decide

/-- Model encode emits only alphanumeric characters. -/
theorem modelEnc_alnum (b : List Nat) : ∀ c ∈ modelEnc b, c.isAlphanum = true := by
  intro c hc
  rcases List.mem_append.mp hc with hc | hc
  · exact tagOf_alnum b c hc
  · exact isBody_alnum (encBytes_isBody b c hc)

/-- The model codec, packaged with its contract. -/
def modelB58 : Base58Check :=
  ⟨modelEnc, modelDec,
    fun b hb => modelDec_modelEnc b (fun x hx => hb x hx),
    modelEnc_modelDec,
    modelDec_bytes,
    modelEnc_alnum⟩

/-!
## Payload segmentation

Reading a fixed-offset slice out of a concatenation of fixed-length
segments recovers the segment. -/

/-- Slicing `[a, b)` out of `pre ++ mid ++ post` with `|pre| = a` and
`|mid| = b - a` yields `mid`. -/
theorem sliceE_append (pre mid post : List Nat) (a b : Nat)
    (ha : pre.length = a) (hb : a + mid.length = b) :
    sliceE (pre ++ (mid ++ post)) a b = .ok mid := by
  unfold sliceE
  have hlen : (pre ++ (mid ++ post)).length =
      pre.length + (mid.length + post.length) := by
    simp [List.length_append]
  rw [if_pos]
  · have hd : (pre ++ (mid ++ post)).drop a = mid ++ post := by
      rw [← ha]
      exact List.drop_left pre (mid ++ post)
    rw [hd]
    have ht : b - a = mid.length := by omega
    rw [ht]
    rw [List.take_left]
  · constructor
    · omega
    · rw [hlen]; omega

/-- Indexing position `|pre|` in `pre ++ d :: post` yields `d`. -/
theorem getE_append (pre post : List Nat) (d : Nat) (a : Nat)
    (ha : pre.length = a) : getE (pre ++ d :: post) a = .ok d := by
  unfold getE
  rw [← ha, List.get?_append_right (Nat.le_refl _)]
  simp

/-- Bytes of `be4` are bytes. -/
theorem be4_lt (n : Nat) : ∀ x ∈ be4 n, x < 256 := by
  intro x hx
  simp only [be4, List.mem_cons, List.not_mem_nil, or_false] at hx
  rcases hx with h | h | h | h <;> subst h <;>
    first
      | exact Nat.mod_lt _ (by omega)

/-- `be4` has four bytes. -/
theorem be4_length (n : Nat) : (be4 n).length = 4 := rfl

/-- `from_be_bytes` inverts `to_be_bytes` below `2^32`. -/
theorem fromBe4_be4 (n : Nat) (h : n < 4294967296) :
    fromBe4 (n / 16777216 % 256) (n / 65536 % 256) (n / 256 % 256) (n % 256) = n := by
  unfold fromBe4
  omega

/-- `to_be_bytes` inverts `from_be_bytes` on bytes. -/
theorem be4_fromBe4 (a b c d : Nat) (ha : a < 256) (hb : b < 256)
    (hc : c < 256) (hd : d < 256) : be4 (fromBe4 a b c d) = [a, b, c, d] := by
  unfold be4 fromBe4
  have e1 : (((a * 256 + b) * 256 + c) * 256 + d) / 16777216 % 256 = a := by omega
  have e2 : (((a * 256 + b) * 256 + c) * 256 + d) / 65536 % 256 = b := by omega
  have e3 : (((a * 256 + b) * 256 + c) * 256 + d) / 256 % 256 = c := by omega
  have e4 : (((a * 256 + b) * 256 + c) * 256 + d) % 256 = d := by omega
  rw [e1, e2, e3, e4]

/-- `from_be_bytes` of bytes is below `2^32`. -/
theorem fromBe4_lt (a b c d : Nat) (ha : a < 256) (hb : b < 256)
    (hc : c < 256) (hd : d < 256) : fromBe4 a b c d < 4294967296 := by
  unfold fromBe4
  omega

/-- All elements of a byte string are bytes. -/
def BytesOk (l : List Nat) : Prop := ∀ x ∈ l, x < 256

instance (l : List Nat) : Decidable (BytesOk l) := by
  unfold BytesOk
  infer_instance

/-- Well-formedness of a public node: field widths as in the 78-byte
layout, plus validity of the key material. -/
def XpubWF (x : Xpub) : Prop :=
  x.depth < 256 ∧ x.parent_fingerprint.length = 4 ∧
    BytesOk x.parent_fingerprint ∧ x.child_number < 4294967296 ∧
    x.chain_code.length = 32 ∧ BytesOk x.chain_code ∧
    x.public_key.bytes.length = 33 ∧ BytesOk x.public_key.bytes ∧
    (x.public_key.bytes.head? = some 2 ∨ x.public_key.bytes.head? = some 3)

instance (x : Xpub) : Decidable (XpubWF x) := by
  unfold XpubWF
  infer_instance

/-- Well-formedness of a private node. -/
def XprivWF (x : Xpriv) : Prop :=
  x.depth < 256 ∧ x.parent_fingerprint.length = 4 ∧
    BytesOk x.parent_fingerprint ∧ x.child_number < 4294967296 ∧
    x.chain_code.length = 32 ∧ BytesOk x.chain_code ∧
    x.private_key.bytes.length = 32 ∧ BytesOk x.private_key.bytes ∧
    0 < beVal x.private_key.bytes ∧ beVal x.private_key.bytes < secpOrder

instance (x : Xpriv) : Decidable (XprivWF x) := by
  unfold XprivWF
  infer_instance

/-- Every public sentinel has four version bytes, all of byte range. -/
theorem sentinelsPub_wf : ∀ sent ∈ sentinelsPub,
    sent.1.length = 4 ∧ BytesOk sent.1 := by decide

/-- Every private sentinel has four version bytes, all of byte range. -/
theorem sentinelsPriv_wf : ∀ sent ∈ sentinelsPriv,
    sent.1.length = 4 ∧ BytesOk sent.1 := by decide

/-- Version bytes are unique in the public table: looking a member's
version bytes back up finds that member. -/
theorem sentinelsPub_find_version : ∀ sent ∈ sentinelsPub,
    sentinelsPub.find? (fun s => s.1 == sent.1) = some sent := by decide

/-- Version bytes are unique in the private table. -/
theorem sentinelsPriv_find_version : ∀ sent ∈ sentinelsPriv,
    sentinelsPriv.find? (fun s => s.1 == sent.1) = some sent := by decide

/-- (network, kind) pairs are unique in the public table, through the
`NetworkKind` comparison the encoder makes. -/
theorem sentinelsPub_find_pair : ∀ sent ∈ sentinelsPub,
    sentinelsPub.find?
      (fun s => s.2.1.toKind == sent.2.1.toKind && s.2.2 == sent.2.2) =
      some sent := by decide

/-- (network, kind) pairs are unique in the private table. -/
theorem sentinelsPriv_find_pair : ∀ sent ∈ sentinelsPriv,
    sentinelsPriv.find? (fun s => s.2.1 == sent.2.1 && s.2.2 == sent.2.2) =
      some sent := by decide

/-- Resolving a member's version bytes yields its network and kind. -/
theorem matchElectrumXpub_of_mem : ∀ sent ∈ sentinelsPub,
    matchElectrumXpub sent.1 = .ok (sent.2.1, sent.2.2) := by
  intro sent hs
  unfold matchElectrumXpub
  rw [sentinelsPub_find_version sent hs]

/-- Resolving a member's version bytes yields its network and kind
(private family). -/
theorem matchElectrumXprv_of_mem : ∀ sent ∈ sentinelsPriv,
    matchElectrumXprv sent.1 = .ok (sent.2.1, sent.2.2) := by
  intro sent hs
  unfold matchElectrumXprv
  rw [sentinelsPriv_find_version sent hs]

/-- A successful version resolution comes from a table member (public). -/
theorem matchElectrumXpub_inv {v : List Nat} {nk : Network × Str}
    (h : matchElectrumXpub v = .ok nk) :
    ∃ sent ∈ sentinelsPub, sent.1 = v ∧ sent.2.1 = nk.1 ∧ sent.2.2 = nk.2 := by
  unfold matchElectrumXpub at h
  cases hf : sentinelsPub.find? (fun sent => sent.1 == v) with
  | none => rw [hf] at h; exact absurd h (by simp)
  | some sent =>
    rw [hf] at h
    simp only [Except.ok.injEq] at h
    refine ⟨sent, List.mem_of_find?_eq_some hf, ?_, ?_, ?_⟩
    · have := List.find?_some hf
      simpa using this
    · rw [← h]
    · rw [← h]

/-- A successful version resolution comes from a table member (private). -/
theorem matchElectrumXprv_inv {v : List Nat} {nk : Network × Str}
    (h : matchElectrumXprv v = .ok nk) :
    ∃ sent ∈ sentinelsPriv, sent.1 = v ∧ sent.2.1 = nk.1 ∧ sent.2.2 = nk.2 := by
  unfold matchElectrumXprv at h
  cases hf : sentinelsPriv.find? (fun sent => sent.1 == v) with
  | none => rw [hf] at h; exact absurd h (by simp)
  | some sent =>
    rw [hf] at h
    simp only [Except.ok.injEq] at h
    refine ⟨sent, List.mem_of_find?_eq_some hf, ?_, ?_, ?_⟩
    · have := List.find?_some hf
      simpa using this
    · rw [← h]
    · rw [← h]

/-- The assembled public payload is 78 bytes long. -/
theorem pubPayload_length (v : List Nat) (x : Xpub) (hv4 : v.length = 4)
    (hfpl : x.parent_fingerprint.length = 4) (hccl : x.chain_code.length = 32)
    (hpkl : x.public_key.bytes.length = 33) : (pubPayload v x).length = 78 := by
  simp [pubPayload, List.length_append, hv4, hfpl, hccl, hpkl, be4_length]

/-- The assembled private payload is 78 bytes long. -/
theorem privPayload_length (v : List Nat) (x : Xpriv) (hv4 : v.length = 4)
    (hfpl : x.parent_fingerprint.length = 4) (hccl : x.chain_code.length = 32)
    (hskl : x.private_key.bytes.length = 32) : (privPayload v x).length = 78 := by
  simp [privPayload, List.length_append, hv4, hfpl, hccl, hskl, be4_length]

/-- Byte-ness distributes over append. -/
theorem bytesOk_append {a b : List Nat} :
    BytesOk (a ++ b) ↔ BytesOk a ∧ BytesOk b := by
  unfold BytesOk
  exact List.forall_mem_append

/-- All bytes of the assembled public payload are bytes. -/
theorem pubPayload_bytesOk (v : List Nat) (x : Xpub) (hv : BytesOk v)
    (hd : x.depth < 256) (hfp : BytesOk x.parent_fingerprint)
    (hcc : BytesOk x.chain_code) (hpk : BytesOk x.public_key.bytes) :
    BytesOk (pubPayload v x) := by
  unfold pubPayload
  rw [bytesOk_append, bytesOk_append, bytesOk_append, bytesOk_append,
    bytesOk_append]
  refine ⟨⟨⟨⟨⟨hv, ?_⟩, hfp⟩, be4_lt _⟩, hcc⟩, hpk⟩
  intro b hb
  simp only [List.mem_singleton] at hb
  omega

/-- All bytes of the assembled private payload are bytes. -/
theorem privPayload_bytesOk (v : List Nat) (x : Xpriv) (hv : BytesOk v)
    (hd : x.depth < 256) (hfp : BytesOk x.parent_fingerprint)
    (hcc : BytesOk x.chain_code) (hsk : BytesOk x.private_key.bytes) :
    BytesOk (privPayload v x) := by
  unfold privPayload
  rw [bytesOk_append, bytesOk_append, bytesOk_append, bytesOk_append,
    bytesOk_append]
  refine ⟨⟨⟨⟨⟨hv, ?_⟩, hfp⟩, be4_lt _⟩, hcc⟩, ?_⟩
  · intro b hb
    simp only [List.mem_singleton] at hb
    omega
  · intro b hb
    rcases List.mem_cons.mp hb with h | h
    · omega
    · exact hsk b h

/-- Field slices of the assembled public payload. -/
theorem pubPayload_slices (v : List Nat) (x : Xpub) (hv4 : v.length = 4)
    (hfpl : x.parent_fingerprint.length = 4) (hccl : x.chain_code.length = 32)
    (hpkl : x.public_key.bytes.length = 33) :
    sliceE (pubPayload v x) 0 4 = .ok v ∧
    getE (pubPayload v x) 4 = .ok x.depth ∧
    sliceE (pubPayload v x) 5 9 = .ok x.parent_fingerprint ∧
    sliceE (pubPayload v x) 9 13 = .ok (be4 x.child_number) ∧
    sliceE (pubPayload v x) 13 45 = .ok x.chain_code ∧
    sliceE (pubPayload v x) 45 78 = .ok x.public_key.bytes := by
  refine ⟨?_, ?_, ?_, ?_, ?_, ?_⟩
  · have e : pubPayload v x = [] ++ (v ++ ([x.depth] ++ (x.parent_fingerprint ++
        (be4 x.child_number ++ (x.chain_code ++ x.public_key.bytes))))) := by
      simp [pubPayload, List.append_assoc]
    rw [e]
    exact sliceE_append _ _ _ _ _ rfl (by simp [hv4])
  · have e : pubPayload v x = v ++ (x.depth :: (x.parent_fingerprint ++
        (be4 x.child_number ++ (x.chain_code ++ x.public_key.bytes)))) := by
      simp [pubPayload, List.append_assoc]
    rw [e]
    exact getE_append _ _ _ _ hv4
  · have e : pubPayload v x = (v ++ [x.depth]) ++ (x.parent_fingerprint ++
        (be4 x.child_number ++ (x.chain_code ++ x.public_key.bytes))) := by
      simp [pubPayload, List.append_assoc]
    rw [e]
    exact sliceE_append _ _ _ _ _ (by simp [hv4]) (by simp [hfpl])
  · have e : pubPayload v x = (v ++ [x.depth] ++ x.parent_fingerprint) ++
        (be4 x.child_number ++ (x.chain_code ++ x.public_key.bytes)) := by
      simp [pubPayload, List.append_assoc]
    rw [e]
    exact sliceE_append _ _ _ _ _ (by simp [hv4, hfpl]) (by simp [be4_length])
  · have e : pubPayload v x = (v ++ [x.depth] ++ x.parent_fingerprint ++
        be4 x.child_number) ++ (x.chain_code ++ x.public_key.bytes) := by
      simp [pubPayload, List.append_assoc]
    rw [e]
    exact sliceE_append _ _ _ _ _
      (by simp [hv4, hfpl, be4_length]) (by simp [hccl])
  · have e : pubPayload v x = (v ++ [x.depth] ++ x.parent_fingerprint ++
        be4 x.child_number ++ x.chain_code) ++ (x.public_key.bytes ++ []) := by
      simp [pubPayload, List.append_assoc]
    rw [e]
    exact sliceE_append _ _ _ _ _
      (by simp [hv4, hfpl, be4_length, hccl]) (by simp [hpkl])

/-- Field slices of the assembled private payload, including the zero pad
byte at offset 45. -/
theorem privPayload_slices (v : List Nat) (x : Xpriv) (hv4 : v.length = 4)
    (hfpl : x.parent_fingerprint.length = 4) (hccl : x.chain_code.length = 32)
    (hskl : x.private_key.bytes.length = 32) :
    sliceE (privPayload v x) 0 4 = .ok v ∧
    getE (privPayload v x) 4 = .ok x.depth ∧
    sliceE (privPayload v x) 5 9 = .ok x.parent_fingerprint ∧
    sliceE (privPayload v x) 9 13 = .ok (be4 x.child_number) ∧
    sliceE (privPayload v x) 13 45 = .ok x.chain_code ∧
    getE (privPayload v x) 45 = .ok 0 ∧
    sliceE (privPayload v x) 46 78 = .ok x.private_key.bytes := by
  refine ⟨?_, ?_, ?_, ?_, ?_, ?_, ?_⟩
  · have e : privPayload v x = [] ++ (v ++ ([x.depth] ++ (x.parent_fingerprint ++
        (be4 x.child_number ++ (x.chain_code ++ 0 :: x.private_key.bytes))))) := by
      simp [privPayload, List.append_assoc]
    rw [e]
    exact sliceE_append _ _ _ _ _ rfl (by simp [hv4])
  · have e : privPayload v x = v ++ (x.depth :: (x.parent_fingerprint ++
        (be4 x.child_number ++ (x.chain_code ++ 0 :: x.private_key.bytes)))) := by
      simp [privPayload, List.append_assoc]
    rw [e]
    exact getE_append _ _ _ _ hv4
  · have e : privPayload v x = (v ++ [x.depth]) ++ (x.parent_fingerprint ++
        (be4 x.child_number ++ (x.chain_code ++ 0 :: x.private_key.bytes))) := by
      simp [privPayload, List.append_assoc]
    rw [e]
    exact sliceE_append _ _ _ _ _ (by simp [hv4]) (by simp [hfpl])
  · have e : privPayload v x = (v ++ [x.depth] ++ x.parent_fingerprint) ++
        (be4 x.child_number ++ (x.chain_code ++ 0 :: x.private_key.bytes)) := by
      simp [privPayload, List.append_assoc]
    rw [e]
    exact sliceE_append _ _ _ _ _ (by simp [hv4, hfpl]) (by simp [be4_length])
  · have e : privPayload v x = (v ++ [x.depth] ++ x.parent_fingerprint ++
        be4 x.child_number) ++ (x.chain_code ++ 0 :: x.private_key.bytes) := by
      simp [privPayload, List.append_assoc]
    rw [e]
    exact sliceE_append _ _ _ _ _
      (by simp [hv4, hfpl, be4_length]) (by simp [hccl])
  · have e : privPayload v x = (v ++ [x.depth] ++ x.parent_fingerprint ++
        be4 x.child_number ++ x.chain_code) ++ 0 :: x.private_key.bytes := by
      simp [privPayload, List.append_assoc]
    rw [e]
    exact getE_append _ _ _ _ (by simp [hv4, hfpl, be4_length, hccl])
  · have e : privPayload v x = (v ++ [x.depth] ++ x.parent_fingerprint ++
        be4 x.child_number ++ x.chain_code ++ [0]) ++
        (x.private_key.bytes ++ []) := by
      simp [privPayload, List.append_assoc]
    rw [e]
    exact sliceE_append _ _ _ _ _
      (by simp [hv4, hfpl, be4_length, hccl]) (by simp [hskl])

/-- Reducing one successful step of an `Except` computation. -/
theorem bind_ok {ε α β : Type} (a : α) (f : α → Except ε β) :
    (Except.ok a : Except ε α) >>= f = f a := rfl

/-- Valid key material passes `PublicKey::from_slice` unchanged. -/
theorem publicKeyFromSlice_valid {l : List Nat} (h33 : l.length = 33)
    (hh : l.head? = some 2 ∨ l.head? = some 3) :
    publicKeyFromSlice l = .ok ⟨l⟩ := by
  unfold publicKeyFromSlice
  rw [if_pos ⟨h33, hh⟩]

/-- A valid scalar passes `SecretKey::from_slice` unchanged. -/
theorem secretKeyFromSlice_valid {l : List Nat} (h32 : l.length = 32)
    (hpos : 0 < beVal l) (hlt : beVal l < secpOrder) :
    secretKeyFromSlice l = .ok ⟨l⟩ := by
  unfold secretKeyFromSlice
  rw [if_pos ⟨h32, hpos, hlt⟩]

/-- Decoding the payload the public encoder assembled recovers the key. -/
theorem decodePubPayload_build (v : List Nat) (x : Xpub) (nw : Network)
    (kind : Str) (hv4 : v.length = 4) (wf : XpubWF x)
    (hmatch : matchElectrumXpub v = .ok (nw, kind))
    (hnet : nw.toKind = x.network) :
    decodePubPayload (pubPayload v x) = .ok ⟨x, kind⟩ := by
  obtain ⟨hdep, hfpl, hfpB, hcn, hccl, hccB, hpkl, hpkB, hpkh⟩ := wf
  obtain ⟨s04, sg4, s59, s913, s1345, s4578⟩ :=
    pubPayload_slices v x hv4 hfpl hccl hpkl
  have hlen := pubPayload_length v x hv4 hfpl hccl hpkl
  have hpk := publicKeyFromSlice_valid hpkl hpkh
  have hbe := fromBe4_be4 x.child_number hcn
  unfold decodePubPayload
  rw [hlen]
  simp only [ne_eq, not_true_eq_false, reduceIte, be4, s913, s04, sg4, s59, s1345,
    s4578, hmatch, bind_ok, parseBe4, hbe, hpk]
  rw [hnet]
  rfl

/-- Decoding the payload the private encoder assembled recovers the key. -/
theorem decodePrivPayload_build (v : List Nat) (x : Xpriv) (nw : Network)
    (kind : Str) (hv4 : v.length = 4) (wf : XprivWF x)
    (hmatch : matchElectrumXprv v = .ok (nw, kind)) (hnet : nw = x.network) :
    decodePrivPayload (privPayload v x) = .ok ⟨x, kind⟩ := by
  obtain ⟨hdep, hfpl, hfpB, hcn, hccl, hccB, hskl, hskB, hpos, hlt⟩ := wf
  obtain ⟨s04, sg4, s59, s913, s1345, sg45, s4678⟩ :=
    privPayload_slices v x hv4 hfpl hccl hskl
  have hlen := privPayload_length v x hv4 hfpl hccl hskl
  have hsk := secretKeyFromSlice_valid hskl hpos hlt
  have hbe := fromBe4_be4 x.child_number hcn
  unfold decodePrivPayload
  rw [hlen]
  simp only [ne_eq, not_true_eq_false, reduceIte, be4, s913, s04, sg4, s59, s1345,
    s4678, hmatch, bind_ok, parseBe4, hbe, hsk]
  rw [hnet]
  rfl

/-- Encode-then-decode for the public vendor codec: a well-formed key
whose (network, kind) pair is in the public table encodes successfully,
and decoding the result recovers the key. -/
theorem pub_dec_enc (B : Base58Check) (k : ElectrumExtendedPubKey)
    (wf : XpubWF k.xpub)
    (hpair : ∃ sent ∈ sentinelsPub,
      sent.2.1.toKind = k.xpub.network ∧ sent.2.2 = k.kind) :
    ∃ s, k.electrumXpub B = .ok s ∧
      ElectrumExtendedPubKey.fromStr B s = .ok k := by
  obtain ⟨sent0, hmem0, hn0, hk0⟩ := hpair
  have hsome : (sentinelsPub.find?
      (fun s => s.2.1.toKind == k.xpub.network && s.2.2 == k.kind)).isSome := by
    rw [List.find?_isSome]
    exact ⟨sent0, hmem0, by simp [hn0, hk0]⟩
  obtain ⟨sent, hfind⟩ := Option.isSome_iff_exists.mp hsome
  have hmem : sent ∈ sentinelsPub := List.mem_of_find?_eq_some hfind
  have hpred := List.find?_some hfind
  have hnet : sent.2.1.toKind = k.xpub.network := by
    have h := (Bool.and_eq_true_iff.mp hpred).1
    exact eq_of_beq h
  have hkind : sent.2.2 = k.kind := by
    have h := (Bool.and_eq_true_iff.mp hpred).2
    exact eq_of_beq h
  obtain ⟨hv4, hvB⟩ := sentinelsPub_wf sent hmem
  have wf2 := wf
  obtain ⟨hdep, hfpl, hfpB, hcn, hccl, hccB, hpkl, hpkB, hpkh⟩ := wf2
  have hlen := pubPayload_length sent.1 k.xpub hv4 hfpl hccl hpkl
  have hbytes := pubPayload_bytesOk sent.1 k.xpub hvB hdep hfpB hccB hpkB
  refine ⟨B.enc (pubPayload sent.1 k.xpub), ?_, ?_⟩
  · unfold ElectrumExtendedPubKey.electrumXpub
    rw [hfind]
    simp only [hlen, ne_eq, not_true_eq_false, reduceIte]
  · have hdec := B.dec_enc _ hbytes
    have hbuild := decodePubPayload_build sent.1 k.xpub sent.2.1 sent.2.2 hv4
      wf (matchElectrumXpub_of_mem sent hmem) hnet
    unfold ElectrumExtendedPubKey.fromStr
    rw [hdec, hkind] at *
    simp only [ofB58, bind_ok]
    rw [show (⟨k.xpub, k.kind⟩ : ElectrumExtendedPubKey) = k from rfl] at hbuild
    exact hbuild

/-- Encode-then-decode for the private vendor codec. -/
theorem priv_dec_enc (B : Base58Check) (k : ElectrumExtendedPrivKey)
    (wf : XprivWF k.xprv)
    (hpair : ∃ sent ∈ sentinelsPriv,
      sent.2.1 = k.xprv.network ∧ sent.2.2 = k.kind) :
    ∃ s, k.electrumXprv B = .ok s ∧
      ElectrumExtendedPrivKey.fromStr B s = .ok k := by
  obtain ⟨sent0, hmem0, hn0, hk0⟩ := hpair
  have hsome : (sentinelsPriv.find?
      (fun s => s.2.1 == k.xprv.network && s.2.2 == k.kind)).isSome := by
    rw [List.find?_isSome]
    exact ⟨sent0, hmem0, by simp [hn0, hk0]⟩
  obtain ⟨sent, hfind⟩ := Option.isSome_iff_exists.mp hsome
  have hmem : sent ∈ sentinelsPriv := List.mem_of_find?_eq_some hfind
  have hpred := List.find?_some hfind
  have hnet : sent.2.1 = k.xprv.network := by
    have h := (Bool.and_eq_true_iff.mp hpred).1
    exact eq_of_beq h
  have hkind : sent.2.2 = k.kind := by
    have h := (Bool.and_eq_true_iff.mp hpred).2
    exact eq_of_beq h
  obtain ⟨hv4, hvB⟩ := sentinelsPriv_wf sent hmem
  have wf2 := wf
  obtain ⟨hdep, hfpl, hfpB, hcn, hccl, hccB, hskl, hskB, hpos, hlt⟩ := wf2
  have hlen := privPayload_length sent.1 k.xprv hv4 hfpl hccl hskl
  have hbytes := privPayload_bytesOk sent.1 k.xprv hvB hdep hfpB hccB hskB
  refine ⟨B.enc (privPayload sent.1 k.xprv), ?_, ?_⟩
  · unfold ElectrumExtendedPrivKey.electrumXprv
    rw [hfind]
    simp only [hlen, ne_eq, not_true_eq_false, reduceIte]
  · have hdec := B.dec_enc _ hbytes
    have hbuild := decodePrivPayload_build sent.1 k.xprv sent.2.1 sent.2.2 hv4
      wf (matchElectrumXprv_of_mem sent hmem) hnet
    unfold ElectrumExtendedPrivKey.fromStr
    rw [hkind] at hbuild
    simp only [hdec, ofB58, bind_ok]
    rw [show (⟨k.xprv, k.kind⟩ : ElectrumExtendedPrivKey) = k from rfl] at hbuild
    exact hbuild

/-- Reducing a pure step of an `Except` computation. -/
theorem bind_pure {ε α β : Type} (a : α) (f : α → Except ε β) :
    (pure a : Except ε α) >>= f = f a := rfl

/-- A failed step short-circuits an `Except` computation. -/
theorem bind_error {ε α β : Type} (e : ε) (f : α → Except ε β) :
    (Except.error e : Except ε α) >>= f = .error e := rfl

/-- Mapping over a successful `Except` value. -/
theorem map_ok {ε α β : Type} (a : α) (f : α → β) :
    (f <$> (Except.ok a : Except ε α)) = .ok (f a) := rfl

/-- Mapping over a failed `Except` value. -/
theorem map_error {ε α β : Type} (e : ε) (f : α → β) :
    (f <$> (Except.error e : Except ε α)) = .error e := rfl

/-- An in-bounds slice succeeds with the corresponding segment. -/
theorem sliceE_ok {d : List Nat} {a b : Nat} (hab : a ≤ b)
    (hb : b ≤ d.length) : sliceE d a b = .ok ((d.drop a).take (b - a)) := by
  unfold sliceE
  rw [if_pos ⟨hab, hb⟩]

/-- An in-bounds index succeeds with the element. -/
theorem getE_ok {d : List Nat} {i v : Nat} (h : d.get? i = some v) :
    getE d i = .ok v := by
  unfold getE
  rw [h]

/-- A four-element list is a four-tuple. -/
theorem list_len4 (l : List Nat) (h : l.length = 4) :
    ∃ a b c d, l = [a, b, c, d] := by
  rcases l with _ | ⟨a, _ | ⟨b, _ | ⟨c, _ | ⟨d, _ | ⟨e, t⟩⟩⟩⟩⟩ <;>
    simp only [List.length_nil, List.length_cons] at h
  · omega
  · omega
  · omega
  · omega
  · exact ⟨a, b, c, d, rfl⟩
  · omega

/-- What a successful `PublicKey::from_slice` tells about its input. -/
theorem publicKeyFromSlice_inv {l : List Nat} {p : PublicKey}
    (h : publicKeyFromSlice l = .ok p) : p.bytes = l := by
  unfold publicKeyFromSlice at h
  split at h
  · exact congrArg PublicKey.bytes (Except.ok.inj h).symm
  · exact absurd h (by simp)

/-- What a successful `SecretKey::from_slice` tells about its input. -/
theorem secretKeyFromSlice_inv {l : List Nat} {p : SecretKey}
    (h : secretKeyFromSlice l = .ok p) : p.bytes = l := by
  unfold secretKeyFromSlice at h
  split at h
  · exact congrArg SecretKey.bytes (Except.ok.inj h).symm
  · exact absurd h (by simp)

/-- Inversion of the public payload decoder: a successful decode
determines the payload length and ties every field of the decoded key to
its fixed-offset slice. -/
theorem decodePubPayload_inv {data : List Nat} {k : ElectrumExtendedPubKey}
    (h : decodePubPayload data = .ok k) :
    data.length = 78 ∧
    ∃ a b c d nw,
      (data.drop 9).take 4 = [a, b, c, d] ∧
      k.xpub.child_number = fromBe4 a b c d ∧
      matchElectrumXpub ((data.drop 0).take 4) = .ok (nw, k.kind) ∧
      k.xpub.network = nw.toKind ∧
      data.get? 4 = some k.xpub.depth ∧
      k.xpub.parent_fingerprint = (data.drop 5).take 4 ∧
      k.xpub.chain_code = (data.drop 13).take 32 ∧
      k.xpub.public_key.bytes = (data.drop 45).take 33 := by
  unfold decodePubPayload at h
  by_cases h78 : data.length = 78
  case neg =>
    rw [if_pos h78] at h
    exact absurd h (by simp [throw, throwThe, MonadExceptOf.throw])
  case pos =>
    rw [if_neg (by omega)] at h
    refine ⟨h78, ?_⟩
    rw [sliceE_ok (by omega) (by omega), bind_ok] at h
    obtain ⟨a, b, c, d, habcd⟩ := list_len4 ((data.drop 9).take 4)
      (by simp [List.length_take, List.length_drop]; omega)
    rw [habcd] at h
    rw [show parseBe4 [a, b, c, d] = pure (fromBe4 a b c d) from rfl,
      bind_pure] at h
    rw [sliceE_ok (by omega) (by omega : (4:Nat) ≤ data.length), bind_ok] at h
    cases hm : matchElectrumXpub ((data.drop 0).take (4 - 0)) with
    | error e =>
      rw [hm, bind_error] at h
      exact absurd h (by simp)
    | ok nk =>
      rw [hm, bind_ok] at h
      cases hget : data.get? 4 with
      | none =>
        rw [show getE data 4 = .error .panicked from by
          unfold getE; rw [hget], bind_error] at h
        exact absurd h (by simp)
      | some dep =>
        rw [getE_ok hget, bind_ok] at h
        rw [sliceE_ok (by omega) (by omega : (9:Nat) ≤ data.length),
          bind_ok] at h
        rw [sliceE_ok (by omega) (by omega : (45:Nat) ≤ data.length),
          bind_ok] at h
        rw [sliceE_ok (by omega) (by omega : (78:Nat) ≤ data.length),
          bind_ok] at h
        cases hpk : publicKeyFromSlice ((data.drop 45).take (78 - 45)) with
        | error e =>
          rw [hpk, bind_error] at h
          exact absurd h (by simp)
        | ok pk =>
          rw [hpk, bind_ok] at h
          have hkeq : (⟨⟨nk.1.toKind, dep, (data.drop 5).take (9 - 5),
              fromBe4 a b c d, (data.drop 13).take (45 - 13), pk⟩, nk.2⟩ :
              ElectrumExtendedPubKey) = k := Except.ok.inj h
          refine ⟨a, b, c, d, nk.1, habcd, ?_, ?_, ?_, ?_, ?_, ?_, ?_⟩ <;>
            rw [← hkeq] <;>
            first
              | rfl
              | exact publicKeyFromSlice_inv hpk

/-- Inversion of the private payload decoder. -/
theorem decodePrivPayload_inv {data : List Nat} {k : ElectrumExtendedPrivKey}
    (h : decodePrivPayload data = .ok k) :
    data.length = 78 ∧
    ∃ a b c d nw,
      (data.drop 9).take 4 = [a, b, c, d] ∧
      k.xprv.child_number = fromBe4 a b c d ∧
      matchElectrumXprv ((data.drop 0).take 4) = .ok (nw, k.kind) ∧
      k.xprv.network = nw ∧
      data.get? 4 = some k.xprv.depth ∧
      k.xprv.parent_fingerprint = (data.drop 5).take 4 ∧
      k.xprv.chain_code = (data.drop 13).take 32 ∧
      k.xprv.private_key.bytes = (data.drop 46).take 32 := by
  unfold decodePrivPayload at h
  by_cases h78 : data.length = 78
  case neg =>
    rw [if_pos h78] at h
    exact absurd h (by simp [throw, throwThe, MonadExceptOf.throw])
  case pos =>
    rw [if_neg (by omega)] at h
    refine ⟨h78, ?_⟩
    rw [sliceE_ok (by omega) (by omega), bind_ok] at h
    obtain ⟨a, b, c, d, habcd⟩ := list_len4 ((data.drop 9).take 4)
      (by simp [List.length_take, List.length_drop]; omega)
    rw [habcd] at h
    rw [show parseBe4 [a, b, c, d] = pure (fromBe4 a b c d) from rfl,
      bind_pure] at h
    rw [sliceE_ok (by omega) (by omega : (4:Nat) ≤ data.length), bind_ok] at h
    cases hm : matchElectrumXprv ((data.drop 0).take (4 - 0)) with
    | error e =>
      rw [hm, bind_error] at h
      exact absurd h (by simp)
    | ok nk =>
      rw [hm, bind_ok] at h
      rw [sliceE_ok (by omega) (by omega : (78:Nat) ≤ data.length),
        bind_ok] at h
      cases hsk : secretKeyFromSlice ((data.drop 46).take (78 - 46)) with
      | error e =>
        rw [hsk, bind_error] at h
        exact absurd h (by simp)
      | ok sk =>
        rw [hsk, bind_ok] at h
        cases hget : data.get? 4 with
        | none =>
          rw [show getE data 4 = .error .panicked from by
            unfold getE; rw [hget], bind_error] at h
          exact absurd h (by simp)
        | some dep =>
          rw [getE_ok hget, bind_ok] at h
          rw [sliceE_ok (by omega) (by omega : (9:Nat) ≤ data.length),
            bind_ok] at h
          rw [sliceE_ok (by omega) (by omega : (45:Nat) ≤ data.length),
            bind_ok] at h
          have hkeq : (⟨⟨nk.1, dep, (data.drop 5).take (9 - 5),
              fromBe4 a b c d, (data.drop 13).take (45 - 13), sk⟩, nk.2⟩ :
              ElectrumExtendedPrivKey) = k := Except.ok.inj h
          refine ⟨a, b, c, d, nk.1, habcd, ?_, ?_, ?_, ?_, ?_, ?_, ?_⟩ <;>
            rw [← hkeq] <;>
            first
              | rfl
              | exact secretKeyFromSlice_inv hsk

/-- The private payload decoder succeeds on any 78-byte payload with a
known private version and valid scalar bytes — the pad byte at offset 45
is never examined. -/
theorem decodePrivPayload_ok {data : List Nat} (h78 : data.length = 78)
    (hm : ∃ nk, matchElectrumXprv ((data.drop 0).take 4) = .ok nk)
    (hsk : ∃ sk, secretKeyFromSlice ((data.drop 46).take 32) = .ok sk) :
    ∃ k, decodePrivPayload data = .ok k := by
  obtain ⟨nk, hm⟩ := hm
  obtain ⟨sk, hsk⟩ := hsk
  have hm' : matchElectrumXprv ((data.drop 0).take (4 - 0)) = .ok nk := hm
  have hsk' : secretKeyFromSlice ((data.drop 46).take (78 - 46)) = .ok sk := hsk
  have hdep : ∃ dep, data.get? 4 = some dep := by
    cases hg : data.get? 4 with
    | none =>
      have := List.get?_eq_none.mp hg
      omega
    | some dep => exact ⟨dep, rfl⟩
  obtain ⟨dep, hget⟩ := hdep
  obtain ⟨a, b, c, d, habcd⟩ := list_len4 ((data.drop 9).take 4)
    (by simp [List.length_take, List.length_drop]; omega)
  refine ⟨⟨⟨nk.1, dep, (data.drop 5).take (9 - 5), fromBe4 a b c d,
    (data.drop 13).take (45 - 13), sk⟩, nk.2⟩, ?_⟩
  unfold decodePrivPayload
  rw [if_neg (by omega)]
  rw [sliceE_ok (by omega) (by omega), bind_ok]
  rw [habcd]
  rw [show parseBe4 [a, b, c, d] = pure (fromBe4 a b c d) from rfl, bind_pure]
  rw [sliceE_ok (by omega) (by omega : (4:Nat) ≤ data.length), bind_ok]
  rw [hm', bind_ok]
  rw [sliceE_ok (by omega) (by omega : (78:Nat) ≤ data.length), bind_ok]
  rw [hsk', bind_ok]
  rw [getE_ok hget, bind_ok]
  rw [sliceE_ok (by omega) (by omega : (9:Nat) ≤ data.length), bind_ok]
  rw [sliceE_ok (by omega) (by omega : (45:Nat) ≤ data.length), bind_ok]
  rfl

/-- A 78-byte sequence is the concatenation of its field slices: the
reconstruction direction of the fixed layout. -/
theorem decompose78 (data : List Nat) (h78 : data.length = 78) (dep : Nat)
    (hdep : data.get? 4 = some dep) :
    (data.drop 0).take 4 ++ [dep] ++ (data.drop 5).take 4 ++
      (data.drop 9).take 4 ++ (data.drop 13).take 32 ++
      (data.drop 45).take 33 = data := by
  obtain ⟨hlt, hv⟩ := List.get?_eq_some.mp hdep
  have e1 : data.take 4 ++ data.drop 4 = data := List.take_append_drop 4 data
  have e2 : data.drop 4 = dep :: data.drop 5 := by
    rw [List.drop_eq_get_cons hlt, hv]
  have e3 : data.drop 5 = (data.drop 5).take 4 ++ data.drop 9 := by
    have := List.take_append_drop 4 (data.drop 5)
    rw [List.drop_drop] at this
    exact this.symm
  have e4 : data.drop 9 = (data.drop 9).take 4 ++ data.drop 13 := by
    have := List.take_append_drop 4 (data.drop 9)
    rw [List.drop_drop] at this
    exact this.symm
  have e5 : data.drop 13 = (data.drop 13).take 32 ++ data.drop 45 := by
    have := List.take_append_drop 32 (data.drop 13)
    rw [List.drop_drop] at this
    exact this.symm
  have e6 : data.drop 45 = (data.drop 45).take 33 ++ data.drop 78 := by
    have := List.take_append_drop 33 (data.drop 45)
    rw [List.drop_drop] at this
    exact this.symm
  have e7 : data.drop 78 = [] := List.drop_eq_nil_of_le (by omega)
  rw [e7] at e6
  conv_rhs => rw [← e1, e2, e3]
  conv_rhs => rw [e4, e5, e6]
  simp [List.append_assoc, List.drop_zero]

/-- Decode-then-encode for the public vendor codec: re-encoding any
successfully decoded key reproduces the input string exactly. -/
theorem pub_enc_dec (B : Base58Check) (s : Str) (k : ElectrumExtendedPubKey)
    (h : ElectrumExtendedPubKey.fromStr B s = .ok k) :
    k.electrumXpub B = .ok s := by
  unfold ElectrumExtendedPubKey.fromStr at h
  cases hdec : B.dec s with
  | none =>
    rw [hdec] at h
    exact absurd h (by simp [ofB58, bind_error, throw, throwThe,
      MonadExceptOf.throw])
  | some data =>
    rw [hdec] at h
    have h' : decodePubPayload data = .ok k := h
    have hB := B.dec_bytes s data hdec
    obtain ⟨h78, a, b, c, d, nw, habcd, hcn, hm, hnetk, hget, hfp, hcc, hpk⟩ :=
      decodePubPayload_inv h'
    obtain ⟨sent, hmem, hver, hn1, hn2⟩ := matchElectrumXpub_inv hm
    have hmemD : ∀ y ∈ ([a, b, c, d] : List Nat), y ∈ data := by
      intro y hy
      rw [← habcd] at hy
      exact List.drop_subset 9 data (List.take_subset 4 _ hy)
    have ha : a < 256 := hB a (hmemD a (by simp))
    have hb : b < 256 := hB b (hmemD b (by simp))
    have hc : c < 256 := hB c (hmemD c (by simp))
    have hd : d < 256 := hB d (hmemD d (by simp))
    have hpay : pubPayload sent.1 k.xpub = data := by
      unfold pubPayload
      rw [hver, hfp, hcc, hpk, hcn, be4_fromBe4 a b c d ha hb hc hd, ← habcd]
      exact decompose78 data h78 k.xpub.depth hget
    have hfind : sentinelsPub.find?
        (fun s' => s'.2.1.toKind == k.xpub.network && s'.2.2 == k.kind) =
        some sent := by
      have h0 := sentinelsPub_find_pair sent hmem
      have e1 : k.xpub.network = sent.2.1.toKind := by rw [hnetk, hn1]
      have e2 : k.kind = sent.2.2 := hn2.symm
      rw [e1, e2]
      exact h0
    unfold ElectrumExtendedPubKey.electrumXpub
    rw [hfind]
    simp only [hpay, h78, ne_eq, not_true_eq_false, reduceIte]
    rw [B.enc_dec s data hdec]

/-- Decode-then-encode for the private vendor codec, on well-formed
vendor strings (zero pad byte at offset 45 as the layout prescribes). -/
theorem priv_enc_dec (B : Base58Check) (s : Str) (data : List Nat)
    (k : ElectrumExtendedPrivKey) (hdec : B.dec s = some data)
    (hpad : data.get? 45 = some 0)
    (h : ElectrumExtendedPrivKey.fromStr B s = .ok k) :
    k.electrumXprv B = .ok s := by
  unfold ElectrumExtendedPrivKey.fromStr at h
  rw [hdec] at h
  have h' : decodePrivPayload data = .ok k := h
  have hB := B.dec_bytes s data hdec
  obtain ⟨h78, a, b, c, d, nw, habcd, hcn, hm, hnetk, hget, hfp, hcc, hsk⟩ :=
    decodePrivPayload_inv h'
  obtain ⟨sent, hmem, hver, hn1, hn2⟩ := matchElectrumXprv_inv hm
  have hmemD : ∀ y ∈ ([a, b, c, d] : List Nat), y ∈ data := by
    intro y hy
    rw [← habcd] at hy
    exact List.drop_subset 9 data (List.take_subset 4 _ hy)
  have ha : a < 256 := hB a (hmemD a (by simp))
  have hb : b < 256 := hB b (hmemD b (by simp))
  have hc : c < 256 := hB c (hmemD c (by simp))
  have hd : d < 256 := hB d (hmemD d (by simp))
  obtain ⟨hlt45, hv45⟩ := List.get?_eq_some.mp hpad
  have hdrop45 : data.drop 45 = 0 :: data.drop 46 := by
    rw [List.drop_eq_get_cons hlt45, hv45]
  have hseg45 : (0 : Nat) :: k.xprv.private_key.bytes =
      (data.drop 45).take 33 := by
    rw [hdrop45, hsk]
    rfl
  have hpay : privPayload sent.1 k.xprv = data := by
    unfold privPayload
    rw [hver, hfp, hcc, hcn, be4_fromBe4 a b c d ha hb hc hd, ← habcd, hseg45]
    exact decompose78 data h78 k.xprv.depth hget
  have hfind : sentinelsPriv.find?
      (fun s' => s'.2.1 == k.xprv.network && s'.2.2 == k.kind) = some sent := by
    have h0 := sentinelsPriv_find_pair sent hmem
    have e1 : k.xprv.network = sent.2.1 := by rw [hnetk, hn1]
    have e2 : k.kind = sent.2.2 := hn2.symm
    rw [e1, e2]
    exact h0
  unfold ElectrumExtendedPrivKey.electrumXprv
  rw [hfind]
  simp only [hpay, h78, ne_eq, not_true_eq_false, reduceIte]
  rw [B.enc_dec s data hdec]

/-- C1.  Vendor codec round-trip: for every well-formed extended key
(public or private) whose (network, script-kind) pair appears in the
sentinel table of its family, encoding via `electrum_xpub` /
`electrum_xprv` succeeds and decoding the produced vendor string via
`from_str` yields the same key; and for every validly-constructed vendor
string (one the base58 collaborator decodes, with — for the private
family — the mandatory zero pad byte at offset 45 of its well-formed
78-byte payload), re-encoding the decoded key reproduces the string
exactly.  Stated for every codec satisfying the base58-check contract. -/
theorem c1_vendor_codec_roundtrip :
    (∀ (B : Base58Check) (k : ElectrumExtendedPubKey),
      XpubWF k.xpub →
      (∃ sent ∈ sentinelsPub,
        sent.2.1.toKind = k.xpub.network ∧ sent.2.2 = k.kind) →
      ∃ s, k.electrumXpub B = .ok s ∧
        ElectrumExtendedPubKey.fromStr B s = .ok k) ∧
    (∀ (B : Base58Check) (k : ElectrumExtendedPrivKey),
      XprivWF k.xprv →
      (∃ sent ∈ sentinelsPriv,
        sent.2.1 = k.xprv.network ∧ sent.2.2 = k.kind) →
      ∃ s, k.electrumXprv B = .ok s ∧
        ElectrumExtendedPrivKey.fromStr B s = .ok k) ∧
    (∀ (B : Base58Check) (s : Str) (k : ElectrumExtendedPubKey),
      ElectrumExtendedPubKey.fromStr B s = .ok k →
      k.electrumXpub B = .ok s) ∧
    (∀ (B : Base58Check) (s : Str) (data : List Nat)
      (k : ElectrumExtendedPrivKey),
      B.dec s = some data → data.get? 45 = some 0 →
      ElectrumExtendedPrivKey.fromStr B s = .ok k →
      k.electrumXprv B = .ok s) :=
  ⟨pub_dec_enc, priv_dec_enc, pub_enc_dec, priv_enc_dec⟩

/-- A concrete well-formed public key of kind `wpkh` on testnet. -/
def wXpub : Xpub :=
  ⟨.test, 0, [0, 0, 0, 0], 0, List.replicate 32 0, ⟨2 :: List.replicate 32 0⟩⟩

/-- The packaged vendor public key used by witnesses. -/
def wEPub : ElectrumExtendedPubKey := ⟨wXpub, "wpkh".data⟩

/-- A concrete well-formed private key of kind `wpkh` on testnet. -/
def wXprv : Xpriv :=
  ⟨.testnet, 0, [0, 0, 0, 0], 0, List.replicate 32 0,
    ⟨List.replicate 31 0 ++ [1]⟩⟩

/-- The packaged vendor private key used by witnesses. -/
def wEPrv : ElectrumExtendedPrivKey := ⟨wXprv, "wpkh".data⟩

/-- The vendor payload and string of `wEPub` (vpub version bytes). -/
def wPubPayload : List Nat := pubPayload [0x04, 0x5f, 0x1c, 0xf6] wXpub

/-- Model-codec vendor string of `wEPub`. -/
def wPubStr : Str := modelEnc wPubPayload

/-- The vendor payload of `wEPrv` (vprv version bytes). -/
def wPrvPayload : List Nat := privPayload [0x04, 0x5f, 0x18, 0xbc] wXprv

/-- Model-codec vendor string of `wEPrv`. -/
def wPrvStr : Str := modelEnc wPrvPayload

/-- Witness for C1: the round-trip theorem applied to the model codec at
concrete keys and vendor strings, all hypotheses discharged by
computation. -/
theorem c1_vendor_codec_roundtrip_witness :
    (∃ s, wEPub.electrumXpub modelB58 = .ok s ∧
      ElectrumExtendedPubKey.fromStr modelB58 s = .ok wEPub) ∧
    (∃ s, wEPrv.electrumXprv modelB58 = .ok s ∧
      ElectrumExtendedPrivKey.fromStr modelB58 s = .ok wEPrv) ∧
    wEPub.electrumXpub modelB58 = .ok wPubStr ∧
    wEPrv.electrumXprv modelB58 = .ok wPrvStr := by
  refine ⟨?_, ?_, ?_, ?_⟩
  · exact c1_vendor_codec_roundtrip.1 modelB58 wEPub (by decide) (by decide)
  · exact c1_vendor_codec_roundtrip.2.1 modelB58 wEPrv (by decide) (by decide)
  · exact c1_vendor_codec_roundtrip.2.2.1 modelB58 wPubStr wEPub (by rfl)
  · exact c1_vendor_codec_roundtrip.2.2.2 modelB58 wPrvStr wPrvPayload wEPrv
      (by rfl) (by rfl) (by rfl)

/-- A dummy private-to-public derivation for concrete evaluations whose
inputs never reach it. -/
def sigma0 : List Nat → List Nat := fun _ => 2 :: List.replicate 32 0

/-- Standard-format (tpub) payload of the concrete public node. -/
def c2StdPayload : List Nat := pubPayload (stdPubVersion .test) wXpub

/-- The standard-format key token of the concrete node under the model
codec (a `tpub`-headed alphanumeric token). -/
def c2Key : Str := modelEnc c2StdPayload

/-- A well-formed wrapped-segwit single-sig descriptor over `c2Key`. -/
def c2Desc : Str := "sh(wpkh(".data ++ c2Key ++ "/0/*))".data

/-- The wallet `from_descriptor` builds from `c2Desc`. -/
def c2Wallet : ElectrumWalletFile :=
  ⟨Addresses.new, .standard,
    [⟨Keystore.defaultType, none,
      modelEnc (pubPayload [0x04, 0x4a, 0x52, 0x62] wXpub)⟩]⟩

set_option maxRecDepth 40000 in
/-- C2 evaluated at its failing input: `from_descriptor` accepts the
wrapped single-sig descriptor `sh(wpkh(K/0/*))`, but `to_descriptors` of
the resulting wallet emits `sh(wpkh(K/0/*)` — one character shorter than
the input, with unbalanced parentheses — because the `Standard` branch of
`ElectrumWalletFile::to_descriptors` never appends the closing
parenthesis that wrapped kinds require (unlike the key-level
`to_descriptors`, which does). -/
theorem c2_wallet_roundtrip_bug :
    ElectrumWalletFile.fromDescriptor modelB58 sigma0 c2Desc = .ok c2Wallet ∧
    ElectrumWalletFile.toDescriptors modelB58 c2Wallet =
      .ok ["sh(wpkh(".data ++ c2Key ++ "/0/*)".data,
        "sh(wpkh(".data ++ c2Key ++ "/1/*)".data] ∧
    (("sh(wpkh(".data ++ c2Key ++ "/0/*)".data ==  c2Desc) = false) ∧
    ("sh(wpkh(".data ++ c2Key ++ "/0/*)".data).length + 1 = c2Desc.length ∧
    ("sh(wpkh(".data ++ c2Key ++ "/0/*)".data).count '(' = 2 ∧
    ("sh(wpkh(".data ++ c2Key ++ "/0/*)".data).count ')' = 1 := by
  refine ⟨by rfl, by rfl, by rfl, by rfl, by rfl, by rfl⟩

/-- The closed set of script-kind tags. -/
def fiveKinds : List Str :=
  ["pkh".data, "wpkh".data, "wsh".data, "sh(wpkh".data, "sh(wsh".data]

/-- C3.  Single-sig descriptor assembly formula: for every script-kind
tag in the closed five-element set and every key, `to_descriptors`
produces `kind ++ "(" ++ K ++ "/0/*)" ++ closing` externally and the
`/1/*` variant for change, where `closing` is `")"` exactly for the two
wrapped kinds — equivalently, exactly when the tag contains `'('`. -/
theorem c3_singlesig_assembly :
    ∀ kind ∈ fiveKinds,
      (∀ (B : Base58Check) (x : Xpub),
        ElectrumExtendedPubKey.toDescriptors B ⟨x, kind⟩ =
          ⟨kind ++ "(".data ++ Xpub.toStr B x ++ "/0/*)".data ++
            (if kind = "sh(wpkh".data ∨ kind = "sh(wsh".data then ")".data
              else []),
           kind ++ "(".data ++ Xpub.toStr B x ++ "/1/*)".data ++
            (if kind = "sh(wpkh".data ∨ kind = "sh(wsh".data then ")".data
              else [])⟩) ∧
      (∀ (B : Base58Check) (x : Xpriv),
        ElectrumExtendedPrivKey.toDescriptors B ⟨x, kind⟩ =
          [kind ++ "(".data ++ Xpriv.toStr B x ++ "/0/*)".data ++
            (if kind = "sh(wpkh".data ∨ kind = "sh(wsh".data then ")".data
              else []),
           kind ++ "(".data ++ Xpriv.toStr B x ++ "/1/*)".data ++
            (if kind = "sh(wpkh".data ∨ kind = "sh(wsh".data then ")".data
              else [])]) ∧
      (containsParen kind = true ↔
        (kind = "sh(wpkh".data ∨ kind = "sh(wsh".data)) := by
  intro kind hk
  fin_cases hk <;>
    exact ⟨fun B x => rfl, fun B x => rfl, by decide⟩

/-- Witness for C3: instantiated at the wrapped kind `sh(wpkh` with the
model codec and a concrete key. -/
theorem c3_singlesig_assembly_witness :
    (ElectrumExtendedPubKey.toDescriptors modelB58 ⟨wXpub, "sh(wpkh".data⟩ =
      ⟨"sh(wpkh".data ++ "(".data ++ Xpub.toStr modelB58 wXpub ++
          "/0/*)".data ++
          (if ("sh(wpkh".data : Str) = "sh(wpkh".data ∨
              ("sh(wpkh".data : Str) = "sh(wsh".data then ")".data else []),
        "sh(wpkh".data ++ "(".data ++ Xpub.toStr modelB58 wXpub ++
          "/1/*)".data ++
          (if ("sh(wpkh".data : Str) = "sh(wpkh".data ∨
              ("sh(wpkh".data : Str) = "sh(wsh".data then ")".data else [])⟩) ∧
    (ElectrumExtendedPrivKey.toDescriptors modelB58 ⟨wXprv, "pkh".data⟩ =
      [("pkh".data : Str) ++ "(".data ++ Xpriv.toStr modelB58 wXprv ++
          "/0/*)".data ++
          (if ("pkh".data : Str) = "sh(wpkh".data ∨
              ("pkh".data : Str) = "sh(wsh".data then ")".data else []),
        ("pkh".data : Str) ++ "(".data ++ Xpriv.toStr modelB58 wXprv ++
          "/1/*)".data ++
          (if ("pkh".data : Str) = "sh(wpkh".data ∨
              ("pkh".data : Str) = "sh(wsh".data then ")".data else [])]) :=
  ⟨(c3_singlesig_assembly ("sh(wpkh".data) (by decide)).1 modelB58 wXpub,
   (c3_singlesig_assembly ("pkh".data) (by decide)).2.1 modelB58 wXprv⟩

/-- A computation is panic-free when it did not end in the modelled Rust
panic. -/
def panicFree {α : Type} : Except Err α → Bool
  | .error .panicked => false
  | _ => true

/-- A failed version resolution is the version error, never a panic
(public family). -/
theorem matchElectrumXpub_error {v : List Nat} {e : Err}
    (h : matchElectrumXpub v = .error e) : e = .invalidExtendedKeyVersion := by
  unfold matchElectrumXpub at h
  cases hf : sentinelsPub.find? (fun sent => sent.1 == v) with
  | none =>
    rw [hf] at h
    exact (Except.error.inj h).symm
  | some sent =>
    rw [hf] at h
    exact absurd h (by simp)

/-- A failed `PublicKey::from_slice` is the public-key error, never a
panic. -/
theorem publicKeyFromSlice_error {l : List Nat} {e : Err}
    (h : publicKeyFromSlice l = .error e) : e = .invalidPublicKey := by
  unfold publicKeyFromSlice at h
  split at h
  · exact absurd h (by simp)
  · exact (Except.error.inj h).symm

/-- The public payload decoder never panics: every fixed-offset slice is
guarded by the 78-byte length check. -/
theorem decodePubPayload_panicFree (data : List Nat) :
    panicFree (decodePubPayload data) = true := by
  unfold decodePubPayload
  by_cases h78 : data.length = 78
  case neg =>
    rw [if_pos h78]
    rfl
  case pos =>
    rw [if_neg (by omega)]
    rw [sliceE_ok (by omega) (by omega), bind_ok]
    obtain ⟨a, b, c, d, habcd⟩ := list_len4 ((data.drop 9).take 4)
      (by simp [List.length_take, List.length_drop]; omega)
    rw [habcd]
    rw [show parseBe4 [a, b, c, d] = pure (fromBe4 a b c d) from rfl, bind_pure]
    rw [sliceE_ok (by omega) (by omega : (4:Nat) ≤ data.length), bind_ok]
    cases hm : matchElectrumXpub ((data.drop 0).take (4 - 0)) with
    | error e =>
      rw [bind_error, matchElectrumXpub_error hm]
      rfl
    | ok nk =>
      rw [bind_ok]
      have hdep : ∃ dep, data.get? 4 = some dep := by
        cases hg : data.get? 4 with
        | none =>
          have := List.get?_eq_none.mp hg
          omega
        | some dep => exact ⟨dep, rfl⟩
      obtain ⟨dep, hget⟩ := hdep
      rw [getE_ok hget, bind_ok]
      rw [sliceE_ok (by omega) (by omega : (9:Nat) ≤ data.length), bind_ok]
      rw [sliceE_ok (by omega) (by omega : (45:Nat) ≤ data.length), bind_ok]
      rw [sliceE_ok (by omega) (by omega : (78:Nat) ≤ data.length), bind_ok]
      cases hpk : publicKeyFromSlice ((data.drop 45).take (78 - 45)) with
      | error e =>
        rw [bind_error, publicKeyFromSlice_error hpk]
        rfl
      | ok pk =>
        rw [bind_ok]
        rfl

/-- A 78-byte private vendor payload with a nonzero pad byte at offset
45: known `vprv`-class version bytes, valid scalar, pad byte 1. -/
def c6Payload : List Nat :=
  [0x04, 0x5f, 0x18, 0xbc] ++ [0] ++ [0, 0, 0, 0] ++ [0, 0, 0, 0] ++
    List.replicate 32 0 ++ 1 :: (List.replicate 31 0 ++ [1])

/-- The model-codec vendor string of `c6Payload`. -/
def c6Str : Str := modelEnc c6Payload

/-- Counterexample to C6 as stated: a vendor private-key string whose
78-byte payload has a known private version prefix and a NONZERO byte at
offset 45 is nevertheless decoded successfully by
`ElectrumExtendedPrivKey::from_str` — the decoder never reads offset
45. -/
theorem c6_pad_byte_counterexample :
    modelB58.dec c6Str = some c6Payload ∧
    c6Payload.length = 78 ∧
    c6Payload.get? 45 = some 1 ∧
    ElectrumExtendedPrivKey.fromStr modelB58 c6Str =
      .ok ⟨⟨.testnet, 0, [0, 0, 0, 0], 0, List.replicate 32 0,
        ⟨List.replicate 31 0 ++ [1]⟩⟩, "wpkh".data⟩ := by
  refine ⟨by rfl, by rfl, by rfl, by rfl⟩

/-- C6 (amended).  The pad byte is not examined on decode: for every
vendor private-key string whose base58-check payload is 78 bytes with a
known private version prefix and valid scalar bytes at offsets 46..77,
decoding via `ElectrumExtendedPrivKey::from_str` succeeds whatever byte
45 holds; the mandatory zero at offset 45 is written by the encoder
only. -/
theorem c6_pad_byte_ignored :
    (∀ (B : Base58Check) (s : Str) (data : List Nat),
      B.dec s = some data → data.length = 78 →
      (∃ nk, matchElectrumXprv ((data.drop 0).take 4) = .ok nk) →
      (∃ sk, secretKeyFromSlice ((data.drop 46).take 32) = .ok sk) →
      ∃ k, ElectrumExtendedPrivKey.fromStr B s = .ok k) ∧
    (∀ (v : List Nat) (x : Xpriv), v.length = 4 →
      x.parent_fingerprint.length = 4 → x.chain_code.length = 32 →
      x.private_key.bytes.length = 32 →
      getE (privPayload v x) 45 = .ok 0) := by
  constructor
  · intro B s data hdec h78 hm hsk
    obtain ⟨k, hk⟩ := decodePrivPayload_ok h78 hm hsk
    refine ⟨k, ?_⟩
    unfold ElectrumExtendedPrivKey.fromStr
    rw [hdec, show ofB58 (some data) = pure data from rfl, bind_pure]
    exact hk
  · intro v x hv4 hfpl hccl hskl
    exact (privPayload_slices v x hv4 hfpl hccl hskl).2.2.2.2.2.1

/-- Witness for the amended C6: the theorem applied at the concrete
nonzero-pad vendor string and at a concrete private node, hypotheses
discharged by computation. -/
theorem c6_pad_byte_ignored_witness :
    (∃ k, ElectrumExtendedPrivKey.fromStr modelB58 c6Str = .ok k) ∧
    getE (privPayload [0x04, 0x5f, 0x18, 0xbc] wXprv) 45 = .ok 0 := by
  constructor
  · exact c6_pad_byte_ignored.1 modelB58 c6Str c6Payload (by rfl) (by rfl)
      ⟨(.testnet, "wpkh".data), by rfl⟩
      ⟨⟨List.replicate 31 0 ++ [1]⟩, by rfl⟩
  · exact c6_pad_byte_ignored.2 [0x04, 0x5f, 0x18, 0xbc] wXprv (by decide)
      (by decide) (by decide) (by decide)

/-- The wallet passed through the trailing validation gate is the wallet
validated, and validation succeeded. -/
theorem validate_gate {w w' : ElectrumWalletFile}
    (h : (match w.validate with
      | .ok _ => (pure w : Except Err ElectrumWalletFile)
      | .error e => throw e) = .ok w') : w' = w ∧ w.validate = .ok () := by
  cases hv : w.validate with
  | ok u =>
    rw [hv] at h
    cases u
    exact ⟨(Except.ok.inj h).symm, rfl⟩
  | error e =>
    rw [hv] at h
    exact absurd h (by simp [throw, throwThe, MonadExceptOf.throw])

/-- The validation gate after any fallible construction step: a wallet
that comes out `ok` passed its own validation. -/
theorem gateBind_ok {M : Except Err ElectrumWalletFile} {w : ElectrumWalletFile}
    (h : (M >>= fun wallet => match wallet.validate with
      | .ok _ => (pure wallet : Except Err ElectrumWalletFile)
      | .error e => throw e) = .ok w) : w.validate = .ok () := by
  cases hm : M with
  | error e =>
    rw [hm, bind_error] at h
    exact absurd h (by simp)
  | ok w0 =>
    rw [hm, bind_ok] at h
    obtain ⟨hw, hv⟩ := validate_gate h
    rw [hw]
    exact hv

/-- What a passed validation guarantees: the keystore count matches the
wallet type and a multisig threshold does not exceed its total. -/
theorem validate_ok_inv {w : ElectrumWalletFile} (h : w.validate = .ok ()) :
    w.keystores.length = (match w.wallet_type with
      | .standard => 1
      | .multisig _ y => y) ∧
    (∀ x y, w.wallet_type = .multisig x y → x ≤ y) := by
  obtain ⟨a, wt, ks⟩ := w
  simp only [ElectrumWalletFile.validate] at h
  cases wt with
  | standard =>
    refine ⟨?_, fun x y hw => by cases hw⟩
    simp only at h ⊢
    by_cases hl : ks.length = 1
    · exact hl
    · rw [if_pos hl] at h
      exact absurd h (by simp)
  | multisig t y =>
    simp only at h ⊢
    by_cases hl : ks.length ≠ y
    · rw [if_pos hl] at h
      exact absurd h (by simp)
    · rw [if_neg hl] at h
      by_cases ht : t > y
      · rw [if_pos ht] at h
        exact absurd h (by simp)
      · refine ⟨by omega, fun x y' hw => ?_⟩
        injection hw with e1 e2
        subst e1
        subst e2
        omega

/-- `ElectrumWalletFile::new` only returns validated wallets. -/
theorem new_validates {ks : List Keystore} {t : Nat} {w : ElectrumWalletFile}
    (h : ElectrumWalletFile.new ks t = .ok w) : w.validate = .ok () := by
  unfold ElectrumWalletFile.new at h
  by_cases h1 : ks.length = 1
  · rw [if_pos h1, bind_pure] at h
    obtain ⟨hw, hv⟩ := validate_gate h
    rw [hw]
    exact hv
  · rw [if_neg h1] at h
    by_cases h255 : ks.length ≥ 255
    · rw [if_pos h255] at h
      exact absurd h (by simp [throw, throwThe, MonadExceptOf.throw,
        bind_error])
    · rw [if_neg h255, bind_pure] at h
      obtain ⟨hw, hv⟩ := validate_gate h
      rw [hw]
      exact hv

/-- `ElectrumWalletFile::from_descriptor` only returns validated
wallets. -/
theorem fromDescriptor_validates {B : Base58Check}
    {σ : List Nat → List Nat} {d : Str} {w : ElectrumWalletFile}
    (h : ElectrumWalletFile.fromDescriptor B σ d = .ok w) :
    w.validate = .ok () := by
  unfold ElectrumWalletFile.fromDescriptor at h
  by_cases hc : containsSM d = true
  · rw [if_pos hc] at h
    exact gateBind_ok h
  · rw [if_neg hc] at h
    exact gateBind_ok h

/-- The deserializer (`visit_map`) only returns validated wallets. -/
theorem visitMap_validates {es : List (Str × Entry)} {w : ElectrumWalletFile}
    (h : visitMap es = .ok w) : w.validate = .ok () := by
  unfold visitMap at h
  cases hst : es.foldlM visitMapStep (Addresses.new, [], WalletType.standard) with
  | error e =>
    rw [hst, bind_error] at h
    exact absurd h (by simp)
  | ok st =>
    rw [hst, bind_ok] at h
    obtain ⟨hw, hv⟩ := validate_gate h
    rw [hw]
    exact hv

/-- The outer-kind mapping of the multisig parser (`sh → pkh`, others
unchanged). -/
def mapOuter (k : Str) : Str := if k = litSh then litPkh else k

/-- A successful `tryMultisigKind` captures exactly its alternative. -/
theorem tryMultisigKind_fst {k s : Str} {r : Str × Char}
    (h : tryMultisigKind k s = some r) : r.1 = k := by
  unfold tryMultisigKind at h
  cases h1 : stripLit k s with
  | none => rw [h1] at h; exact absurd h (by simp)
  | some r1 =>
    rw [h1] at h
    simp only [Option.bind_eq_bind, Option.some_bind] at h
    cases h2 : stripLit litSortedmulti r1 with
    | none => rw [h2] at h; exact absurd h (by simp)
    | some r2 =>
      rw [h2] at h
      simp only [Option.some_bind] at h
      cases r2 with
      | nil => exact absurd h (by simp)
      | cons c r3 =>
        simp only at h
        split at h
        · split at h
          · rename_i h4 r4
            cases hu : parseUnits r4 with
            | none => rw [hu] at h; exact absurd h (by simp)
            | some r5 =>
              rw [hu] at h
              simp only [Option.some_bind] at h
              split at h
              · have := Option.some.inj h
                rw [← this]
              · exact absurd h (by simp)
          · exact absurd h (by simp)
        · exact absurd h (by simp)

/-- The multisig matcher only ever captures one of its three
alternatives. -/
theorem matchMultisigAt_kind {s : Str} {kc : Str × Char}
    (h : matchMultisigAt s = some kc) :
    kc.1 = litSh ∨ kc.1 = litShWsh ∨ kc.1 = litWsh := by
  unfold matchMultisigAt at h
  cases h1 : tryMultisigKind litSh s with
  | some r =>
    rw [h1] at h
    exact Or.inl (Option.some.inj h ▸ tryMultisigKind_fst h1)
  | none =>
    rw [h1] at h
    cases h2 : tryMultisigKind litShWsh s with
    | some r =>
      rw [h2] at h
      exact Or.inr (Or.inl (Option.some.inj h ▸ tryMultisigKind_fst h2))
    | none =>
      rw [h2] at h
      exact Or.inr (Or.inr (tryMultisigKind_fst h))

/-- The leftmost multisig match also captures one of the three
alternatives. -/
theorem findMultisig_kind : ∀ {s : Str} {kc : Str × Char},
    findMultisig s = some kc →
    kc.1 = litSh ∨ kc.1 = litShWsh ∨ kc.1 = litWsh := by
  intro s
  induction s with
  | nil => intro kc h; exact absurd h (by simp [findMultisig])
  | cons c t ih =>
    intro kc h
    unfold findMultisig at h
    cases hm : matchMultisigAt (c :: t) with
    | some r =>
      rw [hm] at h
      exact Option.some.inj h ▸ matchMultisigAt_kind hm
    | none =>
      rw [hm] at h
      exact ih h

/-- For a captured alternative the multisig parser's kind-mapping step is
exactly `mapOuter`. -/
theorem kindStep_eq {k : Str} (hk : k = litSh ∨ k = litShWsh ∨ k = litWsh) :
    (if k = litWsh then (pure litWsh : Except Err Str)
     else if k = litSh then pure litPkh
     else if k = litShWsh then pure litShWsh
     else throw Err.unknownMultisigKind) = pure (mapOuter k) := by
  rcases hk with h | h | h <;> subst h <;> rfl

/-- When the multisig pattern matches but fewer than two key tokens build
keystores, `from_descriptor_multisig` rejects with the few-signers
error. -/
theorem fromDescriptorMultisig_fewSigners {B : Base58Check}
    {σ : List Nat → List Nat} {d : Str} {kc : Str × Char}
    {kss : List Keystore}
    (hf : findMultisig d = some kc)
    (hm : (scanKeys d).mapM (fun tok => Keystore.new B σ (mapOuter kc.1) tok)
      = .ok kss)
    (hlen : kss.length < 2) :
    ElectrumWalletFile.fromDescriptorMultisig B σ d
      = .error Err.multisigFewSigners := by
  obtain ⟨k, c⟩ := kc
  unfold ElectrumWalletFile.fromDescriptorMultisig
  rw [hf]
  dsimp only
  rcases findMultisig_kind hf with hk | hk | hk <;>
    (have hk' : k = _ := hk) <;> subst hk'
  · rw [if_neg (by decide), if_pos rfl]
    simp only [bind_pure]
    rw [show mapOuter litSh = litPkh from rfl] at hm
    simp only [hm, bind_ok]
    rw [if_pos hlen]
    rfl
  · rw [if_neg (by decide), if_neg (by decide), if_pos rfl]
    simp only [bind_pure]
    rw [show mapOuter litShWsh = litShWsh from rfl] at hm
    simp only [hm, bind_ok]
    rw [if_pos hlen]
    rfl
  · rw [if_pos rfl]
    simp only [bind_pure]
    rw [show mapOuter litWsh = litWsh from rfl] at hm
    simp only [hm, bind_ok]
    rw [if_pos hlen]
    rfl

/-- A throwaway keystore for the construction-path instances (the wallet
container never inspects keystore contents while validating). -/
def ksC : Keystore := ⟨Keystore.defaultType, none, []⟩

/-- A multisig descriptor carrying a single key token. -/
def c7FewDesc : Str := "sh(sortedmulti(1,".data ++ c2Key ++ "/0/*))".data

/-- A stored wallet document: a `2of2` wallet type and two positional
keystore fields. -/
def c7Doc : List (Str × Entry) :=
  [("wallet_type".data, .strVal "2of2".data),
   ("x1/".data, .obj ksC),
   ("x2/".data, .obj ksC)]

/-- C7.  Rejection of malformed multisig: a multisig wallet whose
threshold exceeds its keystore count is rejected by `validate` with the
number-of-signatures error; a multisig descriptor from which fewer than
two key tokens build keystores is rejected with the few-signers error;
the validation gate runs after in-memory construction (`new`,
`from_descriptor`) and after deserializing a stored document
(`visit_map`), so every wallet any of them returns passed `validate`; and
a validated wallet's keystore list has exactly the count its wallet type
implies with threshold at most total — never silently truncated or
padded. -/
theorem c7_malformed_multisig_rejected :
    (∀ (a : Addresses) (t y : Nat) (ks : List Keystore),
      ks.length = y → y < t →
      ElectrumWalletFile.validate ⟨a, .multisig t y, ks⟩ =
        .error (.numberSignaturesKeyStores t y)) ∧
    (∀ (B : Base58Check) (σ : List Nat → List Nat) (d : Str)
        (kc : Str × Char) (kss : List Keystore),
      findMultisig d = some kc →
      (scanKeys d).mapM (fun tok => Keystore.new B σ (mapOuter kc.1) tok) =
        .ok kss →
      kss.length < 2 →
      ElectrumWalletFile.fromDescriptorMultisig B σ d =
        .error Err.multisigFewSigners) ∧
    (∀ (ks : List Keystore) (t : Nat) (w : ElectrumWalletFile),
      ElectrumWalletFile.new ks t = .ok w → w.validate = .ok ()) ∧
    (∀ (B : Base58Check) (σ : List Nat → List Nat) (d : Str)
        (w : ElectrumWalletFile),
      ElectrumWalletFile.fromDescriptor B σ d = .ok w →
        w.validate = .ok ()) ∧
    (∀ (es : List (Str × Entry)) (w : ElectrumWalletFile),
      visitMap es = .ok w → w.validate = .ok ()) ∧
    (∀ (w : ElectrumWalletFile), w.validate = .ok () →
      w.keystores.length = (match w.wallet_type with
        | .standard => 1
        | .multisig _ y => y) ∧
      ∀ x y, w.wallet_type = .multisig x y → x ≤ y) := by
  refine ⟨?_, ?_, ?_, ?_, ?_, ?_⟩
  · intro a t y ks hlen ht
    simp only [ElectrumWalletFile.validate]
    rw [if_neg (by omega), if_pos ht]
  · intro B σ d kc kss hf hm hlen
    exact fromDescriptorMultisig_fewSigners hf hm hlen
  · intro ks t w h
    exact new_validates h
  · intro B σ d w h
    exact fromDescriptor_validates h
  · intro es w h
    exact visitMap_validates h
  · intro w h
    exact validate_ok_inv h

set_option maxRecDepth 40000 in
/-- C7 instantiated: a `Multisig(3, 2)` wallet with two keystores is
rejected with the number-of-signatures error; a one-key multisig
descriptor is rejected with the few-signers error; a wallet built by
`new`, one parsed by `from_descriptor`, and one deserialized by
`visit_map` each pass validation, and the deserialized `2of2` wallet
shows the validated-count consequence. -/
theorem c7_malformed_multisig_rejected_witness :
    ElectrumWalletFile.validate ⟨Addresses.new, .multisig 3 2, [ksC, ksC]⟩ =
      .error (.numberSignaturesKeyStores 3 2) ∧
    ElectrumWalletFile.fromDescriptorMultisig modelB58 sigma0 c7FewDesc =
      .error Err.multisigFewSigners ∧
    (⟨Addresses.new, .standard, [ksC]⟩ : ElectrumWalletFile).validate =
      .ok () ∧
    ElectrumWalletFile.validate c2Wallet = .ok () ∧
    (⟨Addresses.new, .multisig 2 2, [ksC, ksC]⟩ :
      ElectrumWalletFile).validate = .ok () ∧
    (⟨Addresses.new, .multisig 2 2, [ksC, ksC]⟩ :
      ElectrumWalletFile).keystores.length = 2 ∧
    ∀ x y, (⟨Addresses.new, .multisig 2 2, [ksC, ksC]⟩ :
      ElectrumWalletFile).wallet_type = .multisig x y → x ≤ y := by
  refine ⟨?_, ?_, ?_, ?_, ?_, ?_⟩
  · exact c7_malformed_multisig_rejected.1 Addresses.new 3 2 [ksC, ksC]
      (by rfl) (by decide)
  · exact c7_malformed_multisig_rejected.2.1 modelB58 sigma0 c7FewDesc
      (litSh, '1')
      [⟨Keystore.defaultType, none,
        modelEnc (pubPayload [0x04, 0x35, 0x87, 0xcf] wXpub)⟩]
      (by rfl) (by rfl) (by decide)
  · exact c7_malformed_multisig_rejected.2.2.1 [ksC] 0 _ (by rfl)
  · exact c7_malformed_multisig_rejected.2.2.2.1 modelB58 sigma0 c2Desc
      c2Wallet (by rfl)
  · exact c7_malformed_multisig_rejected.2.2.2.2.1 c7Doc _ (by rfl)
  · exact And.intro
      (c7_malformed_multisig_rejected.2.2.2.2.2
        ⟨Addresses.new, .multisig 2 2, [ksC, ksC]⟩ (by rfl)).1
      (c7_malformed_multisig_rejected.2.2.2.2.2
        ⟨Addresses.new, .multisig 2 2, [ksC, ksC]⟩ (by rfl)).2

/-- `str::parse::<u8>` never yields a value above 255. -/
theorem parseU8_le {s : Str} {v : Nat} (h : parseU8 s = some v) : v ≤ 255 := by
  unfold parseU8 at h
  split at h
  · exact absurd h (by simp)
  · split at h
    · split at h
      · rename_i hle
        exact (Option.some.inj h) ▸ hle
      · exact absurd h (by simp)
    · exact absurd h (by simp)

/-- A parsed wallet-type string carries a total of at most 255 (both digit
runs go through `parse::<u8>`). -/
theorem walletTypeFromStr_le {s : Str} {wt : WalletType}
    (h : WalletType.fromStr s = .ok wt) :
    ∀ x y, wt = .multisig x y → y ≤ 255 := by
  unfold WalletType.fromStr at h
  split at h
  · cases h
    intro x y hw
    exact absurd hw (by simp)
  · split at h
    · rename_i x0 y0 hx0 hy0
      cases h
      intro x y hw
      injection hw with e1 e2
      subst e2
      exact parseU8_le hy0
    · exact absurd h (by simp)
  · exact absurd h (by simp)

/-- One deserializer step preserves the wallet-type total bound. -/
theorem visitMapStep_wt {st st' : Addresses × List Keystore × WalletType}
    {e : Str × Entry} (h : visitMapStep st e = .ok st')
    (hw : ∀ x y, st.2.2 = .multisig x y → y ≤ 255) :
    ∀ x y, st'.2.2 = .multisig x y → y ≤ 255 := by
  unfold visitMapStep at h
  split at h
  · split at h
    · cases h
      exact hw
    · exact absurd h (by simp)
  · split at h
    · cases h
      exact hw
    · exact absurd h (by simp)
  · split at h
    · split at h
      · rename_i w0 hw0
        cases h
        exact walletTypeFromStr_le hw0
      · exact absurd h (by simp)
    · exact absurd h (by simp)
  · cases h
    exact hw

/-- The deserializer's fold keeps the wallet-type total at 255 or
below. -/
theorem foldlM_wt : ∀ (es : List (Str × Entry))
    (st st' : Addresses × List Keystore × WalletType),
    es.foldlM visitMapStep st = .ok st' →
    (∀ x y, st.2.2 = .multisig x y → y ≤ 255) →
    ∀ x y, st'.2.2 = .multisig x y → y ≤ 255
  | [], st, st', h, hw => by
    rw [List.foldlM_nil] at h
    cases h
    exact hw
  | e :: es, st, st', h, hw => by
    rw [List.foldlM_cons] at h
    cases hs : visitMapStep st e with
    | error e0 =>
      rw [hs, bind_error] at h
      exact absurd h (by simp)
    | ok st1 =>
      rw [hs, bind_ok] at h
      exact foldlM_wt es st1 st' h (visitMapStep_wt hs hw)

/-- The single-sig parser only builds standard wallets. -/
theorem fromDescriptorSinglesig_shape {B : Base58Check}
    {σ : List Nat → List Nat} {d : Str} {w : ElectrumWalletFile}
    (h : ElectrumWalletFile.fromDescriptorSinglesig B σ d = .ok w) :
    w.wallet_type = .standard := by
  unfold ElectrumWalletFile.fromDescriptorSinglesig at h
  split at h
  · rename_i kk hkk
    cases hk : Keystore.new B σ kk.1 kk.2 with
    | error e =>
      rw [hk, bind_error] at h
      exact absurd h (by simp)
    | ok ks =>
      rw [hk, bind_ok] at h
      cases h
      rfl
  · exact absurd h (by simp [throw, throwThe, MonadExceptOf.throw])

/-- The multisig parser narrows the keystore count `as u8`, so the total
it stores never exceeds 255. -/
theorem fromDescriptorMultisig_shape {B : Base58Check}
    {σ : List Nat → List Nat} {d : Str} {w : ElectrumWalletFile}
    (h : ElectrumWalletFile.fromDescriptorMultisig B σ d = .ok w) :
    ∀ x y, w.wallet_type = .multisig x y → y ≤ 255 := by
  unfold ElectrumWalletFile.fromDescriptorMultisig at h
  cases hf : findMultisig d with
  | none =>
    rw [hf] at h
    exact absurd h (by simp [throw, throwThe, MonadExceptOf.throw])
  | some kc =>
    rw [hf] at h
    dsimp only at h
    have main : ∀ (k : Str),
        ((do
          let keystores ← (scanKeys d).mapM (fun tok => Keystore.new B σ k tok)
          if keystores.length < 2 then throw Err.multisigFewSigners else
          match parseU8 [kc.2] with
          | some v =>
            (pure ⟨Addresses.new, .multisig v (keystores.length % 256),
              keystores⟩ : Except Err ElectrumWalletFile)
          | none => throw Err.panicked) = .ok w) →
        ∀ x y, w.wallet_type = .multisig x y → y ≤ 255 := by
      intro k hk
      cases hm : (scanKeys d).mapM (fun tok => Keystore.new B σ k tok) with
      | error e0 =>
        rw [hm, bind_error] at hk
        exact absurd hk (by simp)
      | ok kss =>
        rw [hm, bind_ok] at hk
        split at hk
        · exact absurd hk (by simp [throw, throwThe, MonadExceptOf.throw])
        · cases hp : parseU8 [kc.2] with
          | none =>
            rw [hp] at hk
            exact absurd hk (by simp [throw, throwThe, MonadExceptOf.throw])
          | some v =>
            rw [hp] at hk
            cases hk
            intro x y hw
            injection hw with e1 e2
            subst e2
            have hmod : kss.length % 256 < 256 := Nat.mod_lt _ (by omega)
            omega
    split at h
    · exact main litWsh (by simpa [bind_pure] using h)
    · split at h
      · exact main litPkh (by simpa [bind_pure] using h)
      · split at h
        · exact main litShWsh (by simpa [bind_pure] using h)
        · exact absurd h (by simp [throw, throwThe, MonadExceptOf.throw,
            bind_error])

/-- The validation gate also passes the constructed wallet through
unchanged. -/
theorem gateBind_inner {M : Except Err ElectrumWalletFile}
    {w : ElectrumWalletFile}
    (h : (M >>= fun wallet => match wallet.validate with
      | .ok _ => (pure wallet : Except Err ElectrumWalletFile)
      | .error e => throw e) = .ok w) : M = .ok w := by
  cases hm : M with
  | error e =>
    rw [hm, bind_error] at h
    exact absurd h (by simp)
  | ok w0 =>
    rw [hm, bind_ok] at h
    obtain ⟨hw, _⟩ := validate_gate h
    rw [hw]

/-- A zero-threshold multisig wallet. -/
def c8ZeroWallet : ElectrumWalletFile :=
  ⟨Addresses.new, .multisig 0 2, [ksC, ksC]⟩

/-- A stored wallet document declaring a `2of255` wallet with 255
positional keystore fields. -/
def c8Doc255 : List (Str × Entry) :=
  ("wallet_type".data, .strVal "2of255".data) ::
    (List.range 255).map
      (fun i => ('x' :: decRepr (i + 1) ++ "/".data, .obj ksC))

/-- The accepted 255-signer wallet. -/
def c8Wallet255 : ElectrumWalletFile :=
  ⟨Addresses.new, .multisig 2 255, List.replicate 255 ksC⟩

set_option maxRecDepth 100000 in
/-- C8 refuted as stated: `new` accepts a threshold of zero (no
constructor path enforces `1 ≤ threshold`), and the deserializer accepts
a `2of255` document with 255 keystores (so `total < 255` fails on that
path; only `new` bounds the count strictly). -/
theorem c8_wallet_invariant_counterexample :
    ElectrumWalletFile.new [ksC, ksC] 0 = .ok c8ZeroWallet ∧
    visitMap c8Doc255 = .ok c8Wallet255 := by
  constructor
  · rfl
  · rfl

/-- C8 amended.  Invariant of every accepted wallet: the keystore count
equals the count the wallet type implies, and a multisig's threshold is at
most its total, which is at most 255 — strictly below 255 on the `new`
path, whose guard rejects 255 keystores or more. -/
theorem c8_wallet_invariant_amended :
    (∀ (ks : List Keystore) (t : Nat) (w : ElectrumWalletFile),
      ElectrumWalletFile.new ks t = .ok w →
      w.keystores.length = (match w.wallet_type with
        | .standard => 1
        | .multisig _ y => y) ∧
      ∀ x y, w.wallet_type = .multisig x y → x ≤ y ∧ y < 255) ∧
    (∀ (B : Base58Check) (σ : List Nat → List Nat) (d : Str)
        (w : ElectrumWalletFile),
      ElectrumWalletFile.fromDescriptor B σ d = .ok w →
      w.keystores.length = (match w.wallet_type with
        | .standard => 1
        | .multisig _ y => y) ∧
      ∀ x y, w.wallet_type = .multisig x y → x ≤ y ∧ y ≤ 255) ∧
    (∀ (es : List (Str × Entry)) (w : ElectrumWalletFile),
      visitMap es = .ok w →
      w.keystores.length = (match w.wallet_type with
        | .standard => 1
        | .multisig _ y => y) ∧
      ∀ x y, w.wallet_type = .multisig x y → x ≤ y ∧ y ≤ 255) := by
  refine ⟨?_, ?_, ?_⟩
  · intro ks t w h
    unfold ElectrumWalletFile.new at h
    by_cases h1 : ks.length = 1
    · rw [if_pos h1, bind_pure] at h
      obtain ⟨hw, hv⟩ := validate_gate h
      subst hw
      refine ⟨(validate_ok_inv hv).1, fun x y hw' => ?_⟩
      exact absurd hw' (by simp)
    · rw [if_neg h1] at h
      by_cases h255 : ks.length ≥ 255
      · rw [if_pos h255] at h
        exact absurd h (by simp [throw, throwThe, MonadExceptOf.throw,
          bind_error])
      · rw [if_neg h255, bind_pure] at h
        obtain ⟨hw, hv⟩ := validate_gate h
        subst hw
        obtain ⟨hl, hxy⟩ := validate_ok_inv hv
        refine ⟨hl, fun x y hw' => ?_⟩
        refine ⟨hxy x y hw', ?_⟩
        injection hw' with e1 e2
        omega
  · intro B σ d w h
    have hv := fromDescriptor_validates h
    obtain ⟨hl, hxy⟩ := validate_ok_inv hv
    refine ⟨hl, fun x y hw => ⟨hxy x y hw, ?_⟩⟩
    unfold ElectrumWalletFile.fromDescriptor at h
    by_cases hc : containsSM d = true
    · rw [if_pos hc] at h
      exact fromDescriptorMultisig_shape (gateBind_inner h) x y hw
    · rw [if_neg hc] at h
      have := fromDescriptorSinglesig_shape (gateBind_inner h)
      rw [this] at hw
      exact absurd hw (by simp)
  · intro es w h
    have hv := visitMap_validates h
    obtain ⟨hl, hxy⟩ := validate_ok_inv hv
    refine ⟨hl, fun x y hw => ⟨hxy x y hw, ?_⟩⟩
    unfold visitMap at h
    cases hst : es.foldlM visitMapStep (Addresses.new, [], WalletType.standard)
      with
    | error e =>
      rw [hst, bind_error] at h
      exact absurd h (by simp)
    | ok st =>
      rw [hst, bind_ok] at h
      obtain ⟨hww, _⟩ := validate_gate h
      subst hww
      exact foldlM_wt es _ st hst
        (fun x0 y0 hx0 => absurd hx0 (by simp)) x y hw

set_option maxRecDepth 40000 in
/-- C8 amended, instantiated: the invariant consequences at a wallet built
by `new`, one parsed by `from_descriptor`, and one deserialized by
`visit_map`. -/
theorem c8_wallet_invariant_amended_witness :
    ((⟨Addresses.new, .standard, [ksC]⟩ :
        ElectrumWalletFile).keystores.length = 1 ∧
      ∀ x y, (⟨Addresses.new, .standard, [ksC]⟩ :
        ElectrumWalletFile).wallet_type = .multisig x y →
        x ≤ y ∧ y < 255) ∧
    (c2Wallet.keystores.length = 1 ∧
      ∀ x y, c2Wallet.wallet_type = .multisig x y → x ≤ y ∧ y ≤ 255) ∧
    ((⟨Addresses.new, .multisig 2 2, [ksC, ksC]⟩ :
        ElectrumWalletFile).keystores.length = 2 ∧
      ∀ x y, (⟨Addresses.new, .multisig 2 2, [ksC, ksC]⟩ :
        ElectrumWalletFile).wallet_type = .multisig x y →
        x ≤ y ∧ y ≤ 255) := by
  refine ⟨?_, ?_, ?_⟩
  · exact c8_wallet_invariant_amended.1 [ksC] 0 _ (by rfl)
  · exact c8_wallet_invariant_amended.2.1 modelB58 sigma0 c2Desc c2Wallet
      (by rfl)
  · exact c8_wallet_invariant_amended.2.2 c7Doc _ (by rfl)

/-- `replace01` passes a character that is not a slash through
unchanged. -/
theorem replace01_cons_ne {c : Char} {s : Str} (hc : ¬ c = '/') :
    replace01 (c :: s) = c :: replace01 s := by
  match s with
  | [] => rfl
  | [b1] => rfl
  | [b1, b2] => rfl
  | b1 :: b2 :: b3 :: rest =>
    conv_lhs => unfold replace01
    rw [if_neg (fun hp => hc hp.1)]

/-- `replace01` rewrites the pattern at the head. -/
theorem replace01_pat (s : Str) :
    replace01 ('/' :: '0' :: '/' :: '*' :: s) =
      '/' :: '1' :: '/' :: '*' :: replace01 s := rfl

/-- `replace01` is the identity on slash-free strings. -/
theorem replace01_noslash : ∀ {s : Str}, (∀ c ∈ s, ¬ c = '/') →
    replace01 s = s
  | [], _ => rfl
  | c :: s, h => by
    rw [replace01_cons_ne (h c (by simp)),
      replace01_noslash (fun c0 hc0 => h c0 (by simp [hc0]))]

/-- `replace01` skips over a slash-free prefix. -/
theorem replace01_append_noslash : ∀ {p : Str} (s : Str),
    (∀ c ∈ p, ¬ c = '/') → replace01 (p ++ s) = p ++ replace01 s
  | [], s, _ => rfl
  | c :: p, s, h => by
    rw [List.cons_append, replace01_cons_ne (h c (by simp)),
      replace01_append_noslash s (fun c0 hc0 => h c0 (by simp [hc0]))]
    rfl

/-- Textual replacement on the single-sig assembly shape: with slash-free
kind, key and closing, exactly the derivation-path occurrence is
rewritten. -/
theorem replace01_shape (kind K closing : Str)
    (hk : ∀ c ∈ kind, ¬ c = '/') (hK : ∀ c ∈ K, ¬ c = '/')
    (hc : ∀ c ∈ closing, ¬ c = '/') :
    replace01 (kind ++ "(".data ++ K ++ "/0/*)".data ++ closing) =
      kind ++ "(".data ++ K ++ "/1/*)".data ++ closing := by
  have hP : ∀ c ∈ kind ++ "(".data ++ K, ¬ c = '/' := by
    intro c hcm
    rcases List.mem_append.mp hcm with hm | hm
    · rcases List.mem_append.mp hm with hm2 | hm2
      · exact hk c hm2
      · simp only [show "(".data = ['('] from rfl, List.mem_singleton] at hm2
        subst hm2
        decide
    · exact hK c hm
  have e1 : kind ++ "(".data ++ K ++ "/0/*)".data ++ closing
      = (kind ++ "(".data ++ K) ++
        ('/' :: '0' :: '/' :: '*' :: ')' :: closing) := by
    simp [List.append_assoc]
  have e2 : kind ++ "(".data ++ K ++ "/1/*)".data ++ closing
      = (kind ++ "(".data ++ K) ++
        ('/' :: '1' :: '/' :: '*' :: ')' :: closing) := by
    simp [List.append_assoc]
  rw [e1, e2, replace01_append_noslash _ hP, replace01_pat,
    replace01_cons_ne (show ¬ ')' = '/' by decide), replace01_noslash hc]

/-- The codec collaborator's output never contains a slash (it is
alphanumeric). -/
theorem enc_noslash (B : Base58Check) (b : List Nat) :
    ∀ c ∈ B.enc b, ¬ c = '/' := by
  intro c hc he
  have := B.enc_alnum b c hc
  rw [he] at this
  exact absurd this (by decide)

/-- The ten public sentinel kinds are slash-free. -/
theorem sentinelsPub_kinds_noslash :
    ∀ sent ∈ sentinelsPub, ∀ c ∈ sent.2.2, ¬ c = '/' := by decide

/-- The ten private sentinel kinds are slash-free. -/
theorem sentinelsPriv_kinds_noslash :
    ∀ sent ∈ sentinelsPriv, ∀ c ∈ sent.2.2, ¬ c = '/' := by decide

/-- A decoded vendor public key's kind comes from the sentinel table, so
it is slash-free. -/
theorem pubFromStr_kind_noslash {B : Base58Check} {s : Str}
    {k : ElectrumExtendedPubKey}
    (h : ElectrumExtendedPubKey.fromStr B s = .ok k) :
    ∀ c ∈ k.kind, ¬ c = '/' := by
  unfold ElectrumExtendedPubKey.fromStr at h
  cases hd : B.dec s with
  | none =>
    rw [hd] at h
    exact absurd h (by simp [ofB58, throw, throwThe, MonadExceptOf.throw,
      bind_error])
  | some data =>
    rw [hd, show ofB58 (some data) = pure data from rfl, bind_pure] at h
    obtain ⟨-, a, b, c0, d0, nw, -, -, hmatch, -⟩ := decodePubPayload_inv h
    obtain ⟨sent, hmem, -, -, hkind⟩ := matchElectrumXpub_inv hmatch
    intro ch hch
    refine sentinelsPub_kinds_noslash sent hmem ch ?_
    rw [hkind]
    exact hch

/-- A decoded vendor private key's kind comes from the sentinel table, so
it is slash-free. -/
theorem privFromStr_kind_noslash {B : Base58Check} {s : Str}
    {k : ElectrumExtendedPrivKey}
    (h : ElectrumExtendedPrivKey.fromStr B s = .ok k) :
    ∀ c ∈ k.kind, ¬ c = '/' := by
  unfold ElectrumExtendedPrivKey.fromStr at h
  cases hd : B.dec s with
  | none =>
    rw [hd] at h
    exact absurd h (by simp [ofB58, throw, throwThe, MonadExceptOf.throw,
      bind_error])
  | some data =>
    rw [hd, show ofB58 (some data) = pure data from rfl, bind_pure] at h
    obtain ⟨-, a, b, c0, d0, nw, -, -, hmatch, -⟩ := decodePrivPayload_inv h
    obtain ⟨sent, hmem, -, -, hkind⟩ := matchElectrumXprv_inv hmatch
    intro ch hch
    refine sentinelsPriv_kinds_noslash sent hmem ch ?_
    rw [hkind]
    exact hch

/-- Any key a keystore hands out has a slash-free kind tag. -/
theorem getXkey_kind_noslash {B : Base58Check} {ks : Keystore} {xk : XKey}
    (h : Keystore.getXkey B ks = .ok xk) :
    ∀ c ∈ XKey.kind xk, ¬ c = '/' := by
  unfold Keystore.getXkey at h
  split at h
  · rename_i xp hxp
    cases hf : ElectrumExtendedPrivKey.fromStr B xp with
    | error e =>
      rw [hf] at h
      exact absurd h (by simp [Except.map])
    | ok k =>
      rw [hf] at h
      simp only [Except.map] at h
      cases h
      exact privFromStr_kind_noslash hf
  · cases hf : ElectrumExtendedPubKey.fromStr B ks.xpub with
    | error e =>
      rw [hf] at h
      exact absurd h (by simp [Except.map])
    | ok k =>
      rw [hf] at h
      simp only [Except.map] at h
      cases h
      exact pubFromStr_kind_noslash hf

/-- The standard-format string of any key is slash-free (it is the
codec's output). -/
theorem xkeyStr_noslash (B : Base58Check) (xk : XKey) :
    ∀ c ∈ XKey.xkeyStr B xk, ¬ c = '/' := by
  cases xk with
  | priv k => exact fun c hc => enc_noslash B _ c hc
  | pub k => exact fun c hc => enc_noslash B _ c hc

/-- C9.  Change descriptor as a pure textual transform: for the key-level
assembly routines (with a slash-free kind tag, as every decoded kind is)
and for every descriptor list the wallet-level `to_descriptors` returns,
the change descriptor is exactly `replace01` — replace every `/0/*` by
`/1/*` — of the external descriptor, and otherwise byte-identical. -/
theorem c9_change_textual_transform :
    (∀ (B : Base58Check) (k : ElectrumExtendedPubKey),
      (∀ c ∈ k.kind, ¬ c = '/') →
      (ElectrumExtendedPubKey.toDescriptors B k).change =
        replace01 (ElectrumExtendedPubKey.toDescriptors B k).external) ∧
    (∀ (B : Base58Check) (k : ElectrumExtendedPrivKey),
      (∀ c ∈ k.kind, ¬ c = '/') →
      ∀ ext ch, ElectrumExtendedPrivKey.toDescriptors B k = [ext, ch] →
        ch = replace01 ext) ∧
    (∀ (B : Base58Check) (w : ElectrumWalletFile) (ds : List Str),
      ElectrumWalletFile.toDescriptors B w = .ok ds →
      ∀ ext ch, ds = [ext, ch] → ch = replace01 ext) := by
  refine ⟨?_, ?_, ?_⟩
  · intro B k hk
    show _ = replace01 (k.kind ++ "(".data ++ k.xpub.toStr B ++
      "/0/*)".data ++ (if containsParen k.kind then ")".data else []))
    rw [replace01_shape k.kind (k.xpub.toStr B) _ hk
      (enc_noslash B _) (by split <;> simp <;> decide)]
    rfl
  · intro B k hk ext ch h
    have h0 : ext = k.kind ++ "(".data ++ k.xprv.toStr B ++ "/0/*)".data ++
        (if containsParen k.kind then ")".data else []) :=
      ((List.cons.inj h).1).symm
    have h1 : ch = k.kind ++ "(".data ++ k.xprv.toStr B ++ "/1/*)".data ++
        (if containsParen k.kind then ")".data else []) :=
      ((List.cons.inj (List.cons.inj h).2).1).symm
    rw [h0, h1, replace01_shape k.kind (k.xprv.toStr B) _ hk
      (enc_noslash B _) (by split <;> simp <;> decide)]
  · intro B w ds h ext ch hds
    subst hds
    unfold ElectrumWalletFile.toDescriptors at h
    split at h
    · rename_i hwt
      cases hh : w.keystores.head? with
      | none =>
        rw [hh] at h
        exact absurd h (by simp [throw, throwThe, MonadExceptOf.throw,
          bind_error])
      | some ks0 =>
        rw [hh] at h
        simp only [bind_pure] at h
        cases hx : Keystore.getXkey B ks0 with
        | error e =>
          rw [hx, bind_error] at h
          exact absurd h (by simp)
        | ok xk =>
          rw [hx, bind_ok] at h
          have hpair := Except.ok.inj h
          have h0 : ext = XKey.kind xk ++ "(".data ++ XKey.xkeyStr B xk ++
              "/0/*)".data := ((List.cons.inj hpair).1).symm
          have h1 : ch = XKey.kind xk ++ "(".data ++ XKey.xkeyStr B xk ++
              "/1/*)".data :=
            ((List.cons.inj (List.cons.inj hpair).2).1).symm
          rw [h0, h1, ← List.append_nil (XKey.kind xk ++ "(".data ++
            XKey.xkeyStr B xk ++ "/0/*)".data),
            ← List.append_nil (XKey.kind xk ++ "(".data ++
            XKey.xkeyStr B xk ++ "/1/*)".data),
            replace01_shape (XKey.kind xk) (XKey.xkeyStr B xk) []
            (getXkey_kind_noslash hx) (xkeyStr_noslash B xk) (by simp)]
    · rename_i x y hwt
      cases hm : w.keystores.mapM (fun ks => Keystore.getXkey B ks) with
      | error e =>
        rw [hm, bind_error] at h
        exact absurd h (by simp)
      | ok xkeys =>
        rw [hm, bind_ok] at h
        cases hh : xkeys.head? with
        | none =>
          rw [hh] at h
          exact absurd h (by simp [throw, throwThe, MonadExceptOf.throw,
            bind_error])
        | some k0 =>
          rw [hh] at h
          simp only [bind_pure] at h
          have hpair := Except.ok.inj h
          have h0 := (List.cons.inj hpair).1
          have h1 := (List.cons.inj (List.cons.inj hpair).2).1
          rw [← h1, ← h0]

/-- `replace01` preserves the count of every character other than the
digits it may rewrite. -/
theorem replace01_count (ch : Char) (h0 : ¬ ch = '0') (h1 : ¬ ch = '1') :
    ∀ s : Str, (replace01 s).count ch = s.count ch
  | [] => rfl
  | [a] => rfl
  | [a, b] => rfl
  | [a, b, c] => rfl
  | a :: b :: c :: d :: rest => by
    by_cases hp : a = '/' ∧ b = '0' ∧ c = '/' ∧ d = '*'
    · obtain ⟨ha, hb, hc2, hd⟩ := hp
      subst ha; subst hb; subst hc2; subst hd
      conv_lhs => unfold replace01
      rw [if_pos ⟨rfl, rfl, rfl, rfl⟩]
      simp only [List.count_cons, replace01_count ch h0 h1 rest]
      have e0 : ('0' == ch) = false := by simpa using fun e => h0 e.symm
      have e1 : ('1' == ch) = false := by simpa using fun e => h1 e.symm
      simp [e0, e1]
    · conv_lhs => unfold replace01
      rw [if_neg hp]
      simp only [List.count_cons,
        replace01_count ch h0 h1 (b :: c :: d :: rest)]

/-- The standard-format string of any key is alphanumeric (it is the
codec's output). -/
theorem xkeyStr_alnum (B : Base58Check) (xk : XKey) :
    ∀ c ∈ XKey.xkeyStr B xk, c.isAlphanum = true := by
  cases xk with
  | priv k => exact fun c hc => B.enc_alnum _ c hc
  | pub k => exact fun c hc => B.enc_alnum _ c hc

/-- The multisig body fold adds no occurrence of a non-alphanumeric
character outside the comma and derivation-path separators. -/
theorem foldl_keys_count (B : Base58Check) (ch : Char)
    (hal : ch.isAlphanum = false) (hc : ch ∉ ",".data) (hs : ch ∉ lit0) :
    ∀ (l : List XKey) (acc : Str),
    (l.foldl (fun acc2 xk => acc2 ++ ",".data ++ XKey.xkeyStr B xk ++ lit0)
      acc).count ch = acc.count ch
  | [], acc => rfl
  | xk :: l, acc => by
    have hkey : List.count ch (XKey.xkeyStr B xk) = 0 :=
      List.count_eq_zero.mpr (fun hm => by
        have h2 := xkeyStr_alnum B xk ch hm
        rw [hal] at h2
        exact Bool.noConfusion h2)
    rw [List.foldl_cons, foldl_keys_count B ch hal hc hs l _,
      List.count_append, List.count_append, List.count_append,
      List.count_eq_zero.mpr hc, List.count_eq_zero.mpr hs, hkey]
    omega

/-- Every slot of the digit table is a digit (out-of-range reads default
to `'0'`). -/
theorem digitChars_getD_digit (i : Nat) :
    (digitChars.getD i '0').isDigit = true := by
  match i with
  | 0 => rfl
  | 1 => rfl
  | 2 => rfl
  | 3 => rfl
  | 4 => rfl
  | 5 => rfl
  | 6 => rfl
  | 7 => rfl
  | 8 => rfl
  | 9 => rfl
  | n + 10 =>
    rw [List.getD_eq_default _ _
      (show digitChars.length ≤ n + 10 by
        rw [show digitChars.length = 10 from rfl]; omega)]
    rfl

/-- The decimal formatter emits only digits. -/
theorem decReprF_digits : ∀ (fuel n : Nat) (acc : Str),
    (∀ c ∈ acc, c.isDigit = true) →
    ∀ c ∈ decReprF fuel n acc, c.isDigit = true
  | 0, _, _, h => h
  | fuel + 1, n, acc, h => by
    simp only [decReprF]
    by_cases hn : n < 10
    · rw [if_pos hn]
      intro c hc
      rcases List.mem_cons.mp hc with hc | hc
      · subst hc; exact digitChars_getD_digit _
      · exact h c hc
    · rw [if_neg hn]
      refine decReprF_digits fuel (n / 10) _ ?_
      intro c hc
      rcases List.mem_cons.mp hc with hc | hc
      · subst hc; exact digitChars_getD_digit _
      · exact h c hc

/-- The decimal rendering contains no non-digit character. -/
theorem decRepr_count_nondigit (n : Nat) (ch : Char)
    (hd : ch.isDigit = false) : (decRepr n).count ch = 0 :=
  List.count_eq_zero.mpr (fun hm => by
    have h2 := decReprF_digits (n + 1) n [] (by simp) ch hm
    rw [hd] at h2
    exact Bool.noConfusion h2)

/-- The ten public sentinel kinds are in the closed five-kind set. -/
theorem sentinelsPub_kinds_mem :
    ∀ sent ∈ sentinelsPub, sent.2.2 ∈ fiveKinds := by decide

/-- The ten private sentinel kinds are in the closed five-kind set. -/
theorem sentinelsPriv_kinds_mem :
    ∀ sent ∈ sentinelsPriv, sent.2.2 ∈ fiveKinds := by decide

/-- A decoded vendor public key's kind is one of the five script
kinds. -/
theorem pubFromStr_kind_mem {B : Base58Check} {s : Str}
    {k : ElectrumExtendedPubKey}
    (h : ElectrumExtendedPubKey.fromStr B s = .ok k) :
    k.kind ∈ fiveKinds := by
  unfold ElectrumExtendedPubKey.fromStr at h
  cases hd : B.dec s with
  | none =>
    rw [hd] at h
    exact absurd h (by simp [ofB58, throw, throwThe, MonadExceptOf.throw,
      bind_error])
  | some data =>
    rw [hd, show ofB58 (some data) = pure data from rfl, bind_pure] at h
    obtain ⟨-, a, b, c0, d0, nw, -, -, hmatch, -⟩ := decodePubPayload_inv h
    obtain ⟨sent, hmem, -, -, hkind⟩ := matchElectrumXpub_inv hmatch
    have h2 := sentinelsPub_kinds_mem sent hmem
    rw [hkind] at h2
    exact h2

/-- A decoded vendor private key's kind is one of the five script
kinds. -/
theorem privFromStr_kind_mem {B : Base58Check} {s : Str}
    {k : ElectrumExtendedPrivKey}
    (h : ElectrumExtendedPrivKey.fromStr B s = .ok k) :
    k.kind ∈ fiveKinds := by
  unfold ElectrumExtendedPrivKey.fromStr at h
  cases hd : B.dec s with
  | none =>
    rw [hd] at h
    exact absurd h (by simp [ofB58, throw, throwThe, MonadExceptOf.throw,
      bind_error])
  | some data =>
    rw [hd, show ofB58 (some data) = pure data from rfl, bind_pure] at h
    obtain ⟨-, a, b, c0, d0, nw, -, -, hmatch, -⟩ := decodePrivPayload_inv h
    obtain ⟨sent, hmem, -, -, hkind⟩ := matchElectrumXprv_inv hmatch
    have h2 := sentinelsPriv_kinds_mem sent hmem
    rw [hkind] at h2
    exact h2

/-- Any key a keystore hands out has a kind from the closed five-kind
set. -/
theorem getXkey_kind_mem {B : Base58Check} {ks : Keystore} {xk : XKey}
    (h : Keystore.getXkey B ks = .ok xk) : XKey.kind xk ∈ fiveKinds := by
  unfold Keystore.getXkey at h
  split at h
  · rename_i xp hxp
    cases hf : ElectrumExtendedPrivKey.fromStr B xp with
    | error e =>
      rw [hf] at h
      exact absurd h (by simp [Except.map])
    | ok k =>
      rw [hf] at h
      simp only [Except.map] at h
      cases h
      exact privFromStr_kind_mem hf
  · cases hf : ElectrumExtendedPubKey.fromStr B ks.xpub with
    | error e =>
      rw [hf] at h
      exact absurd h (by simp [Except.map])
    | ok k =>
      rw [hf] at h
      simp only [Except.map] at h
      cases h
      exact pubFromStr_kind_mem hf

/-- A present head is a member. -/
theorem head?_mem {α : Type} {l : List α} {a : α} (h : l.head? = some a) :
    a ∈ l := by
  cases l with
  | nil => exact absurd h (by simp)
  | cons b t =>
    simp only [List.head?] at h
    rw [← Option.some.inj h]
    exact List.mem_cons_self b t

/-- Every key delivered by the wallet's `map`-over-keystores step was
handed out by some keystore. -/
theorem mapM_getXkey_mem {B : Base58Check} :
    ∀ {l : List Keystore} {ys : List XKey},
    l.mapM (fun ks => Keystore.getXkey B ks) = .ok ys →
    ∀ y ∈ ys, ∃ ks, Keystore.getXkey B ks = .ok y
  | [], ys, h => by
    rw [List.mapM_nil] at h
    cases h
    intro y hy
    exact absurd hy (by simp)
  | a :: l, ys, h => by
    rw [List.mapM_cons] at h
    cases hb : Keystore.getXkey B a with
    | error e =>
      rw [hb, bind_error] at h
      exact absurd h (by simp)
    | ok b =>
      rw [hb, bind_ok] at h
      cases hbs : l.mapM (fun ks => Keystore.getXkey B ks) with
      | error e =>
        rw [hbs, bind_error] at h
        exact absurd h (by simp)
      | ok bs =>
        rw [hbs, bind_ok] at h
        cases h
        intro y hy
        rcases List.mem_cons.mp hy with hy | hy
        · subst hy
          exact ⟨a, hb⟩
        · exact mapM_getXkey_mem hbs y hy

/-- Parenthesis counts of the assembled multisig body: the opening count
is three for a wrapped outer kind and two otherwise, the closing count is
always two. -/
theorem multisig_body_counts (B : Base58Check) (k : Str)
    (hk : k ∈ fiveKinds) (xkeys : List XKey) (x : Nat) :
    ((xkeys.foldl
        (fun acc xk => acc ++ ",".data ++ XKey.xkeyStr B xk ++ lit0)
        ((if k = litPkh then litSh else k) ++ litSortedmulti ++
          decRepr x)) ++ "))".data).count '(' =
      (if containsParen k = true then 3 else 2) ∧
    ((xkeys.foldl
        (fun acc xk => acc ++ ",".data ++ XKey.xkeyStr B xk ++ lit0)
        ((if k = litPkh then litSh else k) ++ litSortedmulti ++
          decRepr x)) ++ "))".data).count ')' = 2 := by
  simp only [List.count_append,
    foldl_keys_count B '(' (by decide) (by decide) (by decide),
    foldl_keys_count B ')' (by decide) (by decide) (by decide),
    decRepr_count_nondigit x '(' (by decide),
    decRepr_count_nondigit x ')' (by decide)]
  fin_cases hk <;> exact ⟨by decide, by decide⟩

/-- The compensation step balances a body whose opens exceed its closes
by exactly one. -/
theorem compensate_balanced {body : Str}
    (h : body.count '(' = body.count ')' ∨
      body.count '(' = body.count ')' + 1) :
    (if body.count '(' > body.count ')' then body ++ ")".data else
      body).count '(' =
    (if body.count '(' > body.count ')' then body ++ ")".data else
      body).count ')' := by
  rcases h with h | h
  · rw [if_neg (by omega)]
    exact h
  · rw [if_pos (by omega), List.count_append, List.count_append,
      show (")".data.count '(' : Nat) = 0 from rfl,
      show (")".data.count ')' : Nat) = 1 from rfl]
    omega

/-- C5.  Wrapped-kind parenthesis invariant: every single-sig descriptor
the key-level assembly produces over the five script kinds has equal
counts of `'('` and `')'` (for the wrapped kinds the tag's extra opening
parenthesis is matched by the appended closing one); every multisig
descriptor pair the wallet-level assembly returns is balanced; and the
compensation step appends exactly one closing parenthesis when the opens
exceed the closes by one and none otherwise. -/
theorem c5_paren_balance :
    (∀ kind ∈ fiveKinds, ∀ (B : Base58Check) (x : Xpub),
      ((ElectrumExtendedPubKey.toDescriptors B ⟨x, kind⟩).external.count '('
        = (ElectrumExtendedPubKey.toDescriptors B
          ⟨x, kind⟩).external.count ')') ∧
      ((ElectrumExtendedPubKey.toDescriptors B ⟨x, kind⟩).change.count '('
        = (ElectrumExtendedPubKey.toDescriptors B
          ⟨x, kind⟩).change.count ')')) ∧
    (∀ (B : Base58Check) (w : ElectrumWalletFile) (x y : Nat)
        (ds : List Str),
      w.wallet_type = .multisig x y →
      ElectrumWalletFile.toDescriptors B w = .ok ds →
      ∀ ext ch, ds = [ext, ch] →
        ext.count '(' = ext.count ')' ∧ ch.count '(' = ch.count ')') ∧
    (∀ body : Str, body.count '(' = body.count ')' + 1 →
      (if body.count '(' > body.count ')' then body ++ ")".data else body)
        = body ++ ")".data) ∧
    (∀ body : Str, body.count '(' ≤ body.count ')' →
      (if body.count '(' > body.count ')' then body ++ ")".data else body)
        = body) := by
  refine ⟨?_, ?_, fun body h => if_pos (by omega), fun body h =>
    if_neg (by omega)⟩
  · intro kind hkind B x
    have hK1 : (Xpub.toStr B x).count '(' = 0 :=
      List.count_eq_zero.mpr (fun hm => absurd (B.enc_alnum _ _ hm)
        (by decide))
    have hK2 : (Xpub.toStr B x).count ')' = 0 :=
      List.count_eq_zero.mpr (fun hm => absurd (B.enc_alnum _ _ hm)
        (by decide))
    refine ⟨?_, ?_⟩ <;>
      fin_cases hkind <;>
      simp only [ElectrumExtendedPubKey.toDescriptors, List.count_append,
        hK1, hK2] <;>
      decide
  · intro B w x y ds hwt h ext ch hds
    subst hds
    unfold ElectrumWalletFile.toDescriptors at h
    rw [hwt] at h
    dsimp only at h
    cases hm : w.keystores.mapM (fun ks => Keystore.getXkey B ks) with
    | error e =>
      rw [hm, bind_error] at h
      exact absurd h (by simp)
    | ok xkeys =>
      rw [hm, bind_ok] at h
      cases hh : xkeys.head? with
      | none =>
        rw [hh] at h
        exact absurd h (by simp [throw, throwThe, MonadExceptOf.throw,
          bind_error])
      | some k0 =>
        rw [hh] at h
        simp only [bind_pure] at h
        have hpair := Except.ok.inj h
        have h0 := (List.cons.inj hpair).1
        have h1 := (List.cons.inj (List.cons.inj hpair).2).1
        obtain ⟨ks0, hks0⟩ := mapM_getXkey_mem hm k0 (head?_mem hh)
        have hkmem := getXkey_kind_mem hks0
        have hcounts := multisig_body_counts B (XKey.kind k0) hkmem xkeys x
        have hor : ((xkeys.foldl
            (fun acc xk => acc ++ ",".data ++ XKey.xkeyStr B xk ++ lit0)
            ((if XKey.kind k0 = litPkh then litSh else XKey.kind k0) ++
              litSortedmulti ++ decRepr x)) ++ "))".data).count '(' =
            ((xkeys.foldl
            (fun acc xk => acc ++ ",".data ++ XKey.xkeyStr B xk ++ lit0)
            ((if XKey.kind k0 = litPkh then litSh else XKey.kind k0) ++
              litSortedmulti ++ decRepr x)) ++ "))".data).count ')' ∨
            ((xkeys.foldl
            (fun acc xk => acc ++ ",".data ++ XKey.xkeyStr B xk ++ lit0)
            ((if XKey.kind k0 = litPkh then litSh else XKey.kind k0) ++
              litSortedmulti ++ decRepr x)) ++ "))".data).count '(' =
            ((xkeys.foldl
            (fun acc xk => acc ++ ",".data ++ XKey.xkeyStr B xk ++ lit0)
            ((if XKey.kind k0 = litPkh then litSh else XKey.kind k0) ++
              litSortedmulti ++ decRepr x)) ++ "))".data).count ')' + 1 := by
          rw [hcounts.1, hcounts.2]
          by_cases hcp : containsParen (XKey.kind k0) = true
          · rw [if_pos hcp]
            right
            rfl
          · rw [if_neg hcp]
            left
            rfl
        have hbal := compensate_balanced hor
        refine ⟨?_, ?_⟩
        · rw [← h0]
          exact hbal
        · rw [← h1, replace01_count '(' (by decide) (by decide),
            replace01_count ')' (by decide) (by decide)]
          exact hbal

/-- A keystore holding the concrete vendor `wpkh` public key string. -/
def ksP : Keystore := ⟨Keystore.defaultType, none, wPubStr⟩

/-- A concrete 1-of-2 multisig wallet over two such keystores. -/
def c5W : ElectrumWalletFile := ⟨Addresses.new, .multisig 1 2, [ksP, ksP]⟩

/-- The external descriptor the wallet-level assembly produces for
`c5W`. -/
def c5Ext : Str := "wpkh(sortedmulti(1,".data ++ c2Key ++ "/0/*,".data ++
  c2Key ++ "/0/*))".data

set_option maxRecDepth 100000 in
/-- C5 instantiated: a concrete wrapped single-sig descriptor is
balanced, a concrete multisig descriptor pair is balanced, and the
compensation step on concrete bodies appends one parenthesis or none. -/
theorem c5_paren_balance_witness :
    ((ElectrumExtendedPubKey.toDescriptors modelB58
        ⟨wXpub, "sh(wpkh".data⟩).external.count '(' =
      (ElectrumExtendedPubKey.toDescriptors modelB58
        ⟨wXpub, "sh(wpkh".data⟩).external.count ')') ∧
    (c5Ext.count '(' = c5Ext.count ')' ∧
      (replace01 c5Ext).count '(' = (replace01 c5Ext).count ')') ∧
    ((if "(".data.count '(' > "(".data.count ')' then
        "(".data ++ ")".data else "(".data) = "(".data ++ ")".data) ∧
    ((if ([] : Str).count '(' > ([] : Str).count ')' then
        ([] : Str) ++ ")".data else ([] : Str)) = ([] : Str)) := by
  refine ⟨?_, ?_, ?_, ?_⟩
  · exact (c5_paren_balance.1 "sh(wpkh".data (by decide) modelB58 wXpub).1
  · exact c5_paren_balance.2.1 modelB58 c5W 1 2 [c5Ext, replace01 c5Ext]
      (by rfl) (by rfl) c5Ext (replace01 c5Ext) (by rfl)
  · exact c5_paren_balance.2.2.1 "(".data (by rfl)
  · exact c5_paren_balance.2.2.2 [] (by decide)

set_option maxRecDepth 40000 in
/-- C9 instantiated at the model codec: the concrete key-level pairs and
the concrete wallet descriptor pair are related by the textual
replacement. -/
theorem c9_change_textual_transform_witness :
    (ElectrumExtendedPubKey.toDescriptors modelB58 wEPub).change =
      replace01 (ElectrumExtendedPubKey.toDescriptors modelB58
        wEPub).external ∧
    (ElectrumExtendedPrivKey.toDescriptors modelB58 wEPrv).getD 1 [] =
      replace01 ((ElectrumExtendedPrivKey.toDescriptors modelB58
        wEPrv).getD 0 []) ∧
    "sh(wpkh(".data ++ c2Key ++ "/1/*)".data =
      replace01 ("sh(wpkh(".data ++ c2Key ++ "/0/*)".data) := by
  refine ⟨?_, ?_, ?_⟩
  · exact c9_change_textual_transform.1 modelB58 wEPub (by decide)
  · exact c9_change_textual_transform.2.1 modelB58 wEPrv (by decide) _ _
      (by rfl)
  · exact c9_change_textual_transform.2.2 modelB58 c2Wallet
      ["sh(wpkh(".data ++ c2Key ++ "/0/*)".data,
       "sh(wpkh(".data ++ c2Key ++ "/1/*)".data] (by rfl) _ _ (by rfl)

/-- A string shaped like a standard-format extended-key token:
`[tx]p(ub|rv)` followed by a nonempty alphanumeric run. -/
def TokenShaped (K : Str) : Prop :=
  ∃ c1 c3 c4 body, K = c1 :: 'p' :: c3 :: c4 :: body ∧
    (c1 = 't' ∨ c1 = 'x') ∧
    ((c3 = 'u' ∧ c4 = 'b') ∨ (c3 = 'r' ∧ c4 = 'v')) ∧
    body ≠ [] ∧ ∀ ch ∈ body, ch.isAlphanum = true

/-- The multisig unit list as the descriptor grammar writes it: each key
followed by `/0/*`, separated by commas, then the closing run. -/
def unitsFrom : List Str → Str → Str
  | [], tail => tail
  | K :: keys, tail =>
    K ++ lit0 ++ (if keys.isEmpty then tail else ',' :: unitsFrom keys tail)

/-- The well-shaped multisig descriptor over an outer kind, a threshold
character, a key list and a trailing close run. -/
def msDesc (outer : Str) (c : Char) (keys : List Str) (tail : Str) : Str :=
  outer ++ litSortedmulti ++ c :: ',' :: unitsFrom keys (')' :: tail)

/-- Consuming a literal from a string it heads leaves the rest. -/
theorem stripLit_append : ∀ (p s : Str), stripLit p (p ++ s) = some s
  | [], s => rfl
  | c :: p, s => by
    simp only [List.cons_append, stripLit, if_pos rfl]
    exact stripLit_append p s

/-- A greedy alphanumeric run stops exactly at the slash. -/
theorem takeWhile_alnum_append (body rest : Str)
    (hal : ∀ ch ∈ body, ch.isAlphanum = true) :
    (body ++ '/' :: rest).takeWhile Char.isAlphanum = body := by
  induction body with
  | nil => rfl
  | cons b body ih =>
    simp only [List.cons_append, List.takeWhile_cons, hal b (by simp)]
    rw [ih (fun ch hch => hal ch (by simp [hch]))]
    simp

/-- A digit character is not `'p'`. -/
theorem digit_ne_p {c : Char} (hc : c.isDigit = true) : ¬ c = 'p' := by
  intro he
  rw [he] at hc
  exact Bool.noConfusion hc

/-- The strict key matcher consumes a shaped token up to the following
slash. -/
theorem matchKeyCore_token {K : Str} (h : TokenShaped K) (rest : Str) :
    matchKeyCore (K ++ '/' :: rest) = some (K, '/' :: rest) := by
  obtain ⟨c1, c3, c4, body, hK, h1, h34, hne, hal⟩ := h
  subst hK
  have hbe : body.isEmpty = false := by
    cases body with
    | nil => exact absurd rfl hne
    | cons x xs => rfl
  rcases h1 with h1 | h1 <;> rcases h34 with ⟨ha, hb⟩ | ⟨ha, hb⟩ <;>
    subst h1 <;> subst ha <;> subst hb <;>
    · simp only [List.cons_append]
      unfold matchKeyCore
      split
      · rename_i c1' c3' c4' r2' heq
        obtain ⟨e1, heq2⟩ := List.cons.inj heq
        obtain ⟨-, heq3⟩ := List.cons.inj heq2
        obtain ⟨e3, heq4⟩ := List.cons.inj heq3
        obtain ⟨e4, e5⟩ := List.cons.inj heq4
        subst e1; subst e3; subst e4; subst e5
        rw [takeWhile_alnum_append body rest hal]
        simp [hbe, List.drop_left]
      · rename_i hne2
        exact (hne2 _ _ _ _ rfl).elim

/-- The scanner's key matcher consumes a shaped token up to the following
slash. -/
theorem scanToken_token {K : Str} (h : TokenShaped K) (rest : Str) :
    scanToken (K ++ '/' :: rest) = some (K, '/' :: rest) := by
  obtain ⟨c1, c3, c4, body, hK, h1, h34, hne, hal⟩ := h
  subst hK
  have hbe : body.isEmpty = false := by
    cases body with
    | nil => exact absurd rfl hne
    | cons x xs => rfl
  rcases h1 with h1 | h1 <;> rcases h34 with ⟨ha, hb⟩ | ⟨ha, hb⟩ <;>
    subst h1 <;> subst ha <;> subst hb <;>
    · simp only [List.cons_append]
      unfold scanToken
      split
      · rename_i c1' c3' c4' r2' heq
        obtain ⟨e1, heq2⟩ := List.cons.inj heq
        obtain ⟨-, heq3⟩ := List.cons.inj heq2
        obtain ⟨e3, heq4⟩ := List.cons.inj heq3
        obtain ⟨e4, e5⟩ := List.cons.inj heq4
        subst e1; subst e3; subst e4; subst e5
        rw [takeWhile_alnum_append body rest hal]
        simp [hbe, List.drop_left]
      · rename_i hne2
        exact (hne2 _ _ _ _ rfl).elim

/-- The scanner's matcher fails wherever the second character is not
`'p'`. -/
theorem scanToken_not_p {c d : Char} (hd : ¬ d = 'p') (t : Str) :
    scanToken (c :: d :: t) = none := by
  unfold scanToken
  split
  · rename_i c1 c3 c4 r2 heq
    exact absurd (List.cons.inj (List.cons.inj heq).2).1 hd
  · rfl

/-- The strict matcher fails wherever the second character is not
`'p'`. -/
theorem matchKeyCore_not_p {c d : Char} (hd : ¬ d = 'p') (t : Str) :
    matchKeyCore (c :: d :: t) = none := by
  unfold matchKeyCore
  split
  · rename_i c1 c3 c4 r2 heq
    exact absurd (List.cons.inj (List.cons.inj heq).2).1 hd
  · rfl

/-- The strict matcher fails on a one-character string. -/
theorem matchKeyCore_single (c : Char) : matchKeyCore [c] = none := by
  unfold matchKeyCore
  split
  · rename_i c1 c3 c4 r2 heq
    exact absurd heq (by simp)
  · rfl

/-- The scanner walk skips a position whose successor cannot start a
token. -/
theorem scanKeys_skip (c d : Char) (hd : ¬ d = 'p') (t : Str) :
    scanKeys (c :: d :: t) = scanKeys (d :: t) := by
  rw [scanKeys_rec]
  dsimp only
  rw [scanToken_not_p hd]

/-- One unit parse over a shaped key ending before a comma. -/
theorem parseUnit_token_comma {K : Str} (h : TokenShaped K) (t : Str) :
    parseUnit (K ++ lit0 ++ ',' :: t) = some t := by
  unfold parseUnit
  rw [List.append_assoc,
    show lit0 ++ ',' :: t = '/' :: '0' :: '/' :: '*' :: ',' :: t from rfl,
    matchKeyCore_token h ('0' :: '/' :: '*' :: ',' :: t)]
  simp only [Option.bind_eq_bind, Option.some_bind]
  rw [show ('/' : Char) :: '0' :: '/' :: '*' :: ',' :: t =
    lit0 ++ ',' :: t from rfl, stripLit_append]
  rfl

/-- One unit parse over a shaped key ending before a closing
parenthesis. -/
theorem parseUnit_token_close {K : Str} (h : TokenShaped K) (t : Str) :
    parseUnit (K ++ lit0 ++ ')' :: t) = some (')' :: t) := by
  unfold parseUnit
  rw [List.append_assoc,
    show lit0 ++ ')' :: t = '/' :: '0' :: '/' :: '*' :: ')' :: t from rfl,
    matchKeyCore_token h ('0' :: '/' :: '*' :: ')' :: t)]
  simp only [Option.bind_eq_bind, Option.some_bind]
  rw [show ('/' : Char) :: '0' :: '/' :: '*' :: ')' :: t =
    lit0 ++ ')' :: t from rfl, stripLit_append]
  rfl

/-- The strict matcher fails wherever the first character is neither
`'t'` nor `'x'`. -/
theorem matchKeyCore_not_tx {c : Char} (hc : (c == 't' || c == 'x') = false)
    (t : Str) : matchKeyCore (c :: t) = none := by
  unfold matchKeyCore
  split
  · rename_i c1 c3 c4 r2 heq
    obtain ⟨e1, -⟩ := List.cons.inj heq
    rw [if_neg (by simp [← e1, hc])]
  · rfl

/-- No unit starts at a closing parenthesis. -/
theorem parseUnit_close (t : Str) : parseUnit (')' :: t) = none := by
  unfold parseUnit
  rw [matchKeyCore_not_tx (by decide) t]
  rfl

/-- The unit repetition stops at a closing parenthesis. -/
theorem parseUnits_close (t : Str) : parseUnits (')' :: t) = none := by
  rw [parseUnits_rec, parseUnit_close]

/-- The greedy unit repetition consumes the whole well-shaped unit list
and stops at the closing run. -/
theorem parseUnits_units : ∀ (keys : List Str), keys ≠ [] →
    (∀ K ∈ keys, TokenShaped K) → ∀ (t : Str),
    parseUnits (unitsFrom keys (')' :: t)) = some (')' :: t)
  | [], h, _, _ => absurd rfl h
  | [K], _, hts, t => by
    rw [show unitsFrom [K] (')' :: t) = K ++ lit0 ++ ')' :: t from rfl,
      parseUnits_rec, parseUnit_token_close (hts K (by simp)) t]
    simp only [parseUnits_close]
  | K1 :: K2 :: keys, _, hts, t => by
    rw [show unitsFrom (K1 :: K2 :: keys) (')' :: t) =
        K1 ++ lit0 ++ ',' :: unitsFrom (K2 :: keys) (')' :: t) from rfl,
      parseUnits_rec, parseUnit_token_comma (hts K1 (by simp)) _]
    simp only [parseUnits_units (K2 :: keys) (by simp)
      (fun K hK => hts K (by simp [hK])) t]

/-- One unfolding of the scanner at a nonempty input. -/
theorem scanKeys_cons (c : Char) (t : Str) :
    scanKeys (c :: t) = match scanToken (c :: t) with
      | some tr => tr.1 :: scanKeys tr.2
      | none => scanKeys t := scanKeys_rec (c :: t)

/-- The scanner collects a shaped token whole and resumes after it. -/
theorem scanKeys_token {K : Str} (h : TokenShaped K) (rest : Str) :
    scanKeys (K ++ '/' :: rest) = K :: scanKeys ('/' :: rest) := by
  obtain ⟨c1, c3, c4, body, hKe, h1, h34, hne, hal⟩ := h
  subst hKe
  simp only [List.cons_append]
  rw [scanKeys_cons]
  rw [show (c1 :: 'p' :: c3 :: c4 :: (body ++ '/' :: rest) : Str) =
    (c1 :: 'p' :: c3 :: c4 :: body) ++ '/' :: rest from by simp]
  rw [scanToken_token ⟨c1, c3, c4, body, rfl, h1, h34, hne, hal⟩ rest]

/-- The key scanner walks a well-shaped unit list and collects exactly
its keys. -/
theorem scanKeys_comma_units : ∀ (keys : List Str),
    (∀ K ∈ keys, TokenShaped K) → ∀ (X : Str),
    scanKeys (',' :: unitsFrom keys (')' :: X)) =
      keys ++ scanKeys (')' :: X)
  | [], _, X => by
    rw [show unitsFrom [] (')' :: X) = ')' :: X from rfl,
      scanKeys_skip ',' ')' (by decide) X]
    rfl
  | K :: keys, hts, X => by
    obtain ⟨c1, c3, c4, body, hKe, h1, h34, hne, hal⟩ := hts K (by simp)
    have hc1p : ¬ c1 = 'p' := by
      rcases h1 with h1 | h1 <;> subst h1 <;> decide
    have hstep : ∀ (R : Str), scanKeys (',' :: (K ++ lit0 ++ R)) =
        K :: scanKeys ('*' :: R) := by
      intro R
      rw [List.append_assoc,
        show lit0 ++ R = '/' :: '0' :: '/' :: '*' :: R from rfl, hKe]
      simp only [List.cons_append]
      rw [scanKeys_skip ',' c1 hc1p]
      rw [show (c1 :: 'p' :: c3 :: c4 ::
          (body ++ '/' :: '0' :: '/' :: '*' :: R) : Str) =
        (c1 :: 'p' :: c3 :: c4 :: body) ++
          '/' :: ('0' :: '/' :: '*' :: R) from by simp]
      rw [scanKeys_token ⟨c1, c3, c4, body, rfl, h1, h34, hne, hal⟩]
      rw [scanKeys_skip '/' '0' (by decide),
        scanKeys_skip '0' '/' (by decide),
        scanKeys_skip '/' '*' (by decide), ← hKe]
    cases keys with
    | nil =>
      rw [show unitsFrom [K] (')' :: X) = K ++ lit0 ++ ')' :: X from rfl,
        hstep (')' :: X), scanKeys_skip '*' ')' (by decide)]
      rfl
    | cons K2 keys2 =>
      rw [show unitsFrom (K :: K2 :: keys2) (')' :: X) =
          K ++ lit0 ++ ',' :: unitsFrom (K2 :: keys2) (')' :: X) from rfl,
        hstep _, scanKeys_skip '*' ',' (by decide),
        scanKeys_comma_units (K2 :: keys2)
          (fun K0 hK0 => hts K0 (by simp [hK0])) X]
      rfl

/-- A fixed alternative of the multisig pattern matches its own
well-shaped descriptor and captures its kind and threshold digit. -/
theorem tryMultisigKind_self (outer : Str) (c : Char)
    (hc : c.isDigit = true) (keys : List Str) (hne : keys ≠ [])
    (hts : ∀ K ∈ keys, TokenShaped K) (tail : Str) :
    tryMultisigKind outer (msDesc outer c keys tail) = some (outer, c) := by
  unfold tryMultisigKind msDesc
  rw [List.append_assoc, stripLit_append]
  simp only [Option.bind_eq_bind, Option.some_bind]
  rw [stripLit_append]
  simp only [Option.some_bind]
  rw [if_pos hc]
  rw [parseUnits_units keys hne hts tail]
  simp only [Option.some_bind]

/-- One unfolding of the leftmost-match search at a nonempty input. -/
theorem findMultisig_cons (x : Char) (t : Str) :
    findMultisig (x :: t) = match matchMultisigAt (x :: t) with
      | some r => some r
      | none => findMultisig t := rfl

/-- The leftmost multisig match on a well-shaped descriptor fires at
position zero and captures the descriptor's own outer kind; the ordered
alternation distinguishes `sh(wsh(sortedmulti(` from `wsh(sortedmulti(`
by the earlier failing literal probes. -/
theorem findMultisig_self (outer : Str)
    (houter : outer = litSh ∨ outer = litShWsh ∨ outer = litWsh)
    (c : Char) (hc : c.isDigit = true) (keys : List Str) (hne : keys ≠ [])
    (hts : ∀ K ∈ keys, TokenShaped K) (tail : Str) :
    findMultisig (msDesc outer c keys tail) = some (outer, c) := by
  rcases houter with ho | ho | ho <;> subst ho
  · have hm : matchMultisigAt (msDesc litSh c keys tail) =
        some (litSh, c) := by
      unfold matchMultisigAt
      rw [tryMultisigKind_self litSh c hc keys hne hts tail]
    have hD : msDesc litSh c keys tail = 's' :: 'h' :: '(' :: 's' :: 'o' ::
        'r' :: 't' :: 'e' :: 'd' :: 'm' :: 'u' :: 'l' :: 't' :: 'i' ::
        '(' :: c :: ',' :: unitsFrom keys (')' :: tail) := rfl
    rw [hD] at hm
    rw [hD, findMultisig_cons, hm]
  · have hm : matchMultisigAt (msDesc litShWsh c keys tail) =
        some (litShWsh, c) := by
      unfold matchMultisigAt
      rw [show tryMultisigKind litSh (msDesc litShWsh c keys tail) = none
          from rfl,
        tryMultisigKind_self litShWsh c hc keys hne hts tail]
    have hD : msDesc litShWsh c keys tail = 's' :: 'h' :: '(' :: 'w' ::
        's' :: 'h' :: '(' :: 's' :: 'o' :: 'r' :: 't' :: 'e' :: 'd' ::
        'm' :: 'u' :: 'l' :: 't' :: 'i' :: '(' :: c :: ',' ::
        unitsFrom keys (')' :: tail) := rfl
    rw [hD] at hm
    rw [hD, findMultisig_cons, hm]
  · have hm : matchMultisigAt (msDesc litWsh c keys tail) =
        some (litWsh, c) := by
      unfold matchMultisigAt
      rw [show tryMultisigKind litSh (msDesc litWsh c keys tail) = none
          from rfl,
        show tryMultisigKind litShWsh (msDesc litWsh c keys tail) = none
          from rfl,
        tryMultisigKind_self litWsh c hc keys hne hts tail]
    have hD : msDesc litWsh c keys tail = 'w' :: 's' :: 'h' :: '(' ::
        's' :: 'o' :: 'r' :: 't' :: 'e' :: 'd' :: 'm' :: 'u' :: 'l' ::
        't' :: 'i' :: '(' :: c :: ',' ::
        unitsFrom keys (')' :: tail) := rfl
    rw [hD] at hm
    rw [hD, findMultisig_cons, hm]

/-- A successful effectful map preserves the length. -/
theorem mapM_length {α β : Type} {f : α → Except Err β} :
    ∀ {l : List α} {ys : List β},
    l.mapM f = .ok ys → ys.length = l.length
  | [], ys, h => by
    rw [List.mapM_nil] at h
    cases h
    rfl
  | a :: l, ys, h => by
    rw [List.mapM_cons] at h
    cases hb : f a with
    | error e =>
      rw [hb, bind_error] at h
      exact absurd h (by simp)
    | ok b =>
      rw [hb, bind_ok] at h
      cases hbs : l.mapM f with
      | error e =>
        rw [hbs, bind_error] at h
        exact absurd h (by simp)
      | ok bs =>
        rw [hbs, bind_ok] at h
        cases h
        simp [mapM_length hbs]

/-- A digit character's value is at most nine. -/
theorem digitVal_le {c : Char} (hc : c.isDigit = true) : digitVal c ≤ 9 := by
  have h2 : c.toNat ≤ 57 := by
    simp [Char.isDigit] at hc
    obtain ⟨-, h2⟩ := hc
    rw [UInt32.le_def] at h2
    exact h2
  unfold digitVal
  omega

/-- `parse::<u8>` on a single digit character yields its value. -/
theorem parseU8_digit (c : Char) (hc : c.isDigit = true) :
    parseU8 [c] = some (digitVal c) := by
  unfold parseU8
  rw [if_neg (by simp)]
  rw [if_pos (by simp [List.all_cons, hc])]
  rw [if_pos (by
    have := digitVal_le hc
    simp only [List.foldl_cons, List.foldl_nil]
    omega)]
  simp only [List.foldl_cons, List.foldl_nil, Nat.zero_mul, Nat.zero_add]

/-- The key-token scanner over a well-shaped multisig descriptor collects
exactly its keys, in order, before resuming at the closing run. -/
theorem scanKeys_msDesc (outer : Str)
    (houter : outer = litSh ∨ outer = litShWsh ∨ outer = litWsh)
    (c : Char) (hc : c.isDigit = true) (keys : List Str)
    (hts : ∀ K ∈ keys, TokenShaped K) (tail : Str) :
    scanKeys (msDesc outer c keys tail) =
      keys ++ scanKeys (')' :: tail) := by
  have hcp : ¬ c = 'p' := digit_ne_p hc
  rcases houter with ho | ho | ho <;> subst ho
  · rw [show msDesc litSh c keys tail =
      's' :: 'h' :: '(' :: 's' :: 'o' :: 'r' :: 't' :: 'e' :: 'd' :: 'm' ::
        'u' :: 'l' :: 't' :: 'i' :: '(' :: c :: ',' ::
        unitsFrom keys (')' :: tail) from rfl]
    rw [scanKeys_skip 's' 'h' (by decide), scanKeys_skip 'h' '(' (by decide),
      scanKeys_skip '(' 's' (by decide), scanKeys_skip 's' 'o' (by decide),
      scanKeys_skip 'o' 'r' (by decide), scanKeys_skip 'r' 't' (by decide),
      scanKeys_skip 't' 'e' (by decide), scanKeys_skip 'e' 'd' (by decide),
      scanKeys_skip 'd' 'm' (by decide), scanKeys_skip 'm' 'u' (by decide),
      scanKeys_skip 'u' 'l' (by decide), scanKeys_skip 'l' 't' (by decide),
      scanKeys_skip 't' 'i' (by decide), scanKeys_skip 'i' '(' (by decide),
      scanKeys_skip '(' c hcp, scanKeys_skip c ',' (by decide),
      scanKeys_comma_units keys hts tail]
  · rw [show msDesc litShWsh c keys tail =
      's' :: 'h' :: '(' :: 'w' :: 's' :: 'h' :: '(' :: 's' :: 'o' :: 'r' ::
        't' :: 'e' :: 'd' :: 'm' :: 'u' :: 'l' :: 't' :: 'i' :: '(' :: c ::
        ',' :: unitsFrom keys (')' :: tail) from rfl]
    rw [scanKeys_skip 's' 'h' (by decide), scanKeys_skip 'h' '(' (by decide),
      scanKeys_skip '(' 'w' (by decide), scanKeys_skip 'w' 's' (by decide),
      scanKeys_skip 's' 'h' (by decide), scanKeys_skip 'h' '(' (by decide),
      scanKeys_skip '(' 's' (by decide), scanKeys_skip 's' 'o' (by decide),
      scanKeys_skip 'o' 'r' (by decide), scanKeys_skip 'r' 't' (by decide),
      scanKeys_skip 't' 'e' (by decide), scanKeys_skip 'e' 'd' (by decide),
      scanKeys_skip 'd' 'm' (by decide), scanKeys_skip 'm' 'u' (by decide),
      scanKeys_skip 'u' 'l' (by decide), scanKeys_skip 'l' 't' (by decide),
      scanKeys_skip 't' 'i' (by decide), scanKeys_skip 'i' '(' (by decide),
      scanKeys_skip '(' c hcp, scanKeys_skip c ',' (by decide),
      scanKeys_comma_units keys hts tail]
  · rw [show msDesc litWsh c keys tail =
      'w' :: 's' :: 'h' :: '(' :: 's' :: 'o' :: 'r' :: 't' :: 'e' :: 'd' ::
        'm' :: 'u' :: 'l' :: 't' :: 'i' :: '(' :: c :: ',' ::
        unitsFrom keys (')' :: tail) from rfl]
    rw [scanKeys_skip 'w' 's' (by decide), scanKeys_skip 's' 'h' (by decide),
      scanKeys_skip 'h' '(' (by decide), scanKeys_skip '(' 's' (by decide),
      scanKeys_skip 's' 'o' (by decide), scanKeys_skip 'o' 'r' (by decide),
      scanKeys_skip 'r' 't' (by decide), scanKeys_skip 't' 'e' (by decide),
      scanKeys_skip 'e' 'd' (by decide), scanKeys_skip 'd' 'm' (by decide),
      scanKeys_skip 'm' 'u' (by decide), scanKeys_skip 'u' 'l' (by decide),
      scanKeys_skip 'l' 't' (by decide), scanKeys_skip 't' 'i' (by decide),
      scanKeys_skip 'i' '(' (by decide), scanKeys_skip '(' c hcp,
      scanKeys_skip c ',' (by decide),
      scanKeys_comma_units keys hts tail]

/-- A failing construction propagates through the validation gate. -/
theorem gateBind_err {M : Except Err ElectrumWalletFile} {e : Err}
    (h : M = .error e) :
    (M >>= fun wallet => match wallet.validate with
      | .ok _ => (pure wallet : Except Err ElectrumWalletFile)
      | .error e2 => throw e2) = .error e := by
  rw [h, bind_error]

/-- A multisig descriptor with the two-digit threshold 10 and eleven
standard-format key tokens (so 1 ≤ 10 ≤ 11). -/
def c4BadDesc : Str :=
  ("sh(sortedmulti(10,tpubAAAA/0/*,tpubAAAA/0/*,tpubAAAA/0/*," ++
   "tpubAAAA/0/*,tpubAAAA/0/*,tpubAAAA/0/*,tpubAAAA/0/*,tpubAAAA/0/*," ++
   "tpubAAAA/0/*,tpubAAAA/0/*,tpubAAAA/0/*))").data

set_option maxRecDepth 100000 in
/-- C4 refuted as stated: the threshold capture of the multisig regex is
a single digit, so the well-formed descriptor with threshold 10 over
eleven key tokens (which the claim's premise `1 ≤ t ≤ n` admits) never
matches — `from_descriptor` rejects it with the unknown-multisig-format
error for every codec, even though the scanner extracts its eleven
keys. -/
theorem c4_multisig_parse_counterexample :
    findMultisig c4BadDesc = none ∧
    scanKeys c4BadDesc = List.replicate 11 "tpubAAAA".data ∧
    containsSM c4BadDesc = true ∧
    (∀ (B : Base58Check) (σ : List Nat → List Nat),
      ElectrumWalletFile.fromDescriptorMultisig B σ c4BadDesc =
        .error Err.unknownMultisigDescriptorFormat) ∧
    (∀ (B : Base58Check) (σ : List Nat → List Nat),
      ElectrumWalletFile.fromDescriptor B σ c4BadDesc =
        .error Err.unknownMultisigDescriptorFormat) := by
  have hfm : findMultisig c4BadDesc = none := by rfl
  have hms : ∀ (B : Base58Check) (σ : List Nat → List Nat),
      ElectrumWalletFile.fromDescriptorMultisig B σ c4BadDesc =
        .error Err.unknownMultisigDescriptorFormat := by
    intro B σ
    unfold ElectrumWalletFile.fromDescriptorMultisig
    rw [hfm]
    rfl
  refine ⟨hfm, by rfl, by rfl, hms, ?_⟩
  intro B σ
  unfold ElectrumWalletFile.fromDescriptor
  rw [if_pos (show containsSM c4BadDesc = true from by rfl)]
  exact gateBind_err (hms B σ)

/-- C4 amended.  Multisig descriptor parse with a single-digit threshold:
for every codec, every outer kind among `sh`, `sh(wsh` and `wsh` (the
ordered alternation separating the latter two), every digit threshold
character, and at least two well-shaped key tokens whose keystores build
successfully under the mapped-back kind (`sh → pkh`, others unchanged),
`from_descriptor_multisig` accepts the descriptor and returns the
`Multisig(digit, n)` wallet carrying those keystores in descriptor
order (`n` narrowed `as u8`). -/
theorem c4_multisig_parse_amended :
    ∀ (B : Base58Check) (σ : List Nat → List Nat) (outer : Str),
      (outer = litSh ∨ outer = litShWsh ∨ outer = litWsh) →
      ∀ (c : Char), c.isDigit = true →
      ∀ (keys : List Str), 2 ≤ keys.length →
      (∀ K ∈ keys, TokenShaped K) →
      ∀ (kss : List Keystore),
      keys.mapM (fun tok => Keystore.new B σ (mapOuter outer) tok) =
        .ok kss →
      ElectrumWalletFile.fromDescriptorMultisig B σ
        (msDesc outer c keys
          (if outer = litShWsh then "))".data else ")".data)) =
        .ok ⟨Addresses.new, .multisig (digitVal c) (kss.length % 256),
          kss⟩ := by
  intro B σ outer houter c hc keys h2 hts kss hm
  have hne : keys ≠ [] := by
    intro he
    rw [he] at h2
    simp at h2
  have hlen := mapM_length hm
  unfold ElectrumWalletFile.fromDescriptorMultisig
  rw [findMultisig_self outer houter c hc keys hne hts _]
  dsimp only
  rcases houter with ho | ho | ho <;> subst ho
  · rw [show (if litSh = litShWsh then "))".data else ")".data : Str) =
      ")".data from rfl]
    rw [if_neg (by decide), if_pos rfl]
    simp only [bind_pure]
    rw [scanKeys_msDesc litSh (Or.inl rfl) c hc keys hts ")".data,
      show scanKeys (')' :: ")".data) = ([] : List Str) from rfl,
      List.append_nil]
    rw [show mapOuter litSh = litPkh from rfl] at hm
    simp only [hm, bind_ok]
    rw [if_neg (by omega), parseU8_digit c hc]
    simp only [bind_pure]
    rfl
  · rw [show (if litShWsh = litShWsh then "))".data else ")".data : Str) =
      "))".data from rfl]
    rw [if_neg (by decide), if_neg (by decide), if_pos rfl]
    simp only [bind_pure]
    rw [scanKeys_msDesc litShWsh (Or.inr (Or.inl rfl)) c hc keys hts
        "))".data,
      show scanKeys (')' :: "))".data) = ([] : List Str) from rfl,
      List.append_nil]
    rw [show mapOuter litShWsh = litShWsh from rfl] at hm
    simp only [hm, bind_ok]
    rw [if_neg (by omega), parseU8_digit c hc]
    simp only [bind_pure]
    rfl
  · rw [show (if litWsh = litShWsh then "))".data else ")".data : Str) =
      ")".data from rfl]
    rw [if_pos rfl]
    simp only [bind_pure]
    rw [scanKeys_msDesc litWsh (Or.inr (Or.inr rfl)) c hc keys hts ")".data,
      show scanKeys (')' :: ")".data) = ([] : List Str) from rfl,
      List.append_nil]
    rw [show mapOuter litWsh = litWsh from rfl] at hm
    simp only [hm, bind_ok]
    rw [if_neg (by omega), parseU8_digit c hc]
    simp only [bind_pure]
    rfl

set_option maxRecDepth 200000 in
/-- C4 amended, instantiated at the model codec: a `2`-of-two descriptor
over the concrete `tpub` token parses into the expected multisig
wallet. -/
theorem c4_multisig_parse_amended_witness :
    ElectrumWalletFile.fromDescriptorMultisig modelB58 sigma0
      (msDesc litSh '2' [c2Key, c2Key] ")".data) =
      .ok ⟨Addresses.new, .multisig 2 2,
        [⟨Keystore.defaultType, none,
          modelEnc (pubPayload [0x04, 0x35, 0x87, 0xcf] wXpub)⟩,
         ⟨Keystore.defaultType, none,
          modelEnc (pubPayload [0x04, 0x35, 0x87, 0xcf] wXpub)⟩]⟩ := by
  have hts : ∀ K ∈ [c2Key, c2Key], TokenShaped K := by
    intro K hK
    have hK2 : K = c2Key := by
      simp only [List.mem_cons, List.not_mem_nil, or_false] at hK
      rcases hK with h | h <;> exact h
    subst hK2
    exact ⟨'t', 'u', 'b', c2Key.drop 4, by rfl, Or.inl rfl,
      Or.inl ⟨rfl, rfl⟩, by decide, by decide⟩
  exact c4_multisig_parse_amended modelB58 sigma0 litSh (Or.inl rfl) '2'
    (by decide) [c2Key, c2Key] (by decide) hts
    [⟨Keystore.defaultType, none,
      modelEnc (pubPayload [0x04, 0x35, 0x87, 0xcf] wXpub)⟩,
     ⟨Keystore.defaultType, none,
      modelEnc (pubPayload [0x04, 0x35, 0x87, 0xcf] wXpub)⟩] (by rfl)

/-- C10.  Decode totality: `ElectrumExtendedPubKey::from_str` is a total
function of its input — for every codec and every input string it returns
`Ok` or a proper error value and never reaches a panic; in particular
every fixed-offset slice of the decoded payload (version bytes, depth,
fingerprint, child number, chain code, public key) is only taken under
the 78-byte length guard, so no indexing is out of bounds. -/
theorem c10_fromStr_total (B : Base58Check) (s : Str) :
    panicFree (ElectrumExtendedPubKey.fromStr B s) = true := by
  unfold ElectrumExtendedPubKey.fromStr
  cases hdec : B.dec s with
  | none => rfl
  | some data =>
    rw [show ofB58 (some data) = pure data from rfl, bind_pure]
    exact decodePubPayload_panicFree data

end E2D
